import Mathlib

set_option maxRecDepth 1000000

/-!
# Verification of the Jekyll blog admin tool (`tools/admin/app.py`)

This file gives a shallow embedding, in Lean 4, of the pure content of the
blog-admin backend found in `src/tools/admin/app.py`, and settles the frozen
claims about it.  Text is modelled as `List Char` (one Python `str` character
per list element); filesystem writes and deletions are modelled by explicit
effect traces; the regular expressions used by the tool are embedded by
dedicated matching functions whose doc comments cite the exact pattern they
translate.
-/

namespace BlogAdmin

/-! ## Basic text utilities -/

/-- Characters of a string literal, as a `List Char`. -/
def strL (s : String) : List Char := s.data

/-- Python whitespace: the six ASCII whitespace characters stripped by
`str.strip()` and matched by the regex class `\s` on ASCII input. -/
def isPyWs (c : Char) : Bool :=
  c == ' ' || c == '\t' || c == '\n' || c == '\r' || c == '\x0b' || c == '\x0c'

/-- Python `str.lstrip()` on ASCII text. -/
def pyLStrip (l : List Char) : List Char := l.dropWhile isPyWs

/-- Python `str.rstrip()` on ASCII text. -/
def pyRStrip (l : List Char) : List Char := (l.reverse.dropWhile isPyWs).reverse

/-- Python `str.strip()` on ASCII text. -/
def pyStrip (l : List Char) : List Char := pyLStrip (pyRStrip l)

/-- `lPre p l` : `p` is a (list) prefix of `l`. -/
def lPre : List Char → List Char → Bool
  | [], _ => true
  | _ :: _, [] => false
  | a :: p, b :: l => a == b && lPre p l

/-- Split on a character (Python `str.split(c)` with a one-character
separator: n separators yield n+1 pieces, empty pieces included). -/
def splitOnChar (c : Char) : List Char → List (List Char)
  | [] => [[]]
  | a :: l =>
    if a == c then [] :: splitOnChar c l
    else
      match splitOnChar c l with
      | [] => [[a]]
      | p :: ps => (a :: p) :: ps

/-- Join pieces with a separator character (inverse of `splitOnChar`). -/
def joinWith (c : Char) : List (List Char) → List Char
  | [] => []
  | [l] => l
  | l :: ls => l ++ c :: joinWith c ls

/-- Join lines with `'\n'`. -/
def joinLines : List (List Char) → List Char := joinWith '\n'

/-! ## Path model (`os.path` on POSIX, no symbolic links)

`os.path.join` and `os.path.realpath` are modelled for POSIX paths under
the assumption that no symbolic links are involved, which is how the admin
tool uses them: `realpath` then coincides with lexical normalisation of an
absolute path. -/

/-- `os.path.join(a, b)` (POSIX, two arguments). -/
def osJoin (a b : List Char) : List Char :=
  if b.head? == some '/' then b
  else if a == [] then b
  else if a.getLast? == some '/' then a ++ b
  else a ++ '/' :: b

/-- Normalisation core: process `..`/`.`/empty path segments of an absolute
path, the accumulator holding already-accepted segments in reverse
(`..` above the root is dropped, as POSIX prescribes). -/
def normSegs (acc : List (List Char)) : List (List Char) → List (List Char)
  | [] => acc.reverse
  | seg :: rest =>
    if seg == [] || seg == ['.'] then normSegs acc rest
    else if seg == ['.', '.'] then normSegs (acc.drop 1) rest
    else normSegs (seg :: acc) rest

/-- `os.path.realpath` on an absolute path in a filesystem without symbolic
links: lexical normalisation. -/
def realpathModel (p : List Char) : List Char :=
  '/' :: joinWith '/' (normSegs [] (splitOnChar '/' p))

/-- Errors surfaced through Flask's `abort(code, message)`. -/
structure HttpError where
  code : Nat
  msg : String
deriving DecidableEq, Repr

/-- `safe_path` (app.py lines 89-95): resolve `requested` under
`allowed_base` and reject traversal with `abort(403, 'Invalid path')`.
The function itself performs no filesystem operation: it only inspects the
two resolved path strings. -/
def safe_path (requested allowed_base : List Char) : Except HttpError (List Char) :=
  let abs_base := realpathModel allowed_base
  let abs_target := realpathModel (osJoin allowed_base requested)
  if !(lPre (abs_base ++ ['/']) abs_target) && abs_target != abs_base then
    .error ⟨403, "Invalid path"⟩
  else
    .ok abs_target

/-! ## VCS gateway: the auto-generated commit message

`git_commit_and_push` (app.py lines 323-371) builds its commit message from
the staged file list when no explicit message is supplied.  The
message-building step (lines 336-351) is pure and is embedded here. -/

/-- `os.path.basename` for the POSIX paths reported by `git diff`. -/
def posixBasename (f : List Char) : List Char :=
  (splitOnChar '/' f).getLastD []

/-- The categorised entry built for one changed file
(app.py lines 339-348). -/
def commitEntry (f : List Char) : List Char :=
  let basename := posixBasename f
  if lPre (strL "_posts/") f then strL "post: " ++ basename
  else if lPre (strL "_drafts/") f then strL "draft: " ++ basename
  else if lPre (strL "assets/") f then strL "asset: " ++ basename
  else basename

/-- Decimal digits of a natural number, most significant first
(Python `str(n)` for a non-negative int). -/
def natDigits (n : Nat) : List Char := (Nat.toDigits 10 n)

/-- Join pieces with a multi-character separator (Python `sep.join`). -/
def joinSep (sep : List Char) : List (List Char) → List Char
  | [] => []
  | [l] => l
  | l :: ls => l ++ sep ++ joinSep sep ls

/-- The auto-generated commit message of `git_commit_and_push`
(app.py lines 336-351): entries for the first 5 staged files, plus an
`...and N more` marker when more than 5 files changed. -/
def autoCommitMessage (files : List (List Char)) : List Char :=
  let parts := (files.take 5).map commitEntry
  let parts :=
    if files.length > 5 then
      parts ++ [strL "...and " ++ natDigits (files.length - 5) ++ strL " more"]
    else parts
  strL "Update: " ++ joinSep (strL ", ") parts

/-! ## Text model codec

`save_post` (app.py lines 190-229) serialises a post through
`frontmatter.dumps` (python-frontmatter 1.x: `POST_TEMPLATE` =
`"{start}\n{metadata}\n{end}\n\n{content}\n"` followed by `.strip()`, with
the metadata exported by `yaml.dump(meta, default_flow_style=False,
allow_unicode=True)` and then stripped) and appends `'\n'`.
`parse_post` (lines 140-170) reads a file back through `frontmatter.load`
(strip the text, split on the first two boundary lines matching
`^-{3,}\s*$`, `yaml.safe_load` the middle part, strip the remainder).

The yaml dump/load pair is embedded for the restricted document family the
encoder produces: a string-valued `title` plus block lists of plain scalar
strings under `tags`/`categories`, keys emitted in sorted order
(`categories` < `tags` < `title`) and the empty title dumped as `''`. -/

/-- Characters accepted by the slug regex class `[a-zA-Z0-9_-]`. -/
def slugChar (c : Char) : Bool := c.isAlpha || c.isDigit || c == '_' || c == '-'

/-- Slug validation of `save_post` (app.py lines 197-199):
`slug = data.get('slug','').strip()`, rejected unless non-empty and matching
`^[a-zA-Z0-9_-]+$`. -/
def validSlug (s : List Char) : Bool :=
  let t := pyStrip s
  !t.isEmpty && t.all slugChar

/-- One dumped yaml block-sequence item (`- value`). -/
def yamlItem (s : List Char) : List Char := strL "- " ++ s

/-- Lines of the yaml dump of the metadata dict built by `save_post`
(app.py lines 210-216): `title` always present (empty string dumped as
`''`), `tags`/`categories` only when non-empty, keys in `yaml.dump`'s
sorted order. -/
def yamlMetaLines (title : List Char) (tags categories : List (List Char)) :
    List (List Char) :=
  (if categories.isEmpty then [] else strL "categories:" :: categories.map yamlItem)
    ++ (if tags.isEmpty then [] else strL "tags:" :: tags.map yamlItem)
    ++ [strL "title: " ++ (if title.isEmpty then strL "''" else title)]

/-- `frontmatter.dumps(post)`: the filled `POST_TEMPLATE`, stripped. -/
def fmDumps (title : List Char) (tags categories : List (List Char))
    (body : List Char) : List Char :=
  pyStrip (strL "---\n" ++ (joinLines (yamlMetaLines title tags categories)
    ++ (strL "\n---\n\n" ++ (body ++ ['\n']))))

/-- The document text `save_post` writes (app.py line 227):
`frontmatter.dumps(post) + '\n'`. -/
def encodePost (title : List Char) (tags categories : List (List Char))
    (body : List Char) : List Char :=
  fmDumps title tags categories body ++ ['\n']

/-- A front-matter boundary line: python-frontmatter's `FM_BOUNDARY`
regex `^-{3,}\s*$` applied to a single (newline-free) line. -/
def isBoundaryLine (l : List Char) : Bool :=
  (l.takeWhile (· == '-')).length ≥ 3 && (l.dropWhile (· == '-')).all isPyWs

/-- Split a line list just before its first boundary line. -/
def breakAtBoundary : List (List Char) → (List (List Char) × List (List Char))
  | [] => ([], [])
  | l :: ls =>
    if isBoundaryLine l then ([], l :: ls)
    else
      let (a, b) := breakAtBoundary ls
      (l :: a, b)

/-- The split step of `frontmatter.parse`: strip the text; if it opens with
a boundary line and a second boundary line follows, return the lines
strictly between the two boundaries together with the stripped remainder,
otherwise `none` (no front matter: the caller keeps default metadata).
`FM_BOUNDARY.split(text, 2)` removes only the matched boundary lines plus
adjacent pure whitespace, and `parse` strips the content piece, so the
line-wise split shown here yields exactly the same stripped content. -/
def fmSplit (text : List Char) : Option (List (List Char) × List Char) :=
  let t := pyStrip text
  match splitOnChar '\n' t with
  | [] => none
  | l0 :: rest =>
    if isBoundaryLine l0 then
      match breakAtBoundary rest with
      | (_, []) => none
      | (fmLines, _ :: contentLines) => some (fmLines, pyStrip (joinLines contentLines))
    else none

/-- Metadata of a decoded document, after the defaulting done at
app.py lines 164-166 (`metadata.get('title','')`,
`metadata.get('tags',[]) or []`, same for `categories`). -/
structure FmMeta where
  title : List Char
  tags : List (List Char)
  categories : List (List Char)
deriving DecidableEq, Repr

/-- Which block sequence a yaml load is currently inside. -/
inductive FmKey where
  | tags
  | categories
deriving DecidableEq, Repr, BEq

/-- Yaml scalar read-back: the quoted empty string `''` loads as the empty
string, plain scalars load as themselves. -/
def unquoteScalar (v : List Char) : List Char :=
  if v == strL "''" then [] else v

/-- `yaml.safe_load` on the restricted line family produced by
`yamlMetaLines`: `key:` heading lines followed by `- item` lines for the
two list-valued keys, plus a scalar `title:` line; anything else is
ignored. -/
def fmLoadSM : Option FmKey → List (List Char) → FmMeta → FmMeta
  | _, [], m => m
  | cur, l :: rest, m =>
    if cur == some FmKey.tags && lPre (strL "- ") l then
      fmLoadSM cur rest { m with tags := m.tags ++ [pyStrip (l.drop 2)] }
    else if cur == some FmKey.categories && lPre (strL "- ") l then
      fmLoadSM cur rest { m with categories := m.categories ++ [pyStrip (l.drop 2)] }
    else if l.all isPyWs then fmLoadSM none rest m
    else if l == strL "tags:" then fmLoadSM (some FmKey.tags) rest m
    else if l == strL "categories:" then fmLoadSM (some FmKey.categories) rest m
    else if lPre (strL "title:") l then
      fmLoadSM none rest { m with title := unquoteScalar (pyStrip (l.drop 6)) }
    else fmLoadSM none rest m

/-- `\d{4}-\d{2}-\d{2}` check on exactly ten characters. -/
def dateShaped (d : List Char) : Bool :=
  match d with
  | [a, b, c, e, h1, f, g, h2, i, j] =>
    a.isDigit && b.isDigit && c.isDigit && e.isDigit && h1 == '-'
      && f.isDigit && g.isDigit && h2 == '-' && i.isDigit && j.isDigit
  | _ => false

/-- The filename regex of `parse_post` (app.py line 146):
`^(\d{4}-\d{2}-\d{2})-(.+)\.md$`, returning the `(date, slug)` groups.
The greedy `(.+)` together with the anchored `\.md$` captures everything
up to the final three characters. -/
def matchDateSlug (fn : List Char) : Option (List Char × List Char) :=
  let d := fn.take 10
  if dateShaped d && fn.get? 10 == some '-' then
    let rest := fn.drop 11
    if rest.length > 3 && rest.drop (rest.length - 3) == strL ".md" then
      some (d, rest.take (rest.length - 3))
    else none
  else none

/-- `os.path.splitext(filename)[0]`: everything before the final dot,
where the dots of an all-dot leading run do not count as an extension
separator. -/
def splitextStem (fn : List Char) : List Char :=
  let lead := fn.takeWhile (· == '.')
  let rest := fn.drop lead.length
  let revIdx := rest.reverse.takeWhile (· != '.')
  if revIdx.length == rest.length then fn
  else lead ++ rest.take (rest.length - revIdx.length - 1)

/-- The structured result of `parse_post` (app.py lines 140-170), keeping
the pure fields (`path`, `is_draft` and `excerpt` are derived from the
filesystem location or the body and are not needed by any claim). -/
structure ParsedPost where
  date : List Char
  slug : List Char
  title : List Char
  tags : List (List Char)
  categories : List (List Char)
  body : List Char
deriving DecidableEq, Repr

/-- `parse_post` (app.py lines 140-170) on a file's text and basename;
`today` stands for `str(date.today())` in the fallback branch. -/
def parse_post (fileContent filename today : List Char) : ParsedPost :=
  let (meta, content) :=
    match fmSplit fileContent with
    | some (fmLines, content) =>
      (fmLoadSM none fmLines ⟨[], [], []⟩, content)
    | none => (⟨[], [], []⟩, pyStrip fileContent)
  let (d, s) :=
    match matchDateSlug filename with
    | some (d, s) => (d, s)
    | none => (today, splitextStem filename)
  { date := d, slug := s, title := meta.title, tags := meta.tags,
    categories := meta.categories, body := content }

/-! ## `save_post` with an explicit effect trace -/

/-- The input dict of `save_post`. -/
structure PostData where
  title : List Char
  date : List Char
  slug : List Char
  tags : List (List Char)
  categories : List (List Char)
  body : List Char
  is_draft : Bool

/-- Filesystem effects `save_post` can perform, in program order. -/
inductive FsOp where
  | makedirs (dir : List Char)
  | removeFile (path : List Char)
  | writeFile (path : List Char) (content : List Char)
deriving DecidableEq, Repr

/-- The ambient filesystem facts `save_post` consults:
`os.path.realpath` and `os.path.exists`. -/
structure FsEnv where
  realpath : List Char → List Char
  pathExists : List Char → Bool

/-- `BLOG_ROOT` (app.py line 27), an absolute directory fixed at startup. -/
def BLOG_ROOT : List Char := strL "/blog"

/-- `POSTS_DIR` (app.py line 28). -/
def POSTS_DIR : List Char := osJoin BLOG_ROOT (strL "_posts")

/-- `DRAFTS_DIR` (app.py line 29). -/
def DRAFTS_DIR : List Char := osJoin BLOG_ROOT (strL "_drafts")

/-- The destination filename `f"{data['date']}-{slug}.md"` (app.py
line 206). -/
def postFilename (date slug : List Char) : List Char :=
  date ++ '-' :: slug ++ strL ".md"

/-- `os.path.relpath(p, BLOG_ROOT)` for paths below `BLOG_ROOT`. -/
def relpathUnderRoot (p : List Char) : List Char :=
  if lPre (BLOG_ROOT ++ ['/']) p then p.drop (BLOG_ROOT.length + 1) else p

/-- The absolute path of the original file (app.py line 222). -/
def oldAbsOf (original_path : List Char) : List Char :=
  osJoin BLOG_ROOT original_path

/-- The destination path of a save (app.py lines 203-207). -/
def saveDest (data : PostData) : List Char :=
  let target_dir := if data.is_draft then DRAFTS_DIR else POSTS_DIR
  osJoin target_dir (postFilename data.date (pyStrip data.slug))

/-- `save_post` (app.py lines 190-229) with its filesystem effects recorded
as an ordered trace: validate the slug (abort 400), `os.makedirs` the
target directory, remove the old file when an original path is given whose
`realpath` differs from the destination's and which exists, then write the
new document; returns the trace and the returned relative path. -/
def save_post (env : FsEnv) (data : PostData) (original_path : Option (List Char)) :
    Except HttpError (List FsOp × List Char) :=
  let slug := pyStrip data.slug
  if slug.isEmpty || !slug.all slugChar then .error ⟨400, "Invalid slug"⟩
  else
    let target_dir := if data.is_draft then DRAFTS_DIR else POSTS_DIR
    let dest := osJoin target_dir (postFilename data.date slug)
    let content := encodePost data.title data.tags data.categories data.body
    let removeOps : List FsOp :=
      match original_path with
      | none => []
      | some op =>
        let old_abs := oldAbsOf op
        if env.realpath old_abs != env.realpath dest && env.pathExists old_abs then
          [FsOp.removeFile old_abs]
        else []
    .ok (FsOp.makedirs target_dir :: removeOps ++ [FsOp.writeFile dest content],
      relpathUnderRoot dest)

/-- The effect trace of a `save_post` result (an aborted call performed no
filesystem operation). -/
def fsOpsOf (r : Except HttpError (List FsOp × List Char)) : List FsOp :=
  match r with
  | .ok (tr, _) => tr
  | .error _ => []

/-- `true` when every `removeFile` in the trace is preceded by some
`writeFile`: the formal reading of "the prior file is deleted only after
the new file has been written". -/
def deletesOnlyAfterWrite (tr : List FsOp) : Bool :=
  (List.range tr.length).all fun i =>
    match tr.get? i with
    | some (FsOp.removeFile _) =>
      (List.range i).any fun j =>
        match tr.get? j with
        | some (FsOp.writeFile _ _) => true
        | _ => false
    | _ => true

/-! ## Config patch engine (`api_save_sidebar`, app.py lines 809-862)

`_config.yml` is edited by seven `re.sub(..., count=1, flags=re.MULTILINE)`
passes over the whole file text.  `re.MULTILINE` only affects `^` and `$`:
the `\s` inside the patterns still matches a newline, so a match may cross
line boundaries — on a key with an empty value the post-colon `\s*`
swallows the newline and the `.*$` rewrite lands on the following line.
Each pass is modelled on the whole text: the pattern is tried at every
`^` position (offset 0 and immediately after each newline, the end
position included) from left to right, and the replacement is spliced in
at the first match.  Replacement values are inserted literally (faithful
for values without a backslash, which `re.sub` would expand as escapes). -/

/-- A text prefix that ends at a line boundary (a `^` position of
`re.MULTILINE`). -/
def lineComplete (X : List Char) : Prop :=
  X = [] ∨ X.getLast? = some '\n'

/-- Spec-side description of one commit-message entry, written after the
spec's words: "post: <basename>" for paths under `_posts/`, "draft:" for
`_drafts/`, "asset:" for `assets/`, and the bare basename otherwise. -/
def specCommitEntry (f : List Char) : List Char :=
  if lPre (strL "_posts/") f then strL "post: " ++ posixBasename f
  else if lPre (strL "_drafts/") f then strL "draft: " ++ posixBasename f
  else if lPre (strL "assets/") f then strL "asset: " ++ posixBasename f
  else posixBasename f

/-- Spec-side "…and N more" marker. -/
def specMoreMarker (n : Nat) : List Char :=
  strL "...and " ++ natDigits n ++ strL " more"

/-- A filesystem with no symbolic links in which every path exists:
`realpath` is lexical normalisation. -/
def envAllExist : FsEnv := ⟨realpathModel, fun _ => true⟩

/-- A concrete post used by counterexamples and witnesses. -/
def samplePost : PostData :=
  { title := strL "T", date := strL "2024-01-02", slug := strL "new",
    tags := [], categories := [], body := strL "b", is_draft := false }

/-- A normalised absolute POSIX path: `/` or `/seg/…/seg` with non-empty
segments none of which is `.` or `..`.  `realpathModel` fixes exactly
these. -/
def normalAbsPath (p : List Char) : Bool :=
  match p with
  | '/' :: rest =>
    if rest.isEmpty then true
    else (splitOnChar '/' rest).all fun s =>
      !s.isEmpty && s != ['.'] && s != ['.', '.']
  | _ => false

/-- `true` when the trace contains no `removeFile`. -/
def noRemove (tr : List FsOp) : Bool :=
  tr.all fun o =>
    match o with
    | FsOp.removeFile _ => false
    | _ => true

/-- Characters of yaml scalars that `yaml.dump` (SafeDumper) emits in plain
style: letters, digits, spaces, `-` and `_`. -/
def plainScalarChar (c : Char) : Bool :=
  c.isAlpha || c.isDigit || c == ' ' || c == '-' || c == '_'

/-- The yaml 1.1 plain-scalar words that resolve to booleans or null and
would therefore be quoted by `yaml.dump` / re-typed by `yaml.safe_load`. -/
def yamlReserved : List (List Char) :=
  [strL "y", strL "Y", strL "yes", strL "Yes", strL "YES",
   strL "n", strL "N", strL "no", strL "No", strL "NO",
   strL "true", strL "True", strL "TRUE",
   strL "false", strL "False", strL "FALSE",
   strL "on", strL "On", strL "ON", strL "off", strL "Off", strL "OFF",
   strL "null", strL "Null", strL "NULL", strL "~"]

/-- A string that `yaml.dump` emits as an unquoted one-line plain scalar and
that `yaml.safe_load` reads back as exactly the same string: non-empty,
made of `plainScalarChar`s, starting with a letter (so no number/timestamp
resolution), not ending in a space, and not a reserved bool/null word. -/
def plainScalar (s : List Char) : Bool :=
  !s.isEmpty && s.all plainScalarChar &&
    (match s.head? with | some c => c.isAlpha | none => false) &&
    (match s.getLast? with | some c => c != ' ' | none => false) &&
    !(yamlReserved.contains s)

/-- The `links` dict parsed by `_parse_profile` (app.py lines 450-460): a
key is present exactly when its regex matched. -/
structure PLinks where
  linkedin : Option (List Char)
  github : Option (List Char)
  twitter : Option (List Char)
  email : Option (List Char)
deriving DecidableEq, Repr

/-- One entry of `recent_publications`. -/
structure Pub where
  url : List Char
  title : List Char
  source : List Char
deriving DecidableEq, Repr

/-- The dict handled by `_parse_profile` / `_save_profile`. -/
structure ProfileRecord where
  name_primary : List Char
  name_secondary : List Char
  affiliation : List Char
  bio : List Char
  keywords : List Char
  thesis : List Char
  cv_pdf : List Char
  links : PLinks
  recent_publications : List Pub
deriving DecidableEq, Repr

/-- One `recent_publications` line of the rendered page (app.py line 485). -/
def pubEntry (p : Pub) : List Char :=
  strL "      <li><a href=\"" ++ (p.url ++ (strL "\">" ++ (p.title
    ++ (strL "</a> <span class=\"text-muted\">" ++ (p.source
    ++ strL "</span></li>\n")))))

/-- The publications loop of `_save_profile` (app.py lines 482-485): an
entry is emitted only when both `url` and `title` are truthy. -/
def pubsHtml : List Pub → List Char
  | [] => []
  | p :: ps =>
    (if !p.url.isEmpty && !p.title.isEmpty then pubEntry p else [])
      ++ pubsHtml ps

/-- `data.get('bio','').replace('\n', '<br>\n      ')` (app.py line 566). -/
def nlToBr (s : List Char) : List Char :=
  s.foldr (fun c acc => if c == '\n' then strL "<br>\n      " ++ acc else c :: acc) []

/-- The `lang == 'ko'` language-switch block (app.py lines 488-492). -/
def lsKo : List Char :=
  strL "  <!-- Language switch -->\n  <div class=\"lang-switch\">\n    <a href=\"/\" class=\"lang-inactive\">EN</a>\n    <span class=\"lang-active\">KR</span>\n  </div>\n\n"

/-- The `lang != 'ko'` language-switch block (app.py lines 496-500). -/
def lsEn : List Char :=
  strL "  <!-- Language switch -->\n  <div class=\"lang-switch\">\n    <span class=\"lang-active\">EN</span>\n    <a href=\"/ko/\" class=\"lang-inactive\">KR</a>\n  </div>\n\n"

/-!
The html template of `_save_profile` (app.py lines 504-570), cut into the
named pieces between the interpolated fields; the `{{`/`}}` of the python
format string are single braces in the output. The pieces around the
`heading` format string (app.py line 493) are inlined: the rendered page is
`pSeg0 ++ lang_switch ++ pSeg1a ++ "<h1" ++ pSeg1c ++ name_primary ++
" <span " ++ ... ` exactly as `str.format` produces it; the extra cut
points (`pSeg1b`/`pSeg2b`/...) mark the substrings the parse regexes
anchor on.
-/

def pSeg0 : List Char :=
  strL "---\nlayout: default\n---\n\n\x7b% include lang.html %\x7d\n\n<article class=\"px-1\">\n"

def pSeg1a : List Char :=
  strL "  <!-- Header -->\n  <div class=\"profile-header mb-4\">\n    "

def pSeg1b : List Char := strL "<h1"

def pSeg1c : List Char := strL " class=\"mt-0 mb-1\">"

def pSeg2a : List Char := strL " <span "

def pSeg2b : List Char := strL "class=\"profile-name-en\""

def pSeg2c : List Char := strL ">/ "

def pSeg3a : List Char := strL "</span></h1>\n    <p "

def pSeg3b : List Char := strL "class=\"profile-affiliation"

def pSeg3c : List Char := strL " mb-1\">"

def pSeg4a : List Char := strL "</p>\n    <p "

def pSeg4b : List Char := strL "class=\"profile-bio"

def pSeg4c : List Char := strL " text-muted\">\n      "

def pSeg5a : List Char :=
  strL "\n    </p>\n  </div>\n\n  <!-- Research Interests -->\n  <div class=\"profile-section\">\n    <h2 class=\"profile-section-title\">Research Interests</h2>\n    <p "

def pSeg5b : List Char := strL "class=\"profile-keywords\""

def pSeg5c : List Char := strL ">\n      "

def pSeg6a : List Char := strL "\n    </p>\n  </div>\n\n  "

def pSeg6b : List Char := strL "<!-- Thesis -->"

def pSeg6c : List Char :=
  strL "\n  <div class=\"profile-section\">\n    <h2 class=\"profile-section-title\">Thesis</h2>\n    <p class=\"text-muted fst-italic\">\n      "

def pSeg7 : List Char :=
  strL "\n    </p>\n  </div>\n\n  <!-- Recent Publications -->\n  <div class=\"profile-section\">\n    <h2 class=\"profile-section-title\">Recent Publications</h2>\n    <ul class=\"profile-list\">\n"

def pSeg8 : List Char :=
  strL "    </ul>\n    <a href=\"/publications/\" class=\"profile-see-all\">See all &rarr;</a>\n  </div>\n\n  <!-- Latest Posts -->\n  <div class=\"profile-section\">\n    <h2 class=\"profile-section-title\">Latest Posts</h2>\n    <ul class=\"profile-list\">\n      \x7b% assign recent_posts = site.posts | where_exp: 'item', 'item.hidden != true' %\x7d\n      \x7b% for post in recent_posts limit: 3 %\x7d\n        <li>\n          <a href=\"\x7b\x7b post.url | relative_url \x7d\x7d\">\x7b\x7b post.title \x7d\x7d</a>\n          <span class=\"text-muted\">\x7b\x7b post.date | date: \"%Y.%m\" \x7d\x7d</span>\n        </li>\n      \x7b% endfor %\x7d\n    </ul>\n    <a href=\"/blog/\" class=\"profile-see-all\">See all &rarr;</a>\n  </div>\n</article>\n"

/-- The full page for a given language-switch block: the filled template of
`_save_profile`. -/
def renderCore (ls : List Char) (r : ProfileRecord) : List Char :=
  pSeg0 ++ (ls ++ (pSeg1a ++ (pSeg1b ++ (pSeg1c ++ (r.name_primary
    ++ (pSeg2a ++ (pSeg2b ++ (pSeg2c ++ (r.name_secondary
    ++ (pSeg3a ++ (pSeg3b ++ (pSeg3c ++ (r.affiliation
    ++ (pSeg4a ++ (pSeg4b ++ (pSeg4c ++ (nlToBr r.bio
    ++ (pSeg5a ++ (pSeg5b ++ (pSeg5c ++ (r.keywords
    ++ (pSeg6a ++ (pSeg6b ++ (pSeg6c ++ (r.thesis
    ++ (pSeg7 ++ (pubsHtml r.recent_publications
    ++ pSeg8)))))))))))))))))))))))))))

/-- `_save_profile` (app.py lines 480-573) as the html it writes: the
language switch is chosen by `lang == 'ko'`, everything else is the filled
template. -/
def save_profile (r : ProfileRecord) (lang : List Char) : List Char :=
  renderCore (if lang == strL "ko" then lsKo else lsEn) r

/-! ### The regex matchers of `_parse_profile`

Each `re` pattern of `_parse_profile` is embedded as a deterministic
matcher. `re.search` scans start positions left to right (`scanO`); the
per-position attempt mirrors the pattern's backtracking:

* `[^x]*` / `[^x]+` followed by the literal `x` can only take the maximal
  run (a shorter run would leave a non-`x` character where `x` is
  required), giving `runTo`;
* a lazy `(.+?)` followed by a literal takes the shortest non-empty
  prefix, i.e. everything up to the first occurrence of the literal at
  offset ≥ 1 (`lazyTil`);
* `\s*(.+?)LIT` with `LIT` starting on a non-whitespace character: the
  greedy `\s*` first takes the whole whitespace run, and the lazy group
  stops at the first occurrence of `LIT` at least one character later; when
  there is none, backtracking the `\s*` by one character succeeds exactly
  when `LIT` starts right at the end of the whitespace run (the group is
  then that single whitespace character); shortening `\s*` further only
  re-tests the same occurrence, so nothing else can match (`wsLazyTil`);
* `\s*(.+?)\s*LIT` likewise, with the trailing `\s*LIT` forced to take the
  full whitespace run at the group's end, since `LIT` starts on `<`
  (`wsLazyWsTil`, with `condSuf`/`findCond` testing `\s*LIT` at a
  position).
-/

/-- Length of the leading whitespace run. -/
def wsRun (s : List Char) : Nat := (s.takeWhile isPyWs).length

/-- `[^x]*` then the literal `x`: the run and what follows the `x`. -/
def runTo (x : Char) (s : List Char) : Option (List Char × List Char) :=
  let run := s.takeWhile (· != x)
  match s.drop run.length with
  | _ :: t => some (run, t)
  | [] => none

/-- First index at which `pat` is a prefix. -/
def findFrom (pat : List Char) : List Char → Option Nat
  | [] => if pat.isEmpty then some 0 else none
  | c :: t => if lPre pat (c :: t) then some 0 else (findFrom pat t).map (· + 1)

/-- `pat` occurs somewhere in `s`. -/
def containsSub (pat s : List Char) : Bool := (findFrom pat s).isSome

/-- `(.+?)lit`: the group and what follows the literal. -/
def lazyTil (lit : List Char) (s : List Char) : Option (List Char × List Char) :=
  match s with
  | [] => none
  | _ :: t =>
    match findFrom lit t with
    | some j => some (s.take (j + 1), t.drop (j + lit.length))
    | none => none

/-- `\s*(.+?)lit`, `lit` starting on a non-whitespace character. -/
def wsLazyTil (lit : List Char) (s : List Char) : Option (List Char × List Char) :=
  let w := wsRun s
  match lazyTil lit (s.drop w) with
  | some r => some r
  | none =>
    if 1 ≤ w && lPre lit (s.drop w) then
      some ((s.take w).drop (w - 1), (s.drop w).drop lit.length)
    else none

/-- Whether `\s*lit` matches at the head of `t`: the greedy `\s*` must take
the full whitespace run because `lit` starts on a non-whitespace char. -/
def condSuf (lit t : List Char) : Bool := lPre lit (t.drop (wsRun t))

/-- First index whose suffix satisfies `condSuf`. -/
def findCond (lit : List Char) : List Char → Option Nat
  | [] => if lit.isEmpty then some 0 else none
  | c :: t =>
    if condSuf lit (c :: t) then some 0 else (findCond lit t).map (· + 1)

/-- `\s*(.+?)\s*lit`, `lit` starting on a non-whitespace character. -/
def wsLazyWsTil (lit : List Char) (s : List Char) : Option (List Char × List Char) :=
  let w := wsRun s
  match s.drop w with
  | [] => none
  | c :: t =>
    match findCond lit t with
    | some j =>
      let tail2 := (c :: t).drop (j + 1)
      some ((c :: t).take (j + 1), (tail2.drop (wsRun tail2)).drop lit.length)
    | none =>
      if 1 ≤ w && lPre lit (c :: t) then
        some ((s.take w).drop (w - 1), (c :: t).drop lit.length)
      else none

/-- `re.search`: try the attempt at each start position, left to right. -/
def scanO {α : Type} (att : List Char → Option α) : List Char → Option α
  | [] => none
  | c :: t =>
    match att (c :: t) with
    | some g => some g
    | none => scanO att t

/-- `<h1[^>]*>([^<]+)<span` at one position. -/
def attemptH1 (s : List Char) : Option (List Char) :=
  if lPre (strL "<h1") s then
    match runTo '>' (s.drop 3) with
    | some (_, rest) =>
      let g := rest.takeWhile (· != '<')
      if !g.isEmpty && lPre (strL "<span") (rest.drop g.length) then some g
      else none
    | none => none
  else none

/-- `class="profile-name-en"[^>]*>/\s*(.+?)</span>` at one position. -/
def attemptNameEn (s : List Char) : Option (List Char) :=
  if lPre (strL "class=\"profile-name-en\"") s then
    match runTo '>' (s.drop 23) with
    | some (_, rest) =>
      match rest with
      | '/' :: r2 => (wsLazyTil (strL "</span>") r2).map (·.1)
      | _ => none
    | none => none
  else none

/-- `class="profile-affiliation[^"]*"[^>]*>(.+?)</p>` at one position. -/
def attemptAffil (s : List Char) : Option (List Char) :=
  if lPre (strL "class=\"profile-affiliation") s then
    match runTo '"' (s.drop 26) with
    | some (_, r1) =>
      match runTo '>' r1 with
      | some (_, r2) => (lazyTil (strL "</p>") r2).map (·.1)
      | none => none
    | none => none
  else none

/-- `class="profile-bio[^"]*"[^>]*>\s*(.+?)\s*</p>` at one position. -/
def attemptBio (s : List Char) : Option (List Char) :=
  if lPre (strL "class=\"profile-bio") s then
    match runTo '"' (s.drop 18) with
    | some (_, r1) =>
      match runTo '>' r1 with
      | some (_, r2) => (wsLazyWsTil (strL "</p>") r2).map (·.1)
      | none => none
    | none => none
  else none

/-- `class="profile-keywords"[^>]*>\s*(.+?)\s*</p>` at one position. -/
def attemptKw (s : List Char) : Option (List Char) :=
  if lPre (strL "class=\"profile-keywords\"") s then
    match runTo '>' (s.drop 24) with
    | some (_, r1) => (wsLazyWsTil (strL "</p>") r1).map (·.1)
    | none => none
  else none

/-- `href="([^"]+)"[^>]*title="CV \(PDF\)"` at one position. The greedy
`[^>]*` with backtracking matches exactly when the `title` literal occurs
somewhere inside the non-`>` run after the closing quote (the literal has
no `>`, so it cannot straddle the run's end). -/
def attemptCv (s : List Char) : Option (List Char) :=
  if lPre (strL "href=\"") s then
    let s1 := s.drop 6
    let g := s1.takeWhile (· != '"')
    if g.isEmpty then none
    else
      match s1.drop g.length with
      | _ :: s2 =>
        if containsSub (strL "title=\"CV (PDF)\"") (s2.takeWhile (· != '>'))
        then some g else none
      | [] => none
  else none

/-- `<p[^>]*>\s*(.+?)\s*</p>` at one position: the continuation of the
thesis pattern after its lazy `.*?`. -/
def attemptPTag (s : List Char) : Option (List Char) :=
  if lPre (strL "<p") s then
    match runTo '>' (s.drop 2) with
    | some (_, rest) => (wsLazyWsTil (strL "</p>") rest).map (·.1)
    | none => none
  else none

/-- The thesis pattern `<!-- Thesis -->.*?<p[^>]*>\s*(.+?)\s*</p>` at one
position: the lazy `.*?` selects the first following `<p[^>]*>` whose tail
completes the match. -/
def attemptThesis (s : List Char) : Option (List Char) :=
  if lPre (strL "<!-- Thesis -->") s then scanO attemptPTag (s.drop 15)
  else none

/-- `href="(https://www\.linkedin\.com/[^"]*)"` at one position. -/
def attemptLinkedin (s : List Char) : Option (List Char) :=
  if lPre (strL "href=\"https://www.linkedin.com/") s then
    let s1 := s.drop 31
    let g := s1.takeWhile (· != '"')
    match s1.drop g.length with
    | _ :: _ => some (strL "https://www.linkedin.com/" ++ g)
    | [] => none
  else none

/-- `href="(https://github\.com/[^"]*)"` at one position. -/
def attemptGithub (s : List Char) : Option (List Char) :=
  if lPre (strL "href=\"https://github.com/") s then
    let s1 := s.drop 25
    let g := s1.takeWhile (· != '"')
    match s1.drop g.length with
    | _ :: _ => some (strL "https://github.com/" ++ g)
    | [] => none
  else none

/-- One branch of the `(?:twitter|x)` alternation. -/
def twitterBranch (b s1 : List Char) : Option (List Char) :=
  if lPre (b ++ strL ".com/") s1 then
    let s2 := s1.drop (b.length + 5)
    let g := s2.takeWhile (· != '"')
    match s2.drop g.length with
    | _ :: _ => some (strL "https://" ++ (b ++ (strL ".com/" ++ g)))
    | [] => none
  else none

/-- `href="(https://(?:twitter|x)\.com/[^"]*)"` at one position: the
`twitter` branch is tried first, then `x`. -/
def attemptTwitter (s : List Char) : Option (List Char) :=
  if lPre (strL "href=\"https://") s then
    match twitterBranch (strL "twitter") (s.drop 14) with
    | some g => some g
    | none => twitterBranch (strL "x") (s.drop 14)
  else none

/-- `href="mailto:([^"]*)"` at one position (the group may be empty). -/
def attemptEmail (s : List Char) : Option (List Char) :=
  if lPre (strL "href=\"mailto:") s then
    let s1 := s.drop 13
    let g := s1.takeWhile (· != '"')
    match s1.drop g.length with
    | _ :: _ => some g
    | [] => none
  else none

/-- The part of the publications pattern after `</a>`:
`\s*<span[^>]*>(.+?)</span></li>` — whitespace run, the `<span` tag, the
lazy source group. The publications pattern runs WITHOUT `re.DOTALL`, so
the `(.+?)` group cannot contain a newline; if the shortest group does,
every longer one does too and the position fails. Returns the source and
the text after the match. -/
def pubAfterA (s : List Char) : Option (List Char × List Char) :=
  let s3 := s.drop (wsRun s)
  if lPre (strL "<span") s3 then
    match runTo '>' (s3.drop 5) with
    | some (_, s4) =>
      match lazyTil (strL "</span></li>") s4 with
      | some (g, rest) => if g.all (· != '\n') then some (g, rest) else none
      | none => none
    | none => none
  else none

/-- The lazy `(.+?)</a>` of the publications pattern with full
backtracking: try each `</a>` occurrence in order; on failure of the rest
of the pattern, extend the title to the next occurrence. Without
`re.DOTALL` the title cannot cross a newline, so a newline ends the
candidates. -/
def pubTailLoop (url tacc : List Char) : List Char → Option (Pub × List Char)
  | [] => none
  | c :: t =>
    if c == '\n' then none
    else if lPre (strL "</a>") t then
      match pubAfterA (t.drop 4) with
      | some (src, rest) => some (⟨url, tacc ++ [c], src⟩, rest)
      | none => pubTailLoop url (tacc ++ [c]) t
    else pubTailLoop url (tacc ++ [c]) t

/-- `<li><a href="([^"]+)">(.+?)</a>\s*<span[^>]*>(.+?)</span></li>` at
one position, returning the groups and the text after the match. -/
def attemptPub (s : List Char) : Option (Pub × List Char) :=
  if lPre (strL "<li><a href=\"") s then
    let s1 := s.drop 13
    let url := s1.takeWhile (· != '"')
    if url.isEmpty then none
    else
      let s2 := s1.drop url.length
      if lPre (strL "\">") s2 then pubTailLoop url [] (s2.drop 2)
      else none
  else none

/-- `re.finditer` for the publications pattern: scan left to right,
resuming after each match (fuel bounds the recursion; one unit per scanned
or matched position suffices since every match consumes at least one
character). -/
def findIterPubsF : Nat → List Char → List Pub
  | 0, _ => []
  | _ + 1, [] => []
  | fuel + 1, c :: t =>
    match attemptPub (c :: t) with
    | some (p, rest) => p :: findIterPubsF fuel rest
    | none => findIterPubsF fuel t

/-- `re.sub(r'\s*<br>\s*', '\n', ·)` (app.py line 442): a match starting
inside a whitespace run would need `<br>` at the run's end just like the
match starting at the run's head, so the leftmost match always begins at
the head of a whitespace run (or directly at `<br>`); the trailing `\s*`
is greedy. One fuel unit per consumed character suffices. -/
def brSubF : Nat → List Char → List Char
  | 0, s => s
  | _ + 1, [] => []
  | fuel + 1, c :: t =>
    let w := wsRun (c :: t)
    if lPre (strL "<br>") ((c :: t).drop w) then
      let after := (c :: t).drop (w + 4)
      '\n' :: brSubF fuel (after.drop (wsRun after))
    else c :: brSubF fuel t

/-- `re.sub(r'\s*<br>\s*', '\n', s)`. -/
def brSub (s : List Char) : List Char := brSubF s.length s

/-- `_parse_profile` (app.py lines 429-477) on the file's content: each
scalar field is the stripped first match's group (default empty), `bio`
additionally has `\s*<br>\s*` runs turned into newlines, `links` holds the
matched link patterns, and `recent_publications` collects the `finditer`
matches in order. -/
def parse_profile (content : List Char) : ProfileRecord :=
  { name_primary := pyStrip ((scanO attemptH1 content).getD [])
    name_secondary := pyStrip ((scanO attemptNameEn content).getD [])
    affiliation := pyStrip ((scanO attemptAffil content).getD [])
    bio := brSub (pyStrip ((scanO attemptBio content).getD []))
    keywords := pyStrip ((scanO attemptKw content).getD [])
    thesis := pyStrip ((scanO attemptThesis content).getD [])
    cv_pdf := pyStrip ((scanO attemptCv content).getD [])
    links :=
      { linkedin := scanO attemptLinkedin content
        github := scanO attemptGithub content
        twitter := scanO attemptTwitter content
        email := scanO attemptEmail content }
    recent_publications := findIterPubsF content.length content }

/-- The characters guaranteed to be inert in both the html template and
every regex of the profile codec: letters, digits, space, `-`, `_`, `.`
and `,`. -/
def inertChar (c : Char) : Bool :=
  c.isAlpha || c.isDigit || c == ' ' || c == '-' || c == '_' || c == '.' || c == ','

/-- A sanitized scalar field: non-empty, inert characters only, and no
leading or trailing space (so python `.strip()` leaves it unchanged). -/
def sanitStr (s : List Char) : Bool :=
  !s.isEmpty && s.all inertChar && s.head? != some ' ' && s.getLast? != some ' '

/-- A sanitized publication entry. -/
def sanitPub (p : Pub) : Bool :=
  sanitStr p.url && sanitStr p.title && sanitStr p.source

/-- A sanitized profile record: every rendered field is sanitized. -/
def sanitProfile (r : ProfileRecord) : Bool :=
  sanitStr r.name_primary && sanitStr r.name_secondary
    && sanitStr r.affiliation && sanitStr r.bio && sanitStr r.keywords
    && sanitStr r.thesis && r.recent_publications.all sanitPub

/-- A record with the two fields the renderer drops erased: `_save_profile`
never writes `cv_pdf` or `links`, so one render/parse pass erases exactly
these. -/
def eraseExtra (r : ProfileRecord) : ProfileRecord :=
  { r with cv_pdf := [], links := ⟨none, none, none, none⟩ }

/-- A sanitized sample record. -/
def rSamp : ProfileRecord :=
  ⟨strL "Hong Gildong", strL "Gildong Hong", strL "Otter University",
    strL "Formal methods researcher", strL "verification, otters",
    strL "On the Formalisation of Otters", [], ⟨none, none, none, none⟩,
    [⟨strL "a.pdf", strL "My Paper", strL "Journal, 2024"⟩]⟩

/-- A record whose `name_primary` smuggles html that collides with the
affiliation regex, so render/parse is not idempotent on it. -/
def rBad : ProfileRecord :=
  ⟨strL "class=\"profile-affiliation\">HI", strL "N", strL "A", strL "B",
    strL "K", strL "T", [], ⟨none, none, none, none⟩, []⟩

/-- What `rBad` parses to after one render/parse round: the affiliation
regex now fires inside the injected name, capturing a chunk of markup. -/
def f1lit : ProfileRecord :=
  ⟨strL "class=\"profile-affiliation\">HI", strL "N",
    strL "HI <span class=\"profile-name-en\">/ N</span></h1>\n    <p class=\"profile-affiliation mb-1\">A",
    strL "B", strL "K", strL "T", [], ⟨none, none, none, none⟩, []⟩

/-! # Theorems -/

/-! ### Path lemmas -/

theorem splitOnChar_ne_nil (c : Char) (l : List Char) : splitOnChar c l ≠ [] := by
  induction l with
  | nil => simp [splitOnChar]
  | cons a t ih =>
    simp only [splitOnChar]
    split
    · simp
    · cases h : splitOnChar c t with
      | nil => simp
      | cons p ps => simp

theorem splitOnChar_cons_self (c : Char) (l : List Char) :
    splitOnChar c (c :: l) = [] :: splitOnChar c l := by
  simp [splitOnChar]

theorem splitOnChar_cons_ne (c a : Char) (l : List Char) (h : a ≠ c)
    (p : List Char) (ps : List (List Char)) (hp : splitOnChar c l = p :: ps) :
    splitOnChar c (a :: l) = (a :: p) :: ps := by
  have hb : (a == c) = false := by simp [h]
  simp [splitOnChar, hb, hp]

theorem splitOnChar_dest (c : Char) (l : List Char) :
    ∃ p ps, splitOnChar c l = p :: ps := by
  cases hx : splitOnChar c l with
  | nil => exact absurd hx (splitOnChar_ne_nil c l)
  | cons p ps => exact ⟨p, ps, rfl⟩

theorem splitOnChar_append_cons (c : Char) (l m : List Char) :
    splitOnChar c (l ++ c :: m) = splitOnChar c l ++ splitOnChar c m := by
  induction l with
  | nil => simp [splitOnChar_cons_self, splitOnChar]
  | cons a t ih =>
    by_cases h : a = c
    · subst h
      rw [List.cons_append, splitOnChar_cons_self, splitOnChar_cons_self, ih,
        List.cons_append]
    · obtain ⟨p, ps, hps⟩ := splitOnChar_dest c t
      have hps2 : splitOnChar c (t ++ c :: m) = p :: (ps ++ splitOnChar c m) := by
        rw [ih, hps, List.cons_append]
      rw [List.cons_append, splitOnChar_cons_ne c a _ h _ _ hps2,
        splitOnChar_cons_ne c a _ h _ _ hps, List.cons_append]

theorem joinWith_cons (c : Char) (p : List Char) (ps : List (List Char)) :
    joinWith c (p :: ps) = p ++ (if ps.isEmpty then [] else c :: joinWith c ps) := by
  cases ps with
  | nil => simp [joinWith]
  | cons q qs => simp [joinWith]

theorem joinWith_splitOnChar (c : Char) (l : List Char) :
    joinWith c (splitOnChar c l) = l := by
  induction l with
  | nil => rfl
  | cons a t ih =>
    obtain ⟨p, ps, hps⟩ := splitOnChar_dest c t
    rw [hps] at ih
    by_cases h : a = c
    · subst h
      rw [splitOnChar_cons_self, hps]
      simp only [joinWith, List.nil_append]
      rw [ih]
    · rw [splitOnChar_cons_ne c a _ h _ _ hps]
      cases ps with
      | nil =>
        simp only [joinWith] at ih ⊢
        rw [ih]
      | cons q qs =>
        simp only [joinWith, List.cons_append] at ih ⊢
        rw [ih]

theorem normSegs_all_plain (acc : List (List Char)) (segs : List (List Char))
    (h : ∀ s ∈ segs, s ≠ [] ∧ s ≠ ['.'] ∧ s ≠ ['.', '.']) :
    normSegs acc segs = acc.reverse ++ segs := by
  induction segs generalizing acc with
  | nil => simp [normSegs]
  | cons s rest ih =>
    obtain ⟨h1, h2, h3⟩ := h s (List.mem_cons_self s rest)
    have hb1 : (s == ([] : List Char)) = false := by simp [h1]
    have hb2 : (s == ['.']) = false := by simp [h2]
    have hb3 : (s == ['.', '.']) = false := by simp [h3]
    simp only [normSegs, hb1, hb2, hb3, Bool.or_self, Bool.or_false, if_false]
    rw [ih (s :: acc) fun x hx => h x (List.mem_cons_of_mem s hx)]
    simp

theorem normSegs_append_empty (acc : List (List Char)) (xs : List (List Char)) :
    normSegs acc (xs ++ [[]]) = normSegs acc xs := by
  induction xs generalizing acc with
  | nil => simp [normSegs]
  | cons s rest ih =>
    simp only [List.cons_append, normSegs]
    split
    · exact ih acc
    · split
      · exact ih (acc.drop 1)
      · exact ih (s :: acc)

theorem normSegs_append_dot (acc : List (List Char)) (xs : List (List Char)) :
    normSegs acc (xs ++ [['.']]) = normSegs acc xs := by
  induction xs generalizing acc with
  | nil => simp [normSegs]
  | cons s rest ih =>
    simp only [List.cons_append, normSegs]
    split
    · exact ih acc
    · split
      · exact ih (acc.drop 1)
      · exact ih (s :: acc)

theorem normalAbsPath_shape (p : List Char) (h : normalAbsPath p = true) :
    ∃ rest, p = '/' :: rest := by
  unfold normalAbsPath at h
  split at h
  · next rest => exact ⟨rest, rfl⟩
  · exact absurd h (by simp)

theorem realpathModel_fixed (p : List Char) (h : normalAbsPath p = true) :
    realpathModel p = p := by
  obtain ⟨rest, rfl⟩ := normalAbsPath_shape p h
  by_cases hr : rest = []
  · subst hr; rfl
  · have hall : ∀ s ∈ splitOnChar '/' rest, s ≠ [] ∧ s ≠ ['.'] ∧ s ≠ ['.', '.'] := by
      have hAll : (splitOnChar '/' rest).all
          (fun s => !s.isEmpty && s != ['.'] && s != ['.', '.']) = true := by
        unfold normalAbsPath at h
        simpa [hr] using h
      intro s hs
      have hx := List.all_eq_true.mp hAll s hs
      simp only [Bool.and_eq_true, Bool.not_eq_true', bne_iff_ne] at hx
      refine ⟨?_, hx.1.2, hx.2⟩
      intro hnil
      rw [hnil] at hx
      simp at hx
    unfold realpathModel
    rw [splitOnChar_cons_self]
    have hskip : normSegs [] ([] :: splitOnChar '/' rest)
        = normSegs [] (splitOnChar '/' rest) := by
      simp [normSegs]
    rw [hskip, normSegs_all_plain [] _ hall]
    simp [joinWith_splitOnChar]

theorem realpathModel_trailing_slash (l : List Char) :
    realpathModel (l ++ ['/']) = realpathModel l := by
  unfold realpathModel
  rw [show l ++ ['/'] = l ++ '/' :: [] from rfl, splitOnChar_append_cons]
  rw [show splitOnChar '/' [] = [[]] from rfl, normSegs_append_empty]

theorem realpathModel_trailing_dot (l : List Char) :
    realpathModel (l ++ ['/', '.']) = realpathModel l := by
  unfold realpathModel
  rw [show l ++ ['/', '.'] = l ++ '/' :: ['.'] from rfl, splitOnChar_append_cons]
  rw [show splitOnChar '/' ['.'] = [['.']] from rfl, normSegs_append_dot]

theorem exists_append_of_getLast (l : List Char) (c : Char)
    (h : l.getLast? = some c) : ∃ t, l = t ++ [c] := by
  have hne : l ≠ [] := by rintro rfl; simp at h
  refine ⟨l.dropLast, ?_⟩
  have hg := List.getLast?_eq_getLast_of_ne_nil hne
  rw [h] at hg
  have hc : l.getLast hne = c := by
    injection hg.symm with hg'
  rw [← hc]
  exact (List.dropLast_append_getLast hne).symm

/-! ### C9: traversal rejection of `safe_path` -/

/-- C9: for every requested path whose real-path resolution under the
declared base escapes that base (it is neither the base itself nor
strictly inside it), `safe_path` rejects the request with
`abort(403, 'Invalid path')`.  `safe_path` only inspects the two resolved
path strings, so no filesystem operation is performed on the resolved
target. -/
theorem claimC9 (requested allowed_base : List Char)
    (h1 : realpathModel (osJoin allowed_base requested) ≠ realpathModel allowed_base)
    (h2 : lPre (realpathModel allowed_base ++ ['/'])
      (realpathModel (osJoin allowed_base requested)) = false) :
    safe_path requested allowed_base = .error ⟨403, "Invalid path"⟩ := by
  simp [safe_path, h2, bne_iff_ne, h1]

/-- Witness for C9 at the spec's own example `../../etc/passwd` against the
base `/srv/blog`. -/
theorem claimC9_witness :
    (realpathModel (osJoin (strL "/srv/blog") (strL "../../etc/passwd"))
        ≠ realpathModel (strL "/srv/blog")
      ∧ lPre (realpathModel (strL "/srv/blog") ++ ['/'])
          (realpathModel (osJoin (strL "/srv/blog") (strL "../../etc/passwd"))) = false)
    ∧ safe_path (strL "../../etc/passwd") (strL "/srv/blog")
        = .error ⟨403, "Invalid path"⟩ :=
  ⟨⟨by decide, by decide⟩, claimC9 _ _ (by decide) (by decide)⟩

/-! ### C10: acceptance of the base itself -/

/-- C10: when the requested path resolves to the base directory itself
(for example the empty string or `.`), `safe_path` accepts and returns the
base; rejection happens exactly when the resolved target is neither the
base nor strictly inside it (`base + os.sep` is not a prefix). -/
theorem claimC10 (base req : List Char) (hb : normalAbsPath base = true) :
    safe_path [] base = .ok base ∧
    safe_path ['.'] base = .ok base ∧
    (safe_path req base = .error ⟨403, "Invalid path"⟩ ↔
      realpathModel (osJoin base req) ≠ base ∧
        lPre (base ++ ['/']) (realpathModel (osJoin base req)) = false) := by
  have hfix := realpathModel_fixed base hb
  have hbase_ne : base ≠ [] := by
    obtain ⟨rest, rfl⟩ := normalAbsPath_shape base hb
    simp
  have htgt_empty : realpathModel (osJoin base []) = base := by
    by_cases hl : base.getLast? = some '/'
    · have : osJoin base [] = base := by
        simp [osJoin, hbase_ne, hl]
      rw [this, hfix]
    · have : osJoin base [] = base ++ ['/'] := by
        simp only [osJoin]
        have h1 : (([] : List Char).head? == some '/') = false := by simp
        have h2 : (base == ([] : List Char)) = false := by simp [hbase_ne]
        have h3 : (base.getLast? == some '/') = false := by simp [hl]
        simp [h1, h2, h3]
      rw [this, realpathModel_trailing_slash, hfix]
  have htgt_dot : realpathModel (osJoin base ['.']) = base := by
    by_cases hl : base.getLast? = some '/'
    · obtain ⟨t, hts⟩ := exists_append_of_getLast base '/' hl
      have hjoin : osJoin base ['.'] = base ++ ['.'] := by
        simp [osJoin, hbase_ne, hl]
      rw [hjoin, hts]
      have : (t ++ ['/']) ++ ['.'] = t ++ ['/', '.'] := by simp
      rw [this, realpathModel_trailing_dot, ← realpathModel_trailing_slash,
        ← hts, hfix]
    · have hjoin : osJoin base ['.'] = base ++ ['/', '.'] := by
        simp only [osJoin]
        have h1 : ((['.'] : List Char).head? == some '/') = false := by simp
        have h2 : (base == ([] : List Char)) = false := by simp [hbase_ne]
        have h3 : (base.getLast? == some '/') = false := by simp [hl]
        simp [h1, h2, h3]
      rw [hjoin, realpathModel_trailing_dot, hfix]
  refine ⟨?_, ?_, ?_⟩
  · simp [safe_path, hfix, htgt_empty]
  · simp [safe_path, hfix, htgt_dot]
  · by_cases hA : realpathModel (osJoin base req) = base
    · simp [safe_path, hfix, hA]
    · by_cases hB : lPre (base ++ ['/']) (realpathModel (osJoin base req)) = true
      · simp [safe_path, hfix, hB, hA]
      · have hB' : lPre (base ++ ['/']) (realpathModel (osJoin base req)) = false := by
          cases hx : lPre (base ++ ['/']) (realpathModel (osJoin base req))
          · rfl
          · exact absurd hx hB
        simp [safe_path, hfix, hB', bne_iff_ne, hA]

/-- Witness for C10 at the concrete base `/srv/blog` and a request
resolving inside it. -/
theorem claimC10_witness :
    normalAbsPath (strL "/srv/blog") = true ∧
    (safe_path [] (strL "/srv/blog") = .ok (strL "/srv/blog") ∧
      safe_path ['.'] (strL "/srv/blog") = .ok (strL "/srv/blog") ∧
      (safe_path (strL "sub") (strL "/srv/blog") = .error ⟨403, "Invalid path"⟩ ↔
        realpathModel (osJoin (strL "/srv/blog") (strL "sub")) ≠ strL "/srv/blog" ∧
          lPre (strL "/srv/blog" ++ ['/'])
            (realpathModel (osJoin (strL "/srv/blog") (strL "sub"))) = false)) :=
  ⟨by decide, claimC10 (strL "/srv/blog") (strL "sub") (by decide)⟩

/-! ### C6: invalid slugs abort the save -/

/-- C6: for every slug that is empty or fails `^[a-zA-Z0-9_-]+$` after
stripping, `save_post` aborts with `400 Invalid slug` and the failed call
performs no filesystem operation: nothing is written and nothing is
deleted. -/
theorem claimC6 (env : FsEnv) (data : PostData) (op : Option (List Char))
    (h : validSlug data.slug = false) :
    save_post env data op = .error ⟨400, "Invalid slug"⟩ ∧
    fsOpsOf (save_post env data op) = [] := by
  have hcond : ((pyStrip data.slug).isEmpty || !(pyStrip data.slug).all slugChar) = true := by
    unfold validSlug at h
    cases h1 : (pyStrip data.slug).isEmpty <;>
      cases h2 : (pyStrip data.slug).all slugChar <;> simp_all
  have : save_post env data op = .error ⟨400, "Invalid slug"⟩ := by
    unfold save_post
    simp [hcond]
  exact ⟨this, by rw [this]; rfl⟩

/-- Witness for C6 at the concrete slug `"a b"` (space not allowed). -/
theorem claimC6_witness :
    validSlug (strL "a b") = false ∧
    (save_post envAllExist { samplePost with slug := strL "a b" } none
        = .error ⟨400, "Invalid slug"⟩ ∧
      fsOpsOf (save_post envAllExist { samplePost with slug := strL "a b" } none) = []) :=
  ⟨by decide, claimC6 envAllExist { samplePost with slug := strL "a b" } none (by decide)⟩

/-! ### C8: the auto-generated commit message -/

/-- C8: with staged changes and no explicit message,
`git_commit_and_push` builds `"Update: "` followed by comma-separated
categorised entries for the first 5 changed files (`post:`/`draft:`/
`asset:` prefixes for `_posts/`, `_drafts/`, `assets/` paths, bare
basename otherwise), appending `"...and N more"` when more than 5 files
changed; in particular the spec's example list yields
`"Update: post: a.md, draft: b.md, asset: c.png, d.txt"`. -/
theorem claimC8 (files : List (List Char)) (_h : files ≠ []) :
    autoCommitMessage files =
      strL "Update: " ++ joinSep (strL ", ")
        ((files.take 5).map specCommitEntry ++
          (if 5 < files.length then [specMoreMarker (files.length - 5)] else [])) ∧
    autoCommitMessage
        [strL "_posts/a.md", strL "_drafts/b.md", strL "assets/c.png", strL "d.txt"] =
      strL "Update: post: a.md, draft: b.md, asset: c.png, d.txt" := by
  refine ⟨?_, by decide⟩
  have hentry : commitEntry = specCommitEntry := by
    funext f
    simp [commitEntry, specCommitEntry]
  unfold autoCommitMessage specMoreMarker
  rw [hentry]
  by_cases hc : 5 < files.length <;> simp [hc]

/-- Witness for C8 at a seven-element change list exercising the
`...and 2 more` marker. -/
theorem claimC8_witness :
    ([strL "_posts/a.md", strL "_drafts/b.md", strL "assets/c.png", strL "d.txt",
        strL "e.txt", strL "f.txt", strL "g.txt"] ≠ ([] : List (List Char))) ∧
    (autoCommitMessage [strL "_posts/a.md", strL "_drafts/b.md", strL "assets/c.png",
        strL "d.txt", strL "e.txt", strL "f.txt", strL "g.txt"] =
      strL "Update: " ++ joinSep (strL ", ")
        (([strL "_posts/a.md", strL "_drafts/b.md", strL "assets/c.png",
            strL "d.txt", strL "e.txt", strL "f.txt", strL "g.txt"].take 5).map specCommitEntry ++
          (if 5 < [strL "_posts/a.md", strL "_drafts/b.md", strL "assets/c.png",
              strL "d.txt", strL "e.txt", strL "f.txt", strL "g.txt"].length then
            [specMoreMarker ([strL "_posts/a.md", strL "_drafts/b.md", strL "assets/c.png",
                strL "d.txt", strL "e.txt", strL "f.txt", strL "g.txt"].length - 5)]
          else [])) ∧
      autoCommitMessage
          [strL "_posts/a.md", strL "_drafts/b.md", strL "assets/c.png", strL "d.txt"] =
        strL "Update: post: a.md, draft: b.md, asset: c.png, d.txt") :=
  ⟨by decide,
    claimC8 [strL "_posts/a.md", strL "_drafts/b.md", strL "assets/c.png",
      strL "d.txt", strL "e.txt", strL "f.txt", strL "g.txt"] (by decide)⟩

/-! ### C1: deletion order on rename -/

/-- C1 counterexample: a successful rename save in which the prior file is
removed *before* the new file is written: the trace is
makedirs → remove → write, so "delete only after the new file is written"
is false of `save_post`.  (The no-deletion-when-paths-coincide half of the
claim does hold; see `claimC1`.) -/
theorem claimC1_counterexample :
    fsOpsOf (save_post envAllExist samplePost (some (strL "_posts/2024-01-01-old.md"))) =
      [FsOp.makedirs POSTS_DIR,
       FsOp.removeFile (strL "/blog/_posts/2024-01-01-old.md"),
       FsOp.writeFile (strL "/blog/_posts/2024-01-02-new.md")
         (encodePost (strL "T") [] [] (strL "b"))] ∧
    deletesOnlyAfterWrite
      (fsOpsOf (save_post envAllExist samplePost
        (some (strL "_posts/2024-01-01-old.md")))) = false := by
  constructor
  · decide
  · decide

/-- C1 amended: on a successful save with an original path, the write of
the new document is always the final operation of the trace; any deletion
concerns exactly the resolved original file and happens *before* (not
after) that write; and when the old and new resolved paths are equal no
deletion happens at all. -/
theorem claimC1 (env : FsEnv) (data : PostData) (op : List Char)
    (hs : validSlug data.slug = true) :
    ∃ tr, save_post env data (some op) = .ok (tr, relpathUnderRoot (saveDest data)) ∧
      tr.getLast? = some (FsOp.writeFile (saveDest data)
        (encodePost data.title data.tags data.categories data.body)) ∧
      (∀ i p, tr.get? i = some (FsOp.removeFile p) →
        p = oldAbsOf op ∧ ∃ j, i < j ∧ tr.get? j = some (FsOp.writeFile (saveDest data)
          (encodePost data.title data.tags data.categories data.body))) ∧
      (env.realpath (oldAbsOf op) = env.realpath (saveDest data) →
        noRemove tr = true) := by
  have hcond : ((pyStrip data.slug).isEmpty || !(pyStrip data.slug).all slugChar) = false := by
    unfold validSlug at hs
    cases h1 : (pyStrip data.slug).isEmpty <;>
      cases h2 : (pyStrip data.slug).all slugChar <;> simp_all
  by_cases hne : env.realpath (oldAbsOf op) = env.realpath (saveDest data)
  case neg =>
    by_cases hex : env.pathExists (oldAbsOf op) = true
    · refine ⟨[FsOp.makedirs (if data.is_draft then DRAFTS_DIR else POSTS_DIR),
        FsOp.removeFile (oldAbsOf op),
        FsOp.writeFile (saveDest data)
          (encodePost data.title data.tags data.categories data.body)], ?_, ?_, ?_, ?_⟩
      · unfold save_post saveDest
        simp only [hcond, Bool.false_eq_true, if_false]
        simp only [saveDest] at hne
        simp [hne, hex]
      · rfl
      · intro i p hp
        rcases i with _ | _ | _ | i
        · simp at hp
        · simp only [List.get?] at hp
          have h1 : FsOp.removeFile (oldAbsOf op) = FsOp.removeFile p := by
            injection hp
          injection h1 with h2
          exact ⟨h2.symm, 2, by omega, by simp⟩
        · simp at hp
        · simp at hp
      · intro heq
        exact absurd heq hne
    · have hex' : env.pathExists (oldAbsOf op) = false := by
        cases hx : env.pathExists (oldAbsOf op)
        · rfl
        · exact absurd hx hex
      refine ⟨[FsOp.makedirs (if data.is_draft then DRAFTS_DIR else POSTS_DIR),
        FsOp.writeFile (saveDest data)
          (encodePost data.title data.tags data.categories data.body)], ?_, ?_, ?_, ?_⟩
      · unfold save_post saveDest
        simp only [hcond, Bool.false_eq_true, if_false]
        simp [hex']
      · rfl
      · intro i p hp
        rcases i with _ | _ | i <;> simp at hp
      · intro _
        simp [noRemove]
  case pos =>
    refine ⟨[FsOp.makedirs (if data.is_draft then DRAFTS_DIR else POSTS_DIR),
      FsOp.writeFile (saveDest data)
        (encodePost data.title data.tags data.categories data.body)], ?_, ?_, ?_, ?_⟩
    · unfold save_post saveDest
      simp only [hcond, Bool.false_eq_true, if_false]
      simp only [saveDest] at hne
      simp [hne]
    · rfl
    · intro i p hp
      rcases i with _ | _ | i <;> simp at hp
    · intro _
      simp [noRemove]

/-- Witness for C1 amended at a concrete rename. -/
theorem claimC1_witness :
    validSlug samplePost.slug = true ∧
    (∃ tr, save_post envAllExist samplePost (some (strL "_posts/2024-01-01-old.md"))
        = .ok (tr, relpathUnderRoot (saveDest samplePost)) ∧
      tr.getLast? = some (FsOp.writeFile (saveDest samplePost)
        (encodePost samplePost.title samplePost.tags samplePost.categories samplePost.body)) ∧
      (∀ i p, tr.get? i = some (FsOp.removeFile p) →
        p = oldAbsOf (strL "_posts/2024-01-01-old.md") ∧
        ∃ j, i < j ∧ tr.get? j = some (FsOp.writeFile (saveDest samplePost)
          (encodePost samplePost.title samplePost.tags samplePost.categories samplePost.body))) ∧
      (envAllExist.realpath (oldAbsOf (strL "_posts/2024-01-01-old.md"))
          = envAllExist.realpath (saveDest samplePost) →
        noRemove tr = true)) :=
  ⟨by decide, claimC1 envAllExist samplePost (strL "_posts/2024-01-01-old.md") (by decide)⟩

/-! ### Lemmas for the config patch engine -/

theorem dropWhile_head_not (p : Char → Bool) (l : List Char) :
    l.dropWhile p = [] ∨
      ∃ a t, l.dropWhile p = a :: t ∧ p a = false := by
  induction l with
  | nil => left; rfl
  | cons a t ih =>
    by_cases hp : p a = true
    · simpa [List.dropWhile_cons, hp] using ih
    · have hp' : p a = false := by cases hx : p a; rfl; exact absurd hx hp
      right
      exact ⟨a, t, by simp [List.dropWhile_cons, hp'], hp'⟩

theorem dropWhile_append_all (p : Char → Bool) (w y : List Char)
    (h : w.all p = true) : (w ++ y).dropWhile p = y.dropWhile p := by
  induction w with
  | nil => rfl
  | cons a t ih =>
    simp only [List.all_cons, Bool.and_eq_true] at h
    simp [List.dropWhile_cons, h.1, ih h.2]

theorem dropWhile_append_ne (p : Char → Bool) (w y : List Char)
    (h : w.dropWhile p ≠ []) : (w ++ y).dropWhile p = w.dropWhile p ++ y := by
  induction w with
  | nil => simp at h
  | cons a t ih =>
    by_cases hp : p a = true
    · rw [List.dropWhile_cons_of_pos hp] at h
      rw [List.cons_append, List.dropWhile_cons_of_pos hp,
        List.dropWhile_cons_of_pos hp, ih h]
    · have hp' : p a = false := by cases hx : p a; rfl; exact absurd hx hp
      rw [List.cons_append, List.dropWhile_cons_of_neg (by simp [hp']),
        List.dropWhile_cons_of_neg (by simp [hp']), List.cons_append]

theorem dropWhile_idem (p : Char → Bool) (l : List Char) :
    (l.dropWhile p).dropWhile p = l.dropWhile p := by
  rcases dropWhile_head_not p l with hnil | ⟨a, t, heq, ha⟩
  · rw [hnil]; rfl
  · rw [heq, List.dropWhile_cons_of_neg (by simp [ha])]

theorem pyRStrip_append_ws (x w : List Char) (h : w.all isPyWs = true) :
    pyRStrip (x ++ w) = pyRStrip x := by
  unfold pyRStrip
  rw [List.reverse_append, dropWhile_append_all]
  rw [List.all_eq_true] at h ⊢
  intro a ha
  exact h a (List.mem_reverse.mp ha)

theorem pyRStrip_append_ne (x y : List Char) (h : pyRStrip y ≠ []) :
    pyRStrip (x ++ y) = x ++ pyRStrip y := by
  unfold pyRStrip at *
  rw [List.reverse_append, dropWhile_append_ne]
  · rw [List.reverse_append, List.reverse_reverse]
  · intro hc
    exact h (by rw [hc]; rfl)

theorem pyRStrip_last_ne (x : List Char) (c : Char) (h : isPyWs c = false) :
    pyRStrip (x ++ [c]) = x ++ [c] := by
  unfold pyRStrip
  rw [List.reverse_append]
  simp [List.dropWhile_cons, h]

theorem pyRStrip_all_ws (l : List Char) (h : l.all isPyWs = true) :
    pyRStrip l = [] := by
  have := pyRStrip_append_ws [] l h
  simpa [pyRStrip] using this

theorem pyRStrip_cons_ne (c : Char) (l : List Char) (h : pyRStrip l ≠ []) :
    pyRStrip (c :: l) = c :: pyRStrip l := by
  have := pyRStrip_append_ne [c] l h
  simpa using this

theorem pyRStrip_idem (l : List Char) : pyRStrip (pyRStrip l) = pyRStrip l := by
  unfold pyRStrip
  rw [List.reverse_reverse, dropWhile_idem]

theorem pyLStrip_cons_ne (c : Char) (l : List Char) (h : isPyWs c = false) :
    pyLStrip (c :: l) = c :: l := by
  simp [pyLStrip, List.dropWhile_cons, h]

theorem pyLStrip_cons_ws (c : Char) (l : List Char) (h : isPyWs c = true) :
    pyLStrip (c :: l) = pyLStrip l := by
  simp [pyLStrip, List.dropWhile_cons, h]

theorem pyRStrip_eq_nil (l : List Char) (h : pyRStrip l = []) :
    l.all isPyWs = true := by
  unfold pyRStrip at h
  have hdrop : l.reverse.dropWhile isPyWs = [] := by
    have := congrArg List.reverse h
    simpa using this
  rw [List.dropWhile_eq_nil_iff] at hdrop
  rw [List.all_eq_true]
  intro a ha
  exact hdrop a (List.mem_reverse.mpr ha)

theorem pyStrip_cons_ws (c : Char) (l : List Char) (h : isPyWs c = true) :
    pyStrip (c :: l) = pyStrip l := by
  unfold pyStrip
  by_cases hr : pyRStrip l = []
  · have hall : (c :: l).all isPyWs = true := by
      rw [List.all_cons]
      exact (Bool.and_eq_true _ _).mpr ⟨h, pyRStrip_eq_nil l hr⟩
    rw [hr, pyRStrip_all_ws _ hall]
  · rw [pyRStrip_cons_ne c l hr, pyLStrip_cons_ws c _ h]

/-! ### Lemmas about plain yaml scalars -/

theorem ws_plainChar_is_space (c : Char) (hw : isPyWs c = true)
    (hp : plainScalarChar c = true) : c = ' ' := by
  simp only [isPyWs, Bool.or_eq_true, beq_iff_eq] at hw
  rcases hw with ((((rfl | rfl) | rfl) | rfl) | rfl) | rfl
  · rfl
  all_goals exact absurd hp (by decide)

theorem isAlpha_not_ws (c : Char) (h : c.isAlpha = true) : isPyWs c = false := by
  cases hw : isPyWs c
  · rfl
  · simp only [isPyWs, Bool.or_eq_true, beq_iff_eq] at hw
    rcases hw with ((((rfl | rfl) | rfl) | rfl) | rfl) | rfl <;>
      exact absurd h (by decide)

theorem plainScalar_parts (s : List Char) (h : plainScalar s = true) :
    s ≠ [] ∧ s.all plainScalarChar = true ∧
    (match s.head? with | some c => c.isAlpha | none => false) = true ∧
    (match s.getLast? with | some c => c != ' ' | none => false) = true := by
  simp only [plainScalar, Bool.and_eq_true] at h
  refine ⟨?_, h.1.1.1.2, h.1.1.2, h.1.2⟩
  have h1 := h.1.1.1.1
  cases s with
  | nil => exact absurd h1 (by decide)
  | cons a t => simp

theorem plainScalar_strip (s : List Char) (h : plainScalar s = true) :
    pyStrip s = s := by
  obtain ⟨hne, hall, hhead, hlast⟩ := plainScalar_parts s h
  obtain ⟨a, t, rfl⟩ : ∃ a t, s = a :: t := by
    cases s with
    | nil => exact absurd rfl hne
    | cons a t => exact ⟨a, t, rfl⟩
  have hha : a.isAlpha = true := by simpa using hhead
  obtain ⟨c, hcl⟩ : ∃ c, (a :: t).getLast? = some c := by
    cases hx : (a :: t).getLast? with
    | none => simp at hx
    | some c => exact ⟨c, rfl⟩
  have hcs : c != ' ' := by
    rw [hcl] at hlast
    simpa using hlast
  obtain ⟨pre, hpre⟩ := exists_append_of_getLast _ _ hcl
  have hcws : isPyWs c = false := by
    cases hw : isPyWs c
    · rfl
    · have hcm : c ∈ a :: t := by
        rw [hpre]
        simp
      have hcp : plainScalarChar c = true := List.all_eq_true.mp hall c hcm
      have := ws_plainChar_is_space c hw hcp
      rw [this] at hcs
      simp at hcs
  have hr : pyRStrip (a :: t) = a :: t := by
    rw [hpre]
    exact pyRStrip_last_ne _ _ hcws
  unfold pyStrip
  rw [hr, pyLStrip_cons_ne a t (isAlpha_not_ws a hha)]

theorem plainScalar_ne_quotes (s : List Char) (h : plainScalar s = true) :
    s ≠ strL "''" := by
  intro he
  rw [he] at h
  exact absurd h (by decide)

theorem plainScalar_no_nl (s : List Char) (h : plainScalar s = true) :
    ∀ x ∈ s, x ≠ '\n' := by
  obtain ⟨_, hall, _, _⟩ := plainScalar_parts s h
  intro x hx
  have := List.all_eq_true.mp hall x hx
  intro he
  rw [he] at this
  exact absurd this (by decide)

/-! ### Lemmas about line splitting and boundaries -/

theorem splitOnChar_no_sep (c : Char) (l : List Char)
    (h : ∀ x ∈ l, x ≠ c) : splitOnChar c l = [l] := by
  induction l with
  | nil => rfl
  | cons a t ih =>
    have ht := ih fun x hx => h x (List.mem_cons_of_mem a hx)
    exact splitOnChar_cons_ne c a t (h a (List.mem_cons_self a t)) t [] ht

theorem splitJoin (L : List (List Char)) (R : List Char)
    (hnl : ∀ l ∈ L, ∀ x ∈ l, x ≠ '\n') (hne : L ≠ []) :
    splitOnChar '\n' (joinLines L ++ '\n' :: R) = L ++ splitOnChar '\n' R := by
  induction L with
  | nil => exact absurd rfl hne
  | cons x t ih =>
    cases t with
    | nil =>
      show splitOnChar '\n' (x ++ '\n' :: R) = [x] ++ splitOnChar '\n' R
      rw [splitOnChar_append_cons, splitOnChar_no_sep '\n' x
        (hnl x (List.mem_cons_self x []))]
    | cons y u =>
      have hx : joinLines (x :: y :: u) = x ++ '\n' :: joinLines (y :: u) := rfl
      rw [hx, List.cons_append, List.append_assoc]
      show splitOnChar '\n' (x ++ '\n' :: (joinLines (y :: u) ++ '\n' :: R)) = _
      rw [splitOnChar_append_cons,
        splitOnChar_no_sep '\n' x (hnl x (List.mem_cons_self x _)),
        ih (fun l hl => hnl l (List.mem_cons_of_mem x hl)) (by simp)]
      rfl

theorem breakAtBoundary_append (A R : List (List Char)) (b : List Char)
    (hA : ∀ l ∈ A, isBoundaryLine l = false) (hb : isBoundaryLine b = true) :
    breakAtBoundary (A ++ b :: R) = (A, b :: R) := by
  induction A with
  | nil => simp [breakAtBoundary, hb]
  | cons a t ih =>
    have ha := hA a (List.mem_cons_self a t)
    rw [List.cons_append]
    show breakAtBoundary (a :: (t ++ b :: R)) = (a :: t, b :: R)
    unfold breakAtBoundary
    rw [ha]
    simp only [Bool.false_eq_true, if_false]
    rw [ih fun l hl => hA l (List.mem_cons_of_mem a hl)]

theorem isBoundaryLine_item (c : List Char) :
    isBoundaryLine (yamlItem c) = false := rfl

theorem isBoundaryLine_title (t : List Char) :
    isBoundaryLine (strL "title: " ++ t) = false := rfl

theorem yamlMetaLines_not_boundary (title : List Char)
    (tags categories : List (List Char)) :
    ∀ l ∈ yamlMetaLines title tags categories, isBoundaryLine l = false := by
  intro l hl
  unfold yamlMetaLines at hl
  rw [List.mem_append, List.mem_append] at hl
  rcases hl with (hc | ht) | hT
  · by_cases hce : categories.isEmpty
    · rw [if_pos hce] at hc
      simp at hc
    · rw [if_neg hce] at hc
      rcases List.mem_cons.mp hc with rfl | hmem
      · rfl
      · obtain ⟨c, _, rfl⟩ := List.mem_map.mp hmem
        exact isBoundaryLine_item c
  · by_cases hte : tags.isEmpty
    · rw [if_pos hte] at ht
      simp at ht
    · rw [if_neg hte] at ht
      rcases List.mem_cons.mp ht with rfl | hmem
      · rfl
      · obtain ⟨c, _, rfl⟩ := List.mem_map.mp hmem
        exact isBoundaryLine_item c
  · rcases List.mem_singleton.mp hT with rfl
    by_cases hti : title.isEmpty
    · rw [if_pos hti]
      rfl
    · rw [if_neg hti]
      exact isBoundaryLine_title title

theorem pyRStrip_single (c : Char) (hc : isPyWs c = false) :
    pyRStrip [c] = [c] := by
  have := pyRStrip_last_ne [] c hc
  simpa using this

theorem pyRStrip_cons_shape (c : Char) (X : List Char) (hc : isPyWs c = false) :
    pyRStrip (c :: X) = c :: pyRStrip X := by
  by_cases h : pyRStrip X = []
  · rw [h]
    have hall := pyRStrip_eq_nil X h
    have h2 : pyRStrip ([c] ++ X) = pyRStrip [c] := pyRStrip_append_ws [c] X hall
    rw [pyRStrip_single c hc] at h2
    simpa using h2
  · exact pyRStrip_cons_ne c X h

theorem pyStrip_nonws_head (c : Char) (X : List Char) (hc : isPyWs c = false) :
    pyStrip (c :: X) = pyRStrip (c :: X) := by
  unfold pyStrip
  rw [pyRStrip_cons_shape c X hc, pyLStrip_cons_ne c _ hc]

theorem yamlMetaLines_no_nl (title : List Char) (tags cats : List (List Char))
    (ht : title = [] ∨ plainScalar title = true)
    (htags : ∀ t ∈ tags, plainScalar t = true)
    (hcats : ∀ c ∈ cats, plainScalar c = true) :
    ∀ l ∈ yamlMetaLines title tags cats, ∀ x ∈ l, x ≠ '\n' := by
  intro l hl
  unfold yamlMetaLines at hl
  rw [List.mem_append, List.mem_append] at hl
  have hitem : ∀ (c : List Char), plainScalar c = true →
      ∀ x ∈ yamlItem c, x ≠ '\n' := by
    intro c hc x hx
    rcases List.mem_cons.mp hx with rfl | hx
    · decide
    · rcases List.mem_cons.mp hx with rfl | hx
      · decide
      · exact plainScalar_no_nl c hc x hx
  rcases hl with (hc | htg) | hT
  · by_cases hce : cats.isEmpty
    · rw [if_pos hce] at hc; simp at hc
    · rw [if_neg hce] at hc
      rcases List.mem_cons.mp hc with rfl | hmem
      · intro x hx
        fin_cases hx <;> decide
      · obtain ⟨c, hcm, rfl⟩ := List.mem_map.mp hmem
        exact hitem c (hcats c hcm)
  · by_cases hte : tags.isEmpty
    · rw [if_pos hte] at htg; simp at htg
    · rw [if_neg hte] at htg
      rcases List.mem_cons.mp htg with rfl | hmem
      · intro x hx
        fin_cases hx <;> decide
      · obtain ⟨c, hcm, rfl⟩ := List.mem_map.mp hmem
        exact hitem c (htags c hcm)
  · rcases List.mem_singleton.mp hT with rfl
    intro x hx
    rcases List.mem_append.mp hx with hx | hx
    · fin_cases hx <;> decide
    · rcases ht with hti | hp
      · rw [hti] at hx
        simp only [List.isEmpty_nil, if_true] at hx
        fin_cases hx <;> decide
      · have hne : title.isEmpty = false := by
          obtain ⟨hne, _, _, _⟩ := plainScalar_parts title hp
          cases title with
          | nil => exact absurd rfl hne
          | cons a t => rfl
        rw [hne] at hx
        simp only [Bool.false_eq_true, if_false] at hx
        exact plainScalar_no_nl title hp x hx

/-! ### Lemmas about the restricted yaml load -/

theorem fmLoadSM_cats_from_none (X : List (List Char)) (m : FmMeta) :
    fmLoadSM none (strL "categories:" :: X) m
      = fmLoadSM (some FmKey.categories) X m := rfl

theorem fmLoadSM_tags_from_none (X : List (List Char)) (m : FmMeta) :
    fmLoadSM none (strL "tags:" :: X) m = fmLoadSM (some FmKey.tags) X m := rfl

theorem fmLoadSM_tags_from_cats (X : List (List Char)) (m : FmMeta) :
    fmLoadSM (some FmKey.categories) (strL "tags:" :: X) m
      = fmLoadSM (some FmKey.tags) X m := rfl

theorem fmLoadSM_items_tags (ts : List (List Char)) (X : List (List Char))
    (m : FmMeta) (h : ∀ t ∈ ts, plainScalar t = true) :
    fmLoadSM (some FmKey.tags) (ts.map yamlItem ++ X) m
      = fmLoadSM (some FmKey.tags) X { m with tags := m.tags ++ ts } := by
  induction ts generalizing m with
  | nil => simp
  | cons t ts ih =>
    have hstep : fmLoadSM (some FmKey.tags)
        (yamlItem t :: (ts.map yamlItem ++ X)) m
        = fmLoadSM (some FmKey.tags) (ts.map yamlItem ++ X)
          { m with tags := m.tags ++ [pyStrip t] } := rfl
    have hmap : (t :: ts).map yamlItem ++ X
        = yamlItem t :: (ts.map yamlItem ++ X) := by simp
    rw [hmap, hstep, plainScalar_strip t (h t (List.mem_cons_self t ts)),
      ih _ fun x hx => h x (List.mem_cons_of_mem t hx)]
    simp

theorem fmLoadSM_items_cats (ts : List (List Char)) (X : List (List Char))
    (m : FmMeta) (h : ∀ t ∈ ts, plainScalar t = true) :
    fmLoadSM (some FmKey.categories) (ts.map yamlItem ++ X) m
      = fmLoadSM (some FmKey.categories) X
          { m with categories := m.categories ++ ts } := by
  induction ts generalizing m with
  | nil => simp
  | cons t ts ih =>
    have hstep : fmLoadSM (some FmKey.categories)
        (yamlItem t :: (ts.map yamlItem ++ X)) m
        = fmLoadSM (some FmKey.categories) (ts.map yamlItem ++ X)
          { m with categories := m.categories ++ [pyStrip t] } := rfl
    have hmap : (t :: ts).map yamlItem ++ X
        = yamlItem t :: (ts.map yamlItem ++ X) := by simp
    rw [hmap, hstep, plainScalar_strip t (h t (List.mem_cons_self t ts)),
      ih _ fun x hx => h x (List.mem_cons_of_mem t hx)]
    simp

theorem fmLoadSM_title_step (st : Option FmKey) (tval : List Char) (m : FmMeta) :
    fmLoadSM st [strL "title: " ++ tval] m
      = { m with title := unquoteScalar (pyStrip (' ' :: tval)) } := by
  rcases st with _ | k
  · rfl
  · cases k <;> rfl

theorem fmLoad_yamlMetaLines (title : List Char) (tags cats : List (List Char))
    (ht : title = [] ∨ plainScalar title = true)
    (htags : ∀ t ∈ tags, plainScalar t = true)
    (hcats : ∀ c ∈ cats, plainScalar c = true) :
    fmLoadSM none (yamlMetaLines title tags cats) ⟨[], [], []⟩
      = ⟨title, tags, cats⟩ := by
  have htitle : unquoteScalar (pyStrip
      (' ' :: (if title.isEmpty then strL "''" else title))) = title := by
    rcases ht with rfl | hp
    · rfl
    · have hne : title.isEmpty = false := by
        obtain ⟨hne, _, _, _⟩ := plainScalar_parts title hp
        cases title with
        | nil => exact absurd rfl hne
        | cons a t => rfl
      rw [hne]
      simp only [Bool.false_eq_true, if_false]
      rw [pyStrip_cons_ws ' ' title rfl, plainScalar_strip title hp]
      unfold unquoteScalar
      have : (title == strL "''") = false := by
        simp [plainScalar_ne_quotes title hp]
      rw [this]
      simp
  unfold yamlMetaLines
  cases cats with
  | nil =>
    cases tags with
    | nil =>
      simp only [List.isEmpty_nil, if_true, List.nil_append]
      rw [show [strL "title: " ++ (if title.isEmpty then strL "''" else title)]
          = [strL "title: " ++ (if title.isEmpty then strL "''" else title)] from rfl]
      rw [fmLoadSM_title_step, htitle]
    | cons t0 ts =>
      simp only [List.isEmpty_nil, List.isEmpty_cons, if_true, if_false,
        Bool.false_eq_true, List.nil_append, List.cons_append]
      rw [fmLoadSM_tags_from_none, fmLoadSM_items_tags _ _ _ htags,
        fmLoadSM_title_step, htitle]
      simp
  | cons c0 cs =>
    cases tags with
    | nil =>
      simp only [List.isEmpty_nil, List.isEmpty_cons, if_true, if_false,
        Bool.false_eq_true, List.append_nil, List.cons_append]
      rw [fmLoadSM_cats_from_none, fmLoadSM_items_cats _ _ _ hcats,
        fmLoadSM_title_step, htitle]
      simp
    | cons t0 ts =>
      simp only [List.isEmpty_cons, if_false, Bool.false_eq_true,
        List.cons_append, List.append_assoc]
      rw [fmLoadSM_cats_from_none, fmLoadSM_items_cats _ _ _ hcats,
        fmLoadSM_tags_from_cats, fmLoadSM_items_tags _ _ _ htags,
        fmLoadSM_title_step, htitle]
      simp

/-! ### The encoder's document splits back into its parts -/

theorem yamlMetaLines_ne_nil (title : List Char) (tags cats : List (List Char)) :
    yamlMetaLines title tags cats ≠ [] := by
  unfold yamlMetaLines
  intro h
  have := congrArg List.length h
  simp at this

theorem pyStrip_dashes (Z : List Char) :
    pyStrip (strL "---\n" ++ Z) = pyRStrip (strL "---\n" ++ Z) :=
  pyStrip_nonws_head '-' (strL "--\n" ++ Z) rfl

theorem fmSplit_encodePost (title : List Char) (tags cats : List (List Char))
    (body : List Char)
    (ht : title = [] ∨ plainScalar title = true)
    (htags : ∀ t ∈ tags, plainScalar t = true)
    (hcats : ∀ c ∈ cats, plainScalar c = true) :
    fmSplit (encodePost title tags cats body)
      = some (yamlMetaLines title tags cats, pyStrip body) := by
  have hnl := yamlMetaLines_no_nl title tags cats ht htags hcats
  have hbound := yamlMetaLines_not_boundary title tags cats
  have hMne := yamlMetaLines_ne_nil title tags cats
  have hdash_nl : ∀ x ∈ strL "---", x ≠ '\n' := by decide
  by_cases hB : pyRStrip body = []
  · -- the body is pure whitespace: the stripped document ends at the
    -- closing boundary
    have hballws : body.all isPyWs = true := pyRStrip_eq_nil body hB
    have hwall : (body ++ ['\n']).all isPyWs = true := by
      rw [List.all_append, hballws]
      rfl
    have h1 : pyRStrip (strL "\n---\n\n" ++ (body ++ ['\n']))
        = strL "\n---" := by
      rw [pyRStrip_append_ws _ _ hwall]
      decide
    have h2 : pyRStrip (joinLines (yamlMetaLines title tags cats)
        ++ (strL "\n---\n\n" ++ (body ++ ['\n'])))
        = joinLines (yamlMetaLines title tags cats) ++ strL "\n---" := by
      rw [pyRStrip_append_ne _ _ (by rw [h1]; decide), h1]
    have hfm : fmDumps title tags cats body
        = strL "---\n" ++ (joinLines (yamlMetaLines title tags cats)
            ++ strL "\n---") := by
      unfold fmDumps
      rw [pyStrip_dashes, pyRStrip_append_ne _ _ (by
          rw [h2]
          intro hc
          exact absurd (List.append_eq_nil.mp hc).2 (by decide)), h2]
    have hS : pyRStrip (joinLines (yamlMetaLines title tags cats)
        ++ strL "\n---") = joinLines (yamlMetaLines title tags cats)
          ++ strL "\n---" := by
      rw [pyRStrip_append_ne _ _ (show pyRStrip (strL "\n---") ≠ []
        by decide)]
      rw [show pyRStrip (strL "\n---") = strL "\n---" by decide]
    unfold fmSplit encodePost
    rw [hfm]
    rw [List.append_assoc]
    rw [pyStrip_dashes,
      pyRStrip_append_ne _ _ (by
        rw [pyRStrip_append_ws _ ['\n'] rfl, hS]
        intro hc
        exact absurd (List.append_eq_nil.mp hc).2 (by decide)),
      pyRStrip_append_ws _ ['\n'] rfl, hS]
    rw [show strL "---\n" ++ (joinLines (yamlMetaLines title tags cats)
        ++ strL "\n---")
        = strL "---" ++ '\n' :: (joinLines (yamlMetaLines title tags cats)
          ++ '\n' :: strL "---") from rfl]
    dsimp only
    rw [splitOnChar_append_cons, splitOnChar_no_sep '\n' _ hdash_nl,
      splitJoin _ _ hnl hMne, splitOnChar_no_sep '\n' _ hdash_nl]
    simp only [List.singleton_append]
    show (if isBoundaryLine (strL "---") = true then _ else _) = _
    rw [if_pos (show isBoundaryLine (strL "---") = true by decide)]
    rw [breakAtBoundary_append _ [] (strL "---") hbound (by decide)]
    show some (yamlMetaLines title tags cats, pyStrip (joinLines [])) = _
    have : pyStrip body = [] := by
      unfold pyStrip
      rw [hB]
      rfl
    rw [this]
    rfl
  · -- the body has real content: it survives, stripped, after the blank
    -- line
    have h1 : pyRStrip (body ++ ['\n']) = pyRStrip body :=
      pyRStrip_append_ws body ['\n'] rfl
    have h2 : pyRStrip (strL "\n---\n\n" ++ (body ++ ['\n']))
        = strL "\n---\n\n" ++ pyRStrip body := by
      rw [pyRStrip_append_ne _ _ (by rw [h1]; exact hB), h1]
    have h3 : pyRStrip (joinLines (yamlMetaLines title tags cats)
        ++ (strL "\n---\n\n" ++ (body ++ ['\n'])))
        = joinLines (yamlMetaLines title tags cats)
          ++ (strL "\n---\n\n" ++ pyRStrip body) := by
      rw [pyRStrip_append_ne _ _ (by
        rw [h2]
        intro hc
        exact absurd (List.append_eq_nil.mp hc).1 (by decide)), h2]
    have hfm : fmDumps title tags cats body
        = strL "---\n" ++ (joinLines (yamlMetaLines title tags cats)
          ++ (strL "\n---\n\n" ++ pyRStrip body)) := by
      unfold fmDumps
      rw [pyStrip_dashes, pyRStrip_append_ne _ _ (by
        rw [h3]
        intro hc
        exact absurd (List.append_eq_nil.mp
          (List.append_eq_nil.mp hc).2).1 (by decide)), h3]
    have hS : pyRStrip (joinLines (yamlMetaLines title tags cats)
        ++ (strL "\n---\n\n" ++ pyRStrip body))
        = joinLines (yamlMetaLines title tags cats)
          ++ (strL "\n---\n\n" ++ pyRStrip body) := by
      have hin : pyRStrip (strL "\n---\n\n" ++ pyRStrip body)
          = strL "\n---\n\n" ++ pyRStrip body := by
        rw [pyRStrip_append_ne _ _ (by rw [pyRStrip_idem]; exact hB),
          pyRStrip_idem]
      rw [pyRStrip_append_ne _ _ (by
        rw [hin]
        intro hc
        exact absurd (List.append_eq_nil.mp hc).1 (by decide)), hin]
    unfold fmSplit encodePost
    rw [hfm]
    rw [List.append_assoc]
    rw [pyStrip_dashes,
      pyRStrip_append_ne _ _ (by
        rw [pyRStrip_append_ws _ ['\n'] rfl, hS]
        intro hc
        exact absurd (List.append_eq_nil.mp
          (List.append_eq_nil.mp hc).2).1 (by decide)),
      pyRStrip_append_ws _ ['\n'] rfl, hS]
    rw [show strL "---\n" ++ (joinLines (yamlMetaLines title tags cats)
        ++ (strL "\n---\n\n" ++ pyRStrip body))
        = strL "---" ++ '\n' :: (joinLines (yamlMetaLines title tags cats)
          ++ '\n' :: (strL "---" ++ '\n' :: ('\n' :: pyRStrip body)))
      from rfl]
    dsimp only
    rw [splitOnChar_append_cons, splitOnChar_no_sep '\n' _ hdash_nl,
      splitJoin _ _ hnl hMne, splitOnChar_append_cons,
      splitOnChar_no_sep '\n' _ hdash_nl, splitOnChar_cons_self]
    simp only [List.singleton_append]
    show (if isBoundaryLine (strL "---") = true then _ else _) = _
    rw [if_pos (show isBoundaryLine (strL "---") = true by decide)]
    rw [breakAtBoundary_append _ ([] :: splitOnChar '\n' (pyRStrip body))
      (strL "---") hbound (by decide)]
    obtain ⟨p, ps, hps⟩ := splitOnChar_dest '\n' (pyRStrip body)
    show some (yamlMetaLines title tags cats,
      pyStrip (joinLines ([] :: splitOnChar '\n' (pyRStrip body)))) = _
    rw [hps]
    rw [show joinLines ([] :: p :: ps) = '\n' :: joinLines (p :: ps) from rfl]
    rw [← hps, show joinLines (splitOnChar '\n' (pyRStrip body))
        = joinWith '\n' (splitOnChar '\n' (pyRStrip body)) from rfl,
      joinWith_splitOnChar]
    rw [pyStrip_cons_ws '\n' _ rfl]
    unfold pyStrip
    rw [pyRStrip_idem]

theorem dateShaped_shape (d : List Char) (h : dateShaped d = true) :
    ∃ a b c e x f g y i j, d = [a, b, c, e, x, f, g, y, i, j] := by
  rcases d with _ | ⟨a, _ | ⟨b, _ | ⟨c, _ | ⟨e, _ | ⟨x, _ | ⟨f, _ | ⟨g,
    _ | ⟨y, _ | ⟨i, _ | ⟨j, _ | ⟨k, t⟩⟩⟩⟩⟩⟩⟩⟩⟩⟩⟩
  all_goals first
    | exact Bool.noConfusion h
    | exact ⟨a, b, c, e, x, f, g, y, i, j, rfl⟩

theorem matchDateSlug_postFilename (date slug : List Char)
    (hd : dateShaped date = true) (hs : slug ≠ []) :
    matchDateSlug (postFilename date slug) = some (date, slug) := by
  obtain ⟨a, b, c, e, x, f, g, y, i, j, rfl⟩ := dateShaped_shape date hd
  cases slug with
  | nil => exact absurd rfl hs
  | cons s0 srest =>
    unfold matchDateSlug postFilename
    dsimp only
    have htake : (([a, b, c, e, x, f, g, y, i, j]
        ++ '-' :: s0 :: srest) ++ strL ".md").take 10
        = [a, b, c, e, x, f, g, y, i, j] := rfl
    have hget : (([a, b, c, e, x, f, g, y, i, j]
        ++ '-' :: s0 :: srest) ++ strL ".md").get? 10 = some '-' := rfl
    have hdrop : (([a, b, c, e, x, f, g, y, i, j]
        ++ '-' :: s0 :: srest) ++ strL ".md").drop 11
        = s0 :: srest ++ strL ".md" := rfl
    rw [htake, hget, hdrop, hd]
    have hlen : (s0 :: srest ++ strL ".md").length
        = (s0 :: srest).length + 3 := by
      rw [List.length_append]
      rfl
    rw [hlen, Nat.add_sub_cancel, List.drop_left, List.take_left]
    simp

/-- C2 (amended): for every record with a yaml-plain title (or an empty
title) and yaml-plain tags and categories, a shaped date and a non-empty
slug, decoding the document written by `save_post` (via `parse_post` on the
written file name) reproduces `date`, `slug`, `title`, `tags` and
`categories` exactly, and reproduces the body up to Python `strip()` —
the body is recovered as `pyStrip body`, not always byte-identically. -/
theorem claimC2 (title body : List Char) (tags cats : List (List Char))
    (date slug today : List Char)
    (ht : title = [] ∨ plainScalar title = true)
    (htags : ∀ t ∈ tags, plainScalar t = true)
    (hcats : ∀ c ∈ cats, plainScalar c = true)
    (hd : dateShaped date = true)
    (hs : slug ≠ []) :
    parse_post (encodePost title tags cats body) (postFilename date slug) today
      = { date := date, slug := slug, title := title, tags := tags,
          categories := cats, body := pyStrip body } := by
  unfold parse_post
  rw [fmSplit_encodePost title tags cats body ht htags hcats,
    matchDateSlug_postFilename date slug hd hs]
  dsimp only
  rw [fmLoad_yamlMetaLines title tags cats ht htags hcats]

/-- C2 counterexample: the round trip does not reproduce the body
exactly — a trailing newline in the body is lost on decode, even with
non-empty tags and categories. -/
theorem claimC2_counterexample :
    (parse_post
        (encodePost (strL "T") [strL "a"] [strL "b"] (strL "line\n"))
        (postFilename (strL "2024-01-02") (strL "x"))
        (strL "2020-01-01")).body
      ≠ strL "line\n" := by decide

/-- C2 witness: the amended round trip evaluated at a concrete record. -/
theorem claimC2_witness :
    parse_post
        (encodePost (strL "Hi") [strL "t1"] [strL "c1"] (strL "Body text"))
        (postFilename (strL "2024-01-02") (strL "my-post"))
        (strL "2030-12-31")
      = { date := strL "2024-01-02", slug := strL "my-post",
          title := strL "Hi", tags := [strL "t1"],
          categories := [strL "c1"],
          body := pyStrip (strL "Body text") } :=
  claimC2 (strL "Hi") (strL "Body text") [strL "t1"] [strL "c1"]
    (strL "2024-01-02") (strL "my-post") (strL "2030-12-31")
    (Or.inr (by decide)) (by decide) (by decide) (by decide) (by decide)

/-- C5 (amended): the encoder omits the `tags:` and `categories:` keys
exactly when the corresponding list is empty, always emits the `title:`
key (as `title: ''` when the title is empty), and the written document
always ends with a newline. -/
theorem claimC5 (title body : List Char) (tags cats : List (List Char)) :
    ((strL "tags:" ∈ yamlMetaLines title tags cats) ↔ tags ≠ [])
    ∧ ((strL "categories:" ∈ yamlMetaLines title tags cats) ↔ cats ≠ [])
    ∧ (strL "title: " ++ (if title.isEmpty then strL "''" else title))
        ∈ yamlMetaLines title tags cats
    ∧ (encodePost title tags cats body).getLast? = some '\n' := by
  have hitem_t : ∀ c : List Char, ¬ strL "tags:" = yamlItem c := by
    intro c h
    have h0 : some 't' = some '-' := congrArg List.head? h
    exact absurd h0 (by decide)
  have hitem_c : ∀ c : List Char, ¬ strL "categories:" = yamlItem c := by
    intro c h
    have h0 : some 'c' = some '-' := congrArg List.head? h
    exact absurd h0 (by decide)
  have htl_t : ¬ strL "tags:"
      = strL "title: " ++ (if title.isEmpty then strL "''" else title) := by
    intro h
    have h0 : some 'a' = some 'i' := congrArg (fun l => l.get? 1) h
    exact absurd h0 (by decide)
  have htl_c : ¬ strL "categories:"
      = strL "title: " ++ (if title.isEmpty then strL "''" else title) := by
    intro h
    have h0 : some 'a' = some 'i' := congrArg (fun l => l.get? 1) h
    exact absurd h0 (by decide)
  have hct : ¬ strL "tags:" = strL "categories:" := by decide
  have htc : ¬ strL "categories:" = strL "tags:" := by decide
  refine ⟨⟨?_, ?_⟩, ⟨?_, ?_⟩, ?_, ?_⟩
  · intro hmem htg
    subst htg
    simp only [yamlMetaLines, List.isEmpty_nil, if_true] at hmem
    rcases List.mem_append.mp hmem with h1 | h2
    · rcases List.mem_append.mp h1 with hc | hnil
      · by_cases hce : cats.isEmpty
        · rw [if_pos hce] at hc
          simp at hc
        · rw [if_neg hce] at hc
          rcases List.mem_cons.mp hc with he | hmm
          · exact hct he
          · obtain ⟨c, _, hcv⟩ := List.mem_map.mp hmm
            exact hitem_t c hcv.symm
      · simp at hnil
    · exact htl_t (List.mem_singleton.mp h2)
  · intro htg
    have hne : tags.isEmpty = false := by
      cases tags with
      | nil => exact absurd rfl htg
      | cons a t => rfl
    simp only [yamlMetaLines, hne, Bool.false_eq_true, if_false]
    exact List.mem_append.mpr (Or.inl (List.mem_append.mpr
      (Or.inr (List.mem_cons_self _ _))))
  · intro hmem hcg
    subst hcg
    simp only [yamlMetaLines, List.isEmpty_nil, if_true] at hmem
    rcases List.mem_append.mp hmem with h1 | h2
    · rcases List.mem_append.mp h1 with hnil | ht
      · simp at hnil
      · by_cases hte : tags.isEmpty
        · rw [if_pos hte] at ht
          simp at ht
        · rw [if_neg hte] at ht
          rcases List.mem_cons.mp ht with he | hmm
          · exact htc he
          · obtain ⟨c, _, hcv⟩ := List.mem_map.mp hmm
            exact hitem_c c hcv.symm
    · exact htl_c (List.mem_singleton.mp h2)
  · intro hcg
    have hne : cats.isEmpty = false := by
      cases cats with
      | nil => exact absurd rfl hcg
      | cons a t => rfl
    simp only [yamlMetaLines, hne, Bool.false_eq_true, if_false]
    exact List.mem_append.mpr (Or.inl (List.mem_append.mpr
      (Or.inl (List.mem_cons_self _ _))))
  · simp only [yamlMetaLines]
    exact List.mem_append.mpr (Or.inr (List.mem_singleton.mpr rfl))
  · unfold encodePost
    simp

/-- C5 counterexample: with an empty title (a value not "actually
present"), the encoder still emits a `title: ''` metadata line — the
whole written document for empty title, tags and categories is shown. -/
theorem claimC5_counterexample :
    encodePost [] [] [] (strL "x") = strL "---\ntitle: ''\n---\n\nx\n" := by
  decide


/-! ### Generic lemmas for the profile matchers -/

theorem lPre_get (p l : List Char) (h : lPre p l = true) :
    ∀ k, k < p.length → l.get? k = p.get? k := by
  induction p generalizing l with
  | nil => intro k hk; simp at hk
  | cons a p ih =>
    cases l with
    | nil => simp [lPre] at h
    | cons b l =>
      simp only [lPre, Bool.and_eq_true, beq_iff_eq] at h
      intro k hk
      cases k with
      | zero => simp [h.1]
      | succ k =>
        simp only [List.get?_cons_succ]
        exact ih l h.2 k (Nat.lt_of_succ_lt_succ hk)

theorem lPre_of_lPre_take (p l : List Char) (n : Nat)
    (h : lPre p (l.take n) = true) : lPre p l = true := by
  induction p generalizing l n with
  | nil => rfl
  | cons a p ih =>
    cases l with
    | nil => simpa using h
    | cons b l =>
      cases n with
      | zero => simp [lPre] at h
      | succ n =>
        simp only [List.take_succ_cons, lPre, Bool.and_eq_true] at h ⊢
        exact ⟨h.1, ih l n h.2⟩

theorem lPre_append_left (p K Z : List Char) (h : lPre p K = true) :
    lPre p (K ++ Z) = true := by
  induction p generalizing K with
  | nil => rfl
  | cons a p ih =>
    cases K with
    | nil => simp [lPre] at h
    | cons b K =>
      simp only [List.cons_append, lPre, Bool.and_eq_true] at h ⊢
      exact ⟨h.1, ih K h.2⟩

theorem drop_append_plus (A R : List Char) (j : Nat) :
    (A ++ R).drop (A.length + j) = R.drop j := by
  induction A with
  | nil => simp
  | cons a A ih =>
    have he : (a :: A).length + j = (A.length + j) + 1 := by
      simp [Nat.succ_add]
    rw [he, List.cons_append, List.drop_succ_cons, ih]

/-- `i + k`-th character of `A ++ R` through a prefix of the pattern. -/
theorem get_drop_append (A R : List Char) (i k : Nat) :
    ((A ++ R).drop i).get? k = (A ++ R).get? (i + k) := by
  rw [List.get?_drop]

/-- Whether the pattern `p` is compatible with the text `K` as far as `K`
lasts: when `K` runs out the continuation is unknown, so compatibility is
assumed. `preCompat p K = false` means a mismatch occurs inside `K`
itself, so `p` is a prefix of `K ++ R` for no continuation `R`. -/
def preCompat : List Char → List Char → Bool
  | [], _ => true
  | _ :: _, [] => true
  | a :: p, b :: l => a == b && preCompat p l

/-- A decidable certificate that the literal `p` cannot start at any
position inside `K`, whatever follows `K`. -/
def noPreSuf (p : List Char) : List Char → Bool
  | [] => true
  | c :: t => !preCompat p (c :: t) && noPreSuf p t

theorem preCompat_false (p K : List Char) (h : preCompat p K = false)
    (R : List Char) : lPre p (K ++ R) = false := by
  induction p generalizing K with
  | nil => simp [preCompat] at h
  | cons a p ih =>
    cases K with
    | nil => simp [preCompat] at h
    | cons b K =>
      show (a == b && lPre p (K ++ R)) = false
      rw [show preCompat (a :: p) (b :: K) = (a == b && preCompat p K)
        from rfl, Bool.and_eq_false_iff] at h
      rcases h with h | h
      · rw [h]
        rfl
      · rw [ih K h, Bool.and_false]

theorem noPreSuf_sound (p K : List Char) (hn : noPreSuf p K = true)
    (R : List Char) : ∀ i, i < K.length → lPre p ((K ++ R).drop i) = false := by
  induction K with
  | nil => intro i hi; simp at hi
  | cons c t ih =>
    rw [show noPreSuf p (c :: t) = (!preCompat p (c :: t) && noPreSuf p t)
      from rfl, Bool.and_eq_true, Bool.not_eq_true'] at hn
    intro i hi
    cases i with
    | zero =>
      rw [List.drop_zero, List.cons_append]
      exact preCompat_false p (c :: t) hn.1 R
    | succ i =>
      rw [List.cons_append, List.drop_succ_cons]
      exact ih hn.2 i (Nat.lt_of_succ_lt_succ hi)

/-- The literal `p` cannot start inside a field of inert characters
followed by `R`, when `p` has a non-inert character at index `j` and the
first `j` characters of `R` avoid that character. -/
theorem noPre_inert (p F R : List Char) (j : Nat) (q : Char)
    (hj : p.get? j = some q) (hq : inertChar q = false)
    (hF : F.all inertChar = true)
    (hR : ∀ m, m < j → R.get? m ≠ some q) :
    ∀ i, i < F.length → lPre p ((F ++ R).drop i) = false := by
  intro i hi
  by_contra hcon
  rw [Bool.not_eq_false] at hcon
  have hjlt : j < p.length := by
    by_contra hge
    rw [List.get?_eq_none.mpr (Nat.le_of_not_lt hge)] at hj
    exact Option.noConfusion hj
  have hwin := lPre_get p _ hcon j hjlt
  rw [get_drop_append, hj] at hwin
  by_cases hcase : i + j < F.length
  · rw [List.get?_append hcase] at hwin
    have hmem := List.get?_mem hwin
    have := List.all_eq_true.mp hF q hmem
    rw [hq] at this
    exact Bool.noConfusion this
  · have hle : F.length ≤ i + j := Nat.le_of_not_lt hcase
    rw [List.get?_append_right hle] at hwin
    have hlt : i + j - F.length < j := by omega
    exact hR _ hlt hwin

/-- Extend a no-start-inside certificate across a concatenation. -/
theorem noPre_chain (p A R : List Char) (m : Nat)
    (h1 : ∀ i, i < A.length → lPre p ((A ++ R).drop i) = false)
    (h2 : ∀ i, i < m → lPre p (R.drop i) = false) :
    ∀ i, i < A.length + m → lPre p ((A ++ R).drop i) = false := by
  intro i hi
  by_cases hc : i < A.length
  · exact h1 i hc
  · have : i = A.length + (i - A.length) := by omega
    rw [this, drop_append_plus]
    exact h2 _ (by omega)

/-- `re.search` skips a region where every attempt fails. -/
theorem scanO_skip {α : Type} (att : List Char → Option α) (A B : List Char)
    (h : ∀ i, i < A.length → att ((A ++ B).drop i) = none) :
    scanO att (A ++ B) = scanO att B := by
  induction A with
  | nil => rfl
  | cons a A ih =>
    have h0 := h 0 (Nat.succ_pos _)
    rw [List.drop_zero] at h0
    show (match att (a :: (A ++ B)) with
      | some g => some g | none => scanO att (A ++ B)) = scanO att B
    rw [List.cons_append] at h0
    rw [h0]
    exact ih fun i hi => by
      have := h (i + 1) (Nat.succ_lt_succ hi)
      rwa [List.cons_append, List.drop_succ_cons] at this

/-- `re.search` fails when every attempt fails. -/
theorem scanO_none {α : Type} (att : List Char → Option α) (s : List Char)
    (h : ∀ i, i < s.length → att (s.drop i) = none) :
    scanO att s = none := by
  induction s with
  | nil => rfl
  | cons a s ih =>
    have h0 := h 0 (Nat.succ_pos _)
    rw [List.drop_zero] at h0
    show (match att (a :: s) with
      | some g => some g | none => scanO att s) = none
    rw [h0]
    exact ih fun i hi => by
      have := h (i + 1) (Nat.succ_lt_succ hi)
      rwa [List.drop_succ_cons] at this

/-- `re.search` returns the successful attempt at the head. -/
theorem scanO_head {α : Type} (att : List Char → Option α) (b : Char)
    (t : List Char) (g : α) (h : att (b :: t) = some g) :
    scanO att (b :: t) = some g := by
  show (match att (b :: t) with
    | some g => some g | none => scanO att t) = some g
  rw [h]


/-! ### Inert fields: character facts, strip, runs -/

theorem inert_not_ws_unless_space (c : Char) (hc : inertChar c = true)
    (hw : isPyWs c = true) : c = ' ' := by
  simp only [isPyWs, Bool.or_eq_true, beq_iff_eq] at hw
  rcases hw with ((((h | h) | h) | h) | h) | h
  · exact h
  all_goals subst h; exact absurd hc (by decide)

theorem sanit_parts (s : List Char) (h : sanitStr s = true) :
    s ≠ [] ∧ s.all inertChar = true ∧ s.head? ≠ some ' '
      ∧ s.getLast? ≠ some ' ' := by
  simp only [sanitStr, Bool.and_eq_true, bne_iff_ne, Bool.not_eq_true] at h
  refine ⟨?_, h.1.1.2, h.1.2, h.2⟩
  intro he
  rw [he] at h
  exact absurd h.1.1.1 (by decide)


theorem sanit_head_not_ws (s : List Char) (h : sanitStr s = true) :
    ∃ c t, s = c :: t ∧ isPyWs c = false ∧ inertChar c = true := by
  obtain ⟨hne, hall, hhd, _⟩ := sanit_parts s h
  cases s with
  | nil => exact absurd rfl hne
  | cons c t =>
    refine ⟨c, t, rfl, ?_, ?_⟩
    · by_contra hw
      rw [Bool.not_eq_false] at hw
      have hc := List.all_eq_true.mp hall c (List.mem_cons_self c t)
      have := inert_not_ws_unless_space c hc hw
      rw [this] at hhd
      exact hhd rfl
    · exact List.all_eq_true.mp hall c (List.mem_cons_self c t)

theorem sanit_last_not_ws (s : List Char) (h : sanitStr s = true) :
    ∃ x c, s = x ++ [c] ∧ isPyWs c = false := by
  obtain ⟨hne, hall, _, hlast⟩ := sanit_parts s h
  rcases List.eq_nil_or_concat s with rfl | ⟨x, c, rfl⟩
  · exact absurd rfl hne
  · rw [List.concat_eq_append] at hall hlast
    refine ⟨x, c, List.concat_eq_append x c, ?_⟩
    by_contra hw
    rw [Bool.not_eq_false] at hw
    have hc := List.all_eq_true.mp hall c (by simp)
    have := inert_not_ws_unless_space c hc hw
    rw [this, List.getLast?_concat] at hlast
    exact hlast rfl

theorem sanit_strip (s : List Char) (h : sanitStr s = true) :
    pyStrip s = s := by
  obtain ⟨x, c, he, hc⟩ := sanit_last_not_ws s h
  obtain ⟨d, t, he2, hd, _⟩ := sanit_head_not_ws s h
  unfold pyStrip
  rw [he, pyRStrip_last_ne x c hc, ← he, he2, pyLStrip_cons_ne d t hd]

theorem sanit_strip_space (s : List Char) (h : sanitStr s = true) :
    pyStrip (s ++ [' ']) = s := by
  obtain ⟨x, c, he, hc⟩ := sanit_last_not_ws s h
  obtain ⟨d, t, he2, hd, _⟩ := sanit_head_not_ws s h
  unfold pyStrip
  rw [pyRStrip_append_ws s [' '] rfl, he, pyRStrip_last_ne x c hc, ← he,
    he2, pyLStrip_cons_ne d t hd]

theorem sanit_no_char (s : List Char) (h : sanitStr s = true) (q : Char)
    (hq : inertChar q = false) : ∀ x ∈ s, x ≠ q := by
  obtain ⟨_, hall, _, _⟩ := sanit_parts s h
  intro x hx he
  subst he
  rw [List.all_eq_true.mp hall x hx] at hq
  exact Bool.noConfusion hq

/-! ### takeWhile / dropWhile over concatenations -/

theorem takeWhile_append_all (p : Char → Bool) (A R : List Char)
    (h : ∀ x ∈ A, p x = true) :
    (A ++ R).takeWhile p = A ++ R.takeWhile p := by
  induction A with
  | nil => rfl
  | cons a A ih =>
    rw [List.cons_append, List.takeWhile_cons,
      h a (List.mem_cons_self a A), ih fun x hx => h x (List.mem_cons_of_mem a hx)]
    rfl

theorem takeWhile_append_stop (p : Char → Bool) (A R : List Char)
    (h : A.dropWhile p ≠ []) :
    (A ++ R).takeWhile p = A.takeWhile p := by
  induction A with
  | nil => exact absurd rfl h
  | cons a A ih =>
    by_cases hp : p a
    · rw [List.cons_append, List.takeWhile_cons, hp, List.takeWhile_cons, hp]
      rw [List.dropWhile_cons, hp] at h
      simp only [if_true]
      rw [ih h]
    · rw [List.cons_append, List.takeWhile_cons, List.takeWhile_cons]
      simp [hp]

theorem dropWhile_append_stop (p : Char → Bool) (A R : List Char)
    (h : A.dropWhile p ≠ []) :
    (A ++ R).dropWhile p = A.dropWhile p ++ R := by
  induction A with
  | nil => exact absurd rfl h
  | cons a A ih =>
    by_cases hp : p a
    · rw [List.cons_append, List.dropWhile_cons, hp, List.dropWhile_cons, hp]
      rw [List.dropWhile_cons, hp] at h
      simp only [if_true]
      rw [ih h]
    · rw [List.cons_append, List.dropWhile_cons, List.dropWhile_cons]
      simp [hp]

theorem drop_takeWhile_length (p : Char → Bool) (l : List Char) :
    l.drop (l.takeWhile p).length = l.dropWhile p := by
  induction l with
  | nil => rfl
  | cons a l ih =>
    rw [List.takeWhile_cons, List.dropWhile_cons]
    by_cases hp : p a
    · rw [hp]
      simpa using ih
    · simp [hp]

theorem drop_wsRun (l : List Char) : l.drop (wsRun l) = l.dropWhile isPyWs :=
  drop_takeWhile_length isPyWs l

/-- The whitespace run of `W ++ Z` is exactly `W` when `W` is whitespace
and `Z` opens on a non-whitespace character. -/
theorem wsRun_exact (W : List Char) (z : Char) (Z : List Char)
    (hW : W.all isPyWs = true) (hz : isPyWs z = false) :
    wsRun (W ++ z :: Z) = W.length := by
  unfold wsRun
  rw [takeWhile_append_all isPyWs W _ (fun x hx => List.all_eq_true.mp hW x hx),
    List.takeWhile_cons, hz]
  simp


/-! ### Locating the first literal / first `\s*lit` position -/

theorem findFrom_append (pat F R : List Char)
    (hF : ∀ i, i < F.length → lPre pat ((F ++ R).drop i) = false)
    (hR : lPre pat R = true) :
    findFrom pat (F ++ R) = some F.length := by
  induction F with
  | nil =>
    cases R with
    | nil =>
      cases pat with
      | nil => rfl
      | cons a p => simp [lPre] at hR
    | cons c t =>
      show findFrom pat (c :: t) = some 0
      unfold findFrom
      rw [hR]
      simp
  | cons f F ih =>
    have h0 := hF 0 (Nat.succ_pos _)
    rw [List.drop_zero, List.cons_append] at h0
    show findFrom pat (f :: (F ++ R)) = some (F.length + 1)
    unfold findFrom
    rw [h0]
    simp only [Bool.false_eq_true, if_false]
    rw [ih fun i hi => by
      have := hF (i + 1) (Nat.succ_lt_succ hi)
      rwa [List.cons_append, List.drop_succ_cons] at this]
    rfl

theorem findCond_append (lit F R : List Char)
    (hF : ∀ i, i < F.length → condSuf lit ((F ++ R).drop i) = false)
    (hR : condSuf lit R = true) :
    findCond lit (F ++ R) = some F.length := by
  induction F with
  | nil =>
    cases R with
    | nil =>
      unfold condSuf at hR
      cases lit with
      | nil => rfl
      | cons a p => simp [lPre] at hR
    | cons c t =>
      show findCond lit (c :: t) = some 0
      unfold findCond
      rw [hR]
      simp
  | cons f F ih =>
    have h0 := hF 0 (Nat.succ_pos _)
    rw [List.drop_zero, List.cons_append] at h0
    show findCond lit (f :: (F ++ R)) = some (F.length + 1)
    unfold findCond
    rw [h0]
    simp only [Bool.false_eq_true, if_false]
    rw [ih fun i hi => by
      have := hF (i + 1) (Nat.succ_lt_succ hi)
      rwa [List.cons_append, List.drop_succ_cons] at this]
    rfl

/-- Inside a sanitized field, `\s*lit` (with `lit` opening on a
non-inert, non-whitespace character) matches at no position: any
whitespace run from a position inside the field ends on an inert
character, because the field's last character is not whitespace. -/
theorem condSuf_false_in_sanit (lit : List Char) (q : Char) (lq : List Char)
    (hlit : lit = q :: lq) (hq : inertChar q = false) (hqw : isPyWs q = false)
    (F R : List Char) (hF : sanitStr F = true) :
    ∀ p, p < F.length → condSuf lit ((F ++ R).drop p) = false := by
  intro p hp
  obtain ⟨x, c, he, hc⟩ := sanit_last_not_ws F hF
  obtain ⟨_, hall, _, _⟩ := sanit_parts F hF
  have hple : p ≤ x.length := by
    rw [he] at hp
    simp only [List.length_append, List.length_singleton] at hp
    omega
  have hdrop : (F ++ R).drop p = (x.drop p ++ [c]) ++ R := by
    rw [he, List.append_assoc, List.drop_append_of_le_length hple,
      ← List.append_assoc]
  rw [hdrop]
  unfold condSuf
  rw [drop_wsRun]
  have hne : (x.drop p ++ [c]).dropWhile isPyWs ≠ [] := by
    intro hnil
    have := List.dropWhile_eq_nil_iff.mp hnil c (by simp)
    rw [hc] at this
    exact Bool.noConfusion this
  rw [dropWhile_append_stop isPyWs _ R hne]
  obtain ⟨d, t, hdt⟩ : ∃ d t, (x.drop p ++ [c]).dropWhile isPyWs = d :: t := by
    cases hx : (x.drop p ++ [c]).dropWhile isPyWs with
    | nil => exact absurd hx hne
    | cons d t => exact ⟨d, t, rfl⟩
  rw [hdt, hlit]
  have hdmem : d ∈ x.drop p ++ [c] := by
    have hsub := List.dropWhile_sublist (p := isPyWs) (l := x.drop p ++ [c])
    rw [hdt] at hsub
    exact hsub.subset (List.mem_cons_self d t)
  have hdin : inertChar d = true := by
    have : d ∈ F := by
      rw [he]
      rcases List.mem_append.mp hdmem with hh | hh
      · exact List.mem_append.mpr (Or.inl (List.mem_of_mem_drop hh))
      · exact List.mem_append.mpr (Or.inr hh)
    exact List.all_eq_true.mp hall d this
  have hdq : (q == d) = false := by
    rw [beq_eq_false_iff_ne]
    intro hqd
    rw [← hqd] at hdin
    rw [hdin] at hq
    exact Bool.noConfusion hq
  show (q == d && lPre lq (t ++ R)) = false
  rw [hdq]
  rfl


/-! ### The lazy-group matchers on a sanitized field -/

theorem sanit_tail_inert (c : Char) (t : List Char)
    (h : sanitStr (c :: t) = true) : t.all inertChar = true := by
  obtain ⟨_, hall, _, _⟩ := sanit_parts _ h
  rw [List.all_cons, Bool.and_eq_true] at hall
  exact hall.2

theorem lazyTil_field (lit F R : List Char) (hF : sanitStr F = true)
    (hlit : lit.get? 0 = some '<') (hR : lPre lit R = true) :
    lazyTil lit (F ++ R) = some (F, R.drop lit.length) := by
  obtain ⟨c, t, rfl, _, _⟩ := sanit_head_not_ws F hF
  have htall := sanit_tail_inert c t hF
  have hno : ∀ i, i < t.length → lPre lit ((t ++ R).drop i) = false :=
    noPre_inert lit t R 0 '<' hlit (by decide) htall
      (fun m hm => absurd hm (Nat.not_lt_zero m))
  rw [List.cons_append]
  unfold lazyTil
  dsimp only
  rw [findFrom_append lit t R hno hR]
  dsimp only
  rw [List.take_succ_cons, List.take_left, drop_append_plus]

theorem wsLazyTil_space_field (lit F R : List Char) (hF : sanitStr F = true)
    (hlit : lit.get? 0 = some '<') (hR : lPre lit R = true) :
    wsLazyTil lit (' ' :: (F ++ R)) = some (F, R.drop lit.length) := by
  obtain ⟨c, t, he, hcw, _⟩ := sanit_head_not_ws F hF
  have hws : wsRun (' ' :: (F ++ R)) = 1 := by
    have := wsRun_exact [' '] c (t ++ R) rfl hcw
    rw [he, List.cons_append]
    rw [List.cons_append] at this
    simpa using this
  unfold wsLazyTil
  rw [hws]
  dsimp only
  rw [List.drop_one, List.tail_cons, lazyTil_field lit F R hF hlit hR]

theorem wsLazyWsTil_field (lit lq : List Char) (W F R : List Char)
    (hlit : lit = '<' :: lq) (hW : W.all isPyWs = true)
    (hF : sanitStr F = true) (hcond : condSuf lit R = true) :
    wsLazyWsTil lit (W ++ (F ++ R))
      = some (F, ((R.drop (wsRun R)).drop lit.length)) := by
  obtain ⟨c, t, he, hcw, _⟩ := sanit_head_not_ws F hF
  have hws : wsRun (W ++ (F ++ R)) = W.length := by
    rw [he, List.cons_append]
    exact wsRun_exact W c (t ++ R) hW hcw
  have hcondF : ∀ i, i < t.length → condSuf lit ((t ++ R).drop i) = false := by
    intro i hi
    have hlen : i + 1 < F.length := by
      rw [he]
      simp only [List.length_cons]
      omega
    have := condSuf_false_in_sanit lit '<' lq hlit (by decide) (by decide)
      F R hF (i + 1) hlen
    rw [he, List.cons_append, List.drop_succ_cons] at this
    exact this
  unfold wsLazyWsTil
  dsimp only
  rw [hws, List.drop_left, he, List.cons_append]
  dsimp only
  rw [findCond_append lit t R hcondF hcond]
  dsimp only
  rw [List.take_succ_cons, List.take_left,
    show (c :: (t ++ R)).drop (t.length + 1) = (t ++ R).drop t.length from rfl,
    List.drop_left]


/-- `noPre_inert` with the guard on `R` as a decidable check on `R.take j`. -/
theorem noPre_inert_take (p F R : List Char) (j : Nat) (q : Char)
    (hj : p.get? j = some q) (hq : inertChar q = false)
    (hF : F.all inertChar = true)
    (hR : (R.take j).all (fun c => c != q) = true) :
    ∀ i, i < F.length → lPre p ((F ++ R).drop i) = false := by
  refine noPre_inert p F R j q hj hq hF ?_
  intro m hm he
  have hmem : q ∈ R.take j := by
    have hgt := List.get?_take hm (l := R)
    rw [he] at hgt
    exact List.get?_mem hgt
  have := List.all_eq_true.mp hR q hmem
  simp at this

theorem take_append_le (K Z : List Char) (j : Nat) (h : j ≤ K.length) :
    (K ++ Z).take j = K.take j := by
  induction K generalizing j with
  | nil =>
    cases j with
    | zero => rfl
    | succ j => simp at h
  | cons a K ih =>
    cases j with
    | zero => rfl
    | succ j =>
      rw [List.cons_append, List.take_succ_cons, List.take_succ_cons,
        ih j (Nat.le_of_succ_le_succ h)]

theorem all_take_append (p : Char → Bool) (l r : List Char) (n : Nat)
    (hl : l.all p = true) (hr : (r.take n).all p = true) :
    ((l ++ r).take n).all p = true := by
  induction l generalizing n with
  | nil => exact hr
  | cons a l ih =>
    cases n with
    | zero => rfl
    | succ n =>
      rw [List.all_cons, Bool.and_eq_true] at hl
      rw [List.cons_append, List.take_succ_cons, List.all_cons, hl.1]
      simp only [Bool.true_and]
      refine ih n hl.2 (List.all_eq_true.mpr fun x hx => ?_)
      have hx2 : x ∈ r.take (n + 1) := by
        have he : r.take n = (r.take (n + 1)).take n := by
          rw [List.take_take, Nat.min_eq_left (Nat.le_succ n)]
        rw [he] at hx
        exact List.take_subset n _ hx
      exact List.all_eq_true.mp hr x hx2

/-! ### Every attempt needs its anchor literal -/

theorem attemptH1_not (s : List Char) (h : lPre (strL "<h1") s = false) :
    attemptH1 s = none := by simp [attemptH1, h]

theorem attemptNameEn_not (s : List Char)
    (h : lPre (strL "class=\"profile-name-en\"") s = false) :
    attemptNameEn s = none := by simp [attemptNameEn, h]

theorem attemptAffil_not (s : List Char)
    (h : lPre (strL "class=\"profile-affiliation") s = false) :
    attemptAffil s = none := by simp [attemptAffil, h]

theorem attemptBio_not (s : List Char)
    (h : lPre (strL "class=\"profile-bio") s = false) :
    attemptBio s = none := by simp [attemptBio, h]

theorem attemptKw_not (s : List Char)
    (h : lPre (strL "class=\"profile-keywords\"") s = false) :
    attemptKw s = none := by simp [attemptKw, h]

theorem attemptThesis_not (s : List Char)
    (h : lPre (strL "<!-- Thesis -->") s = false) :
    attemptThesis s = none := by simp [attemptThesis, h]

theorem attemptLinkedin_not (s : List Char)
    (h : lPre (strL "href=\"https://www.linkedin.com/") s = false) :
    attemptLinkedin s = none := by simp [attemptLinkedin, h]

theorem attemptGithub_not (s : List Char)
    (h : lPre (strL "href=\"https://github.com/") s = false) :
    attemptGithub s = none := by simp [attemptGithub, h]

theorem attemptTwitter_not (s : List Char)
    (h : lPre (strL "href=\"https://") s = false) :
    attemptTwitter s = none := by simp [attemptTwitter, h]

theorem attemptEmail_not (s : List Char)
    (h : lPre (strL "href=\"mailto:") s = false) :
    attemptEmail s = none := by simp [attemptEmail, h]

theorem attemptPub_not (s : List Char)
    (h : lPre (strL "<li><a href=\"") s = false) :
    attemptPub s = none := by simp [attemptPub, h]


/-! ### Scan-skip wrappers and concrete-run helpers -/

theorem sanit_all (s : List Char) (h : sanitStr s = true) :
    s.all inertChar = true := (sanit_parts s h).2.1

theorem lPre_self_append (p Z : List Char) : lPre p (p ++ Z) = true := by
  induction p with
  | nil => rfl
  | cons a p ih =>
    show (a == a && lPre p (p ++ Z)) = true
    rw [ih, beq_self_eq_true]
    rfl

/-- Skip a concrete segment carrying a `noPreSuf` certificate. -/
theorem skip_seg {α : Type} (att : List Char → Option α) (anch : List Char)
    (hnot : ∀ s, lPre anch s = false → att s = none) (K R : List Char)
    (hK : noPreSuf anch K = true) : scanO att (K ++ R) = scanO att R :=
  scanO_skip att K R fun i hi => hnot _ (noPreSuf_sound anch K hK R i hi)

/-- Skip a sanitized field: the anchor has a non-inert character at
index `j` that the field cannot supply and the next `j` characters of the
continuation avoid. -/
theorem skip_field {α : Type} (att : List Char → Option α) (anch : List Char)
    (hnot : ∀ s, lPre anch s = false → att s = none) (F R : List Char)
    (j : Nat) (q : Char) (hj : anch.get? j = some q)
    (hq : inertChar q = false) (hF : F.all inertChar = true)
    (hR : (R.take j).all (fun c => c != q) = true) :
    scanO att (F ++ R) = scanO att R :=
  scanO_skip att F R fun i hi =>
    hnot _ (noPre_inert_take anch F R j q hj hq hF hR i hi)

/-- `[^x]*x` over a concrete prefix that contains the `x`. -/
theorem runTo_concrete (x : Char) (K k1 k2 Z : List Char)
    (hsplit : K = k1 ++ x :: k2) (hk1 : ∀ c ∈ k1, (c != x) = true) :
    runTo x (K ++ Z) = some (k1, k2 ++ Z) := by
  subst hsplit
  unfold runTo
  rw [List.append_assoc]
  have htake : (k1 ++ (x :: k2 ++ Z)).takeWhile (· != x) = k1 := by
    rw [takeWhile_append_all _ _ _ hk1, List.cons_append, List.takeWhile_cons]
    simp
  rw [htake]
  dsimp only
  rw [List.drop_left]
  rfl

/-- `nlToBr` does nothing to a single-line inert string. -/
theorem nlToBr_inert (s : List Char) (h : s.all inertChar = true) :
    nlToBr s = s := by
  induction s with
  | nil => rfl
  | cons c t ih =>
    rw [List.all_cons, Bool.and_eq_true] at h
    show (if c == '\n' then strL "<br>\n      " ++ nlToBr t else c :: nlToBr t) = c :: t
    have hc : (c == '\n') = false := by
      rw [beq_eq_false_iff_ne]
      intro he
      rw [he] at h
      exact absurd h.1 (by decide)
    rw [hc, ih h.2]
    simp

/-- `brSubF` does nothing to an inert string, whatever the fuel. -/
theorem brSubF_inert (f : Nat) (s : List Char) (h : s.all inertChar = true) :
    brSubF f s = s := by
  induction s generalizing f with
  | nil => cases f <;> rfl
  | cons c t ih =>
    cases f with
    | zero => rfl
    | succ f =>
      rw [List.all_cons, Bool.and_eq_true] at h
      show (if lPre (strL "<br>") ((c :: t).drop (wsRun (c :: t))) then _ else _) = _
      have hlt : lPre (strL "<br>") ((c :: t).drop (wsRun (c :: t))) = false := by
        rw [drop_wsRun]
        cases hd : (c :: t).dropWhile isPyWs with
        | nil => rfl
        | cons d u =>
          have hdmem : d ∈ c :: t := by
            have hsub := List.dropWhile_sublist (p := isPyWs) (l := c :: t)
            rw [hd] at hsub
            exact hsub.subset (List.mem_cons_self d u)
          have hall : (c :: t).all inertChar = true := by
            rw [List.all_cons, h.1, h.2]
            rfl
          have hdin : inertChar d = true := List.all_eq_true.mp hall d hdmem
          show (('<' == d) && _) = false
          have : ('<' == d) = false := by
            rw [beq_eq_false_iff_ne]
            intro he
            rw [← he] at hdin
            exact absurd hdin (by decide)
          rw [this]
          rfl
      rw [hlt]
      simp only [Bool.false_eq_true, if_false]
      rw [ih f h.2]

/-- `brSub` does nothing to an inert string. -/
theorem brSub_inert (s : List Char) (h : s.all inertChar = true) :
    brSub s = s := brSubF_inert s.length s h


/-! ### The extractors on the rendered page -/

/-- Skip the language switch, whichever language was used. -/
theorem skip_ls {α : Type} (att : List Char → Option α) (anch : List Char)
    (hnot : ∀ s, lPre anch s = false → att s = none)
    (h1 : noPreSuf anch lsKo = true) (h2 : noPreSuf anch lsEn = true)
    (ls : List Char) (hls : ls = lsKo ∨ ls = lsEn) (R : List Char) :
    scanO att (ls ++ R) = scanO att R := by
  rcases hls with rfl | rfl
  · exact skip_seg att anch hnot lsKo R h1
  · exact skip_seg att anch hnot lsEn R h2

theorem sanit_bool_ne (s : List Char) (h : sanitStr s = true) (q : Char)
    (hq : inertChar q = false) : ∀ c ∈ s, (c != q) = true := by
  intro c hc
  rw [bne_iff_ne]
  exact sanit_no_char s h q hq c hc

/-- The `<h1` attempt at its anchor: the group is the primary name plus
the space before `<span`. -/
theorem attemptH1_at (np Z : List Char) (hnp : sanitStr np = true) :
    attemptH1 (strL "<h1" ++ (pSeg1c ++ (np ++ (pSeg2a ++ Z))))
      = some (np ++ [' ']) := by
  unfold attemptH1
  rw [lPre_self_append]
  rw [if_pos rfl]
  rw [show (strL "<h1" ++ (pSeg1c ++ (np ++ (pSeg2a ++ Z)))).drop 3
      = pSeg1c ++ (np ++ (pSeg2a ++ Z)) from rfl]
  rw [runTo_concrete '>' pSeg1c (strL " class=\"mt-0 mb-1\"") [] _
    (by decide) (by decide)]
  dsimp only
  rw [List.nil_append]
  have htw : (np ++ (pSeg2a ++ Z)).takeWhile (· != '<') = np ++ [' '] := by
    rw [takeWhile_append_all _ np _ (sanit_bool_ne np hnp '<' (by decide))]
    rw [takeWhile_append_stop _ pSeg2a Z (by decide)]
    rfl
  rw [htw]
  have hdr : (np ++ (pSeg2a ++ Z)).drop (np ++ [' ']).length
      = strL "<span " ++ Z := by
    rw [List.length_append, List.length_singleton, drop_append_plus]
    rfl
  rw [hdr]
  rw [lPre_append_left _ _ _ (show lPre (strL "<span") (strL "<span ") = true
    by decide)]
  have hne : (np ++ [' ']).isEmpty = false := by
    cases np <;> rfl
  rw [hne]
  rfl

/-- `name_primary` extraction over the rendered page. -/
theorem scan_h1_render (ls : List Char) (r : ProfileRecord)
    (hls : ls = lsKo ∨ ls = lsEn) (hnp : sanitStr r.name_primary = true) :
    scanO attemptH1 (renderCore ls r) = some (r.name_primary ++ [' ']) := by
  unfold renderCore
  rw [skip_seg attemptH1 (strL "<h1") attemptH1_not pSeg0 _ (by decide)]
  rw [skip_ls attemptH1 (strL "<h1") attemptH1_not (by decide) (by decide)
    ls hls]
  rw [skip_seg attemptH1 (strL "<h1") attemptH1_not pSeg1a _ (by decide)]
  exact scanO_head attemptH1 '<' _ _ (attemptH1_at r.name_primary _ hnp)


/-- `\s*lit` matches at the head of a concrete segment that opens with a
whitespace run followed by the literal. -/
theorem condSuf_concrete (lit K W k2 Z : List Char) (z : Char)
    (hsplit : K = W ++ z :: k2) (hW : W.all isPyWs = true)
    (hz : isPyWs z = false) (hpre : lPre lit (z :: k2) = true) :
    condSuf lit (K ++ Z) = true := by
  subst hsplit
  unfold condSuf
  rw [List.append_assoc, List.cons_append, wsRun_exact W z (k2 ++ Z) hW hz,
    List.drop_left]
  exact lPre_append_left lit (z :: k2) Z hpre

/-- The `name-en` attempt at its anchor. -/
theorem attemptNameEn_at (ns Z : List Char) (hns : sanitStr ns = true) :
    attemptNameEn (strL "class=\"profile-name-en\"" ++ (pSeg2c ++ (ns ++ (pSeg3a ++ Z))))
      = some ns := by
  unfold attemptNameEn
  rw [lPre_self_append, if_pos rfl]
  rw [show (strL "class=\"profile-name-en\"" ++ (pSeg2c ++ (ns ++ (pSeg3a ++ Z)))).drop 23
      = pSeg2c ++ (ns ++ (pSeg3a ++ Z)) from rfl]
  rw [runTo_concrete '>' pSeg2c [] (strL "/ ") _ (by decide) (by decide)]
  dsimp only
  rw [show (strL "/ " ++ (ns ++ (pSeg3a ++ Z)))
      = '/' :: (' ' :: (ns ++ (pSeg3a ++ Z))) from rfl]
  show Option.map (fun x => x.1)
    (wsLazyTil (strL "</span>") (' ' :: (ns ++ (pSeg3a ++ Z)))) = some ns
  rw [wsLazyTil_space_field (strL "</span>") ns (pSeg3a ++ Z) hns (by decide)
    (lPre_append_left _ _ _ (by decide))]
  rfl

/-- `name_secondary` extraction over the rendered page. -/
theorem scan_nameEn_render (ls : List Char) (r : ProfileRecord)
    (hls : ls = lsKo ∨ ls = lsEn) (hnp : sanitStr r.name_primary = true)
    (hns : sanitStr r.name_secondary = true) :
    scanO attemptNameEn (renderCore ls r) = some r.name_secondary := by
  unfold renderCore
  rw [skip_seg attemptNameEn (strL "class=\"profile-name-en\"")
      attemptNameEn_not pSeg0 _ (by decide),
    skip_ls attemptNameEn _ attemptNameEn_not (by decide) (by decide) ls hls,
    skip_seg attemptNameEn _ attemptNameEn_not pSeg1a _ (by decide),
    skip_seg attemptNameEn _ attemptNameEn_not pSeg1b _ (by decide),
    skip_seg attemptNameEn _ attemptNameEn_not pSeg1c _ (by decide),
    skip_field attemptNameEn _ attemptNameEn_not r.name_primary _ 5 '='
      (by decide) (by decide) (sanit_all _ hnp)
      (by rw [take_append_le _ _ 5 (by decide)]; decide),
    skip_seg attemptNameEn _ attemptNameEn_not pSeg2a _ (by decide)]
  exact scanO_head attemptNameEn 'c' _ _ (attemptNameEn_at r.name_secondary _ hns)

/-- The affiliation attempt at its anchor. -/
theorem attemptAffil_at (aff Z : List Char) (haff : sanitStr aff = true) :
    attemptAffil (strL "class=\"profile-affiliation" ++ (pSeg3c ++ (aff ++ (pSeg4a ++ Z))))
      = some aff := by
  unfold attemptAffil
  rw [lPre_self_append, if_pos rfl]
  rw [show (strL "class=\"profile-affiliation" ++ (pSeg3c ++ (aff ++ (pSeg4a ++ Z)))).drop 26
      = pSeg3c ++ (aff ++ (pSeg4a ++ Z)) from rfl]
  rw [runTo_concrete '"' pSeg3c (strL " mb-1") (strL ">") _ (by decide)
    (by decide)]
  dsimp only
  rw [runTo_concrete '>' (strL ">") [] [] _ (by decide) (by decide)]
  dsimp only
  rw [List.nil_append, lazyTil_field (strL "</p>") aff (pSeg4a ++ Z) haff
    (by decide) (lPre_append_left _ _ _ (by decide))]
  rfl

/-- `affiliation` extraction over the rendered page. -/
theorem scan_affil_render (ls : List Char) (r : ProfileRecord)
    (hls : ls = lsKo ∨ ls = lsEn) (hnp : sanitStr r.name_primary = true)
    (hns : sanitStr r.name_secondary = true)
    (haff : sanitStr r.affiliation = true) :
    scanO attemptAffil (renderCore ls r) = some r.affiliation := by
  unfold renderCore
  rw [skip_seg attemptAffil (strL "class=\"profile-affiliation")
      attemptAffil_not pSeg0 _ (by decide),
    skip_ls attemptAffil _ attemptAffil_not (by decide) (by decide) ls hls,
    skip_seg attemptAffil _ attemptAffil_not pSeg1a _ (by decide),
    skip_seg attemptAffil _ attemptAffil_not pSeg1b _ (by decide),
    skip_seg attemptAffil _ attemptAffil_not pSeg1c _ (by decide),
    skip_field attemptAffil _ attemptAffil_not r.name_primary _ 5 '='
      (by decide) (by decide) (sanit_all _ hnp)
      (by rw [take_append_le _ _ 5 (by decide)]; decide),
    skip_seg attemptAffil _ attemptAffil_not pSeg2a _ (by decide),
    skip_seg attemptAffil _ attemptAffil_not pSeg2b _ (by decide),
    skip_seg attemptAffil _ attemptAffil_not pSeg2c _ (by decide),
    skip_field attemptAffil _ attemptAffil_not r.name_secondary _ 5 '='
      (by decide) (by decide) (sanit_all _ hns)
      (by rw [take_append_le _ _ 5 (by decide)]; decide),
    skip_seg attemptAffil _ attemptAffil_not pSeg3a _ (by decide)]
  exact scanO_head attemptAffil 'c' _ _ (attemptAffil_at r.affiliation _ haff)

/-- The bio attempt at its anchor. -/
theorem attemptBio_at (bio Z : List Char) (hbio : sanitStr bio = true) :
    attemptBio (strL "class=\"profile-bio" ++ (pSeg4c ++ (bio ++ (pSeg5a ++ Z))))
      = some bio := by
  unfold attemptBio
  rw [lPre_self_append, if_pos rfl]
  rw [show (strL "class=\"profile-bio" ++ (pSeg4c ++ (bio ++ (pSeg5a ++ Z)))).drop 18
      = pSeg4c ++ (bio ++ (pSeg5a ++ Z)) from rfl]
  rw [runTo_concrete '"' pSeg4c (strL " text-muted") (strL ">\n      ") _
    (by decide) (by decide)]
  dsimp only
  rw [runTo_concrete '>' (strL ">\n      ") [] (strL "\n      ") _ (by decide)
    (by decide)]
  dsimp only
  rw [wsLazyWsTil_field (strL "</p>") (strL "/p>") (strL "\n      ") bio
    (pSeg5a ++ Z) rfl (by decide) hbio
    (condSuf_concrete _ pSeg5a (strL "\n    ")
      (strL "/p>\n  </div>\n\n  <!-- Research Interests -->\n  <div class=\"profile-section\">\n    <h2 class=\"profile-section-title\">Research Interests</h2>\n    <p ")
      Z '<' (by decide) (by decide) (by decide) (by decide))]
  rfl

/-- `bio` extraction over the rendered page. -/
theorem scan_bio_render (ls : List Char) (r : ProfileRecord)
    (hls : ls = lsKo ∨ ls = lsEn) (hnp : sanitStr r.name_primary = true)
    (hns : sanitStr r.name_secondary = true)
    (haff : sanitStr r.affiliation = true)
    (hbio : sanitStr r.bio = true) :
    scanO attemptBio (renderCore ls r) = some r.bio := by
  unfold renderCore
  rw [nlToBr_inert r.bio (sanit_all _ hbio)]
  rw [skip_seg attemptBio (strL "class=\"profile-bio")
      attemptBio_not pSeg0 _ (by decide),
    skip_ls attemptBio _ attemptBio_not (by decide) (by decide) ls hls,
    skip_seg attemptBio _ attemptBio_not pSeg1a _ (by decide),
    skip_seg attemptBio _ attemptBio_not pSeg1b _ (by decide),
    skip_seg attemptBio _ attemptBio_not pSeg1c _ (by decide),
    skip_field attemptBio _ attemptBio_not r.name_primary _ 5 '='
      (by decide) (by decide) (sanit_all _ hnp)
      (by rw [take_append_le _ _ 5 (by decide)]; decide),
    skip_seg attemptBio _ attemptBio_not pSeg2a _ (by decide),
    skip_seg attemptBio _ attemptBio_not pSeg2b _ (by decide),
    skip_seg attemptBio _ attemptBio_not pSeg2c _ (by decide),
    skip_field attemptBio _ attemptBio_not r.name_secondary _ 5 '='
      (by decide) (by decide) (sanit_all _ hns)
      (by rw [take_append_le _ _ 5 (by decide)]; decide),
    skip_seg attemptBio _ attemptBio_not pSeg3a _ (by decide),
    skip_seg attemptBio _ attemptBio_not pSeg3b _ (by decide),
    skip_seg attemptBio _ attemptBio_not pSeg3c _ (by decide),
    skip_field attemptBio _ attemptBio_not r.affiliation _ 5 '='
      (by decide) (by decide) (sanit_all _ haff)
      (by rw [take_append_le _ _ 5 (by decide)]; decide),
    skip_seg attemptBio _ attemptBio_not pSeg4a _ (by decide)]
  exact scanO_head attemptBio 'c' _ _ (attemptBio_at r.bio _ hbio)

/-- The keywords attempt at its anchor. -/
theorem attemptKw_at (kw Z : List Char) (hkw : sanitStr kw = true) :
    attemptKw (strL "class=\"profile-keywords\"" ++ (pSeg5c ++ (kw ++ (pSeg6a ++ Z))))
      = some kw := by
  unfold attemptKw
  rw [lPre_self_append, if_pos rfl]
  rw [show (strL "class=\"profile-keywords\"" ++ (pSeg5c ++ (kw ++ (pSeg6a ++ Z)))).drop 24
      = pSeg5c ++ (kw ++ (pSeg6a ++ Z)) from rfl]
  rw [runTo_concrete '>' pSeg5c [] (strL "\n      ") _ (by decide) (by decide)]
  dsimp only
  rw [wsLazyWsTil_field (strL "</p>") (strL "/p>") (strL "\n      ") kw
    (pSeg6a ++ Z) rfl (by decide) hkw
    (condSuf_concrete _ pSeg6a (strL "\n    ")
      (strL "/p>\n  </div>\n\n  ") Z '<' (by decide) (by decide) (by decide)
      (by decide))]
  rfl

/-- `keywords` extraction over the rendered page. -/
theorem scan_kw_render (ls : List Char) (r : ProfileRecord)
    (hls : ls = lsKo ∨ ls = lsEn) (hnp : sanitStr r.name_primary = true)
    (hns : sanitStr r.name_secondary = true)
    (haff : sanitStr r.affiliation = true)
    (hbio : sanitStr r.bio = true) (hkw : sanitStr r.keywords = true) :
    scanO attemptKw (renderCore ls r) = some r.keywords := by
  unfold renderCore
  rw [nlToBr_inert r.bio (sanit_all _ hbio)]
  rw [skip_seg attemptKw (strL "class=\"profile-keywords\"")
      attemptKw_not pSeg0 _ (by decide),
    skip_ls attemptKw _ attemptKw_not (by decide) (by decide) ls hls,
    skip_seg attemptKw _ attemptKw_not pSeg1a _ (by decide),
    skip_seg attemptKw _ attemptKw_not pSeg1b _ (by decide),
    skip_seg attemptKw _ attemptKw_not pSeg1c _ (by decide),
    skip_field attemptKw _ attemptKw_not r.name_primary _ 5 '='
      (by decide) (by decide) (sanit_all _ hnp)
      (by rw [take_append_le _ _ 5 (by decide)]; decide),
    skip_seg attemptKw _ attemptKw_not pSeg2a _ (by decide),
    skip_seg attemptKw _ attemptKw_not pSeg2b _ (by decide),
    skip_seg attemptKw _ attemptKw_not pSeg2c _ (by decide),
    skip_field attemptKw _ attemptKw_not r.name_secondary _ 5 '='
      (by decide) (by decide) (sanit_all _ hns)
      (by rw [take_append_le _ _ 5 (by decide)]; decide),
    skip_seg attemptKw _ attemptKw_not pSeg3a _ (by decide),
    skip_seg attemptKw _ attemptKw_not pSeg3b _ (by decide),
    skip_seg attemptKw _ attemptKw_not pSeg3c _ (by decide),
    skip_field attemptKw _ attemptKw_not r.affiliation _ 5 '='
      (by decide) (by decide) (sanit_all _ haff)
      (by rw [take_append_le _ _ 5 (by decide)]; decide),
    skip_seg attemptKw _ attemptKw_not pSeg4a _ (by decide),
    skip_seg attemptKw _ attemptKw_not pSeg4b _ (by decide),
    skip_seg attemptKw _ attemptKw_not pSeg4c _ (by decide),
    skip_field attemptKw _ attemptKw_not r.bio _ 5 '='
      (by decide) (by decide) (sanit_all _ hbio)
      (by rw [take_append_le _ _ 5 (by decide)]; decide),
    skip_seg attemptKw _ attemptKw_not pSeg5a _ (by decide)]
  exact scanO_head attemptKw 'c' _ _ (attemptKw_at r.keywords _ hkw)


/-- `attemptPTag` needs its `<p` anchor. -/
theorem attemptPTag_not (s : List Char) (h : lPre (strL "<p") s = false) :
    attemptPTag s = none := by simp [attemptPTag, h]

/-- The `<p[^>]*>` tag of the thesis section completes the match. -/
theorem attemptPTag_at (th Z : List Char) (hth : sanitStr th = true) :
    attemptPTag (strL "<p class=\"text-muted fst-italic\">\n      "
        ++ (th ++ (pSeg7 ++ Z))) = some th := by
  unfold attemptPTag
  rw [lPre_append_left (strL "<p")
    (strL "<p class=\"text-muted fst-italic\">\n      ") _ (by decide),
    if_pos rfl]
  rw [show (strL "<p class=\"text-muted fst-italic\">\n      "
      ++ (th ++ (pSeg7 ++ Z))).drop 2
      = strL " class=\"text-muted fst-italic\">\n      " ++ (th ++ (pSeg7 ++ Z))
    from rfl]
  rw [runTo_concrete '>' (strL " class=\"text-muted fst-italic\">\n      ")
    (strL " class=\"text-muted fst-italic\"") (strL "\n      ") _ (by decide)
    (by decide)]
  dsimp only
  rw [wsLazyWsTil_field (strL "</p>") (strL "/p>") (strL "\n      ") th
    (pSeg7 ++ Z) rfl (by decide) hth
    (condSuf_concrete _ pSeg7 (strL "\n    ")
      (strL "/p>\n  </div>\n\n  <!-- Recent Publications -->\n  <div class=\"profile-section\">\n    <h2 class=\"profile-section-title\">Recent Publications</h2>\n    <ul class=\"profile-list\">\n")
      Z '<' (by decide) (by decide) (by decide) (by decide))]
  rfl

/-- The thesis attempt at its marker. -/
theorem attemptThesis_at (th Z : List Char) (hth : sanitStr th = true) :
    attemptThesis (strL "<!-- Thesis -->" ++ (pSeg6c ++ (th ++ (pSeg7 ++ Z))))
      = some th := by
  unfold attemptThesis
  rw [lPre_self_append, if_pos rfl]
  rw [show (strL "<!-- Thesis -->" ++ (pSeg6c ++ (th ++ (pSeg7 ++ Z)))).drop 15
      = pSeg6c ++ (th ++ (pSeg7 ++ Z)) from rfl]
  rw [show pSeg6c ++ (th ++ (pSeg7 ++ Z))
      = strL "\n  <div class=\"profile-section\">\n    <h2 class=\"profile-section-title\">Thesis</h2>\n    "
        ++ (strL "<p class=\"text-muted fst-italic\">\n      "
          ++ (th ++ (pSeg7 ++ Z))) from by
    rw [← List.append_assoc]
    rfl]
  rw [skip_seg attemptPTag (strL "<p") attemptPTag_not _ _ (by decide)]
  exact scanO_head attemptPTag '<' _ _ (attemptPTag_at th Z hth)

/-- `thesis` extraction over the rendered page. -/
theorem scan_thesis_render (ls : List Char) (r : ProfileRecord)
    (hls : ls = lsKo ∨ ls = lsEn) (hnp : sanitStr r.name_primary = true)
    (hns : sanitStr r.name_secondary = true)
    (haff : sanitStr r.affiliation = true)
    (hbio : sanitStr r.bio = true) (hkw : sanitStr r.keywords = true)
    (hth : sanitStr r.thesis = true) :
    scanO attemptThesis (renderCore ls r) = some r.thesis := by
  unfold renderCore
  rw [nlToBr_inert r.bio (sanit_all _ hbio)]
  rw [skip_seg attemptThesis (strL "<!-- Thesis -->")
      attemptThesis_not pSeg0 _ (by decide),
    skip_ls attemptThesis _ attemptThesis_not (by decide) (by decide) ls hls,
    skip_seg attemptThesis _ attemptThesis_not pSeg1a _ (by decide),
    skip_seg attemptThesis _ attemptThesis_not pSeg1b _ (by decide),
    skip_seg attemptThesis _ attemptThesis_not pSeg1c _ (by decide),
    skip_field attemptThesis _ attemptThesis_not r.name_primary _ 0 '<'
      (by decide) (by decide) (sanit_all _ hnp) rfl,
    skip_seg attemptThesis _ attemptThesis_not pSeg2a _ (by decide),
    skip_seg attemptThesis _ attemptThesis_not pSeg2b _ (by decide),
    skip_seg attemptThesis _ attemptThesis_not pSeg2c _ (by decide),
    skip_field attemptThesis _ attemptThesis_not r.name_secondary _ 0 '<'
      (by decide) (by decide) (sanit_all _ hns) rfl,
    skip_seg attemptThesis _ attemptThesis_not pSeg3a _ (by decide),
    skip_seg attemptThesis _ attemptThesis_not pSeg3b _ (by decide),
    skip_seg attemptThesis _ attemptThesis_not pSeg3c _ (by decide),
    skip_field attemptThesis _ attemptThesis_not r.affiliation _ 0 '<'
      (by decide) (by decide) (sanit_all _ haff) rfl,
    skip_seg attemptThesis _ attemptThesis_not pSeg4a _ (by decide),
    skip_seg attemptThesis _ attemptThesis_not pSeg4b _ (by decide),
    skip_seg attemptThesis _ attemptThesis_not pSeg4c _ (by decide),
    skip_field attemptThesis _ attemptThesis_not r.bio _ 0 '<'
      (by decide) (by decide) (sanit_all _ hbio) rfl,
    skip_seg attemptThesis _ attemptThesis_not pSeg5a _ (by decide),
    skip_seg attemptThesis _ attemptThesis_not pSeg5b _ (by decide),
    skip_seg attemptThesis _ attemptThesis_not pSeg5c _ (by decide),
    skip_field attemptThesis _ attemptThesis_not r.keywords _ 0 '<'
      (by decide) (by decide) (sanit_all _ hkw) rfl,
    skip_seg attemptThesis _ attemptThesis_not pSeg6a _ (by decide)]
  exact scanO_head attemptThesis '<' _ _ (attemptThesis_at r.thesis _ hth)


/-! ### No-occurrence machinery: `cv_pdf` and the links never match -/

theorem lPre_mono (a b l : List Char) (h : lPre (a ++ b) l = true) :
    lPre a l = true := by
  induction a generalizing l with
  | nil => rfl
  | cons x a ih =>
    cases l with
    | nil => simp [lPre] at h
    | cons y l =>
      rw [List.cons_append] at h
      simp only [lPre, Bool.and_eq_true] at h ⊢
      exact ⟨h.1, ih l h.2⟩

theorem lPre_split (a b l : List Char) (h : lPre (a ++ b) l = true) :
    lPre b (l.drop a.length) = true := by
  induction a generalizing l with
  | nil => simpa using h
  | cons x a ih =>
    cases l with
    | nil => simp [lPre] at h
    | cons y l =>
      rw [List.cons_append] at h
      simp only [lPre, Bool.and_eq_true] at h
      exact ih l h.2

theorem findFrom_spec (pat x : List Char) (j : Nat)
    (h : findFrom pat x = some j) : lPre pat (x.drop j) = true := by
  induction x generalizing j with
  | nil =>
    unfold findFrom at h
    by_cases hp : pat.isEmpty
    · rw [if_pos hp] at h
      cases pat with
      | nil =>
        cases h
        rfl
      | cons a p => simp at hp
    · rw [if_neg hp] at h
      exact Option.noConfusion h
  | cons c t ih =>
    unfold findFrom at h
    by_cases hc : lPre pat (c :: t) = true
    · rw [if_pos hc] at h
      cases h
      exact hc
    · rw [if_neg hc] at h
      cases hft : findFrom pat t with
      | none => rw [hft] at h; exact Option.noConfusion h
      | some j0 =>
        rw [hft] at h
        cases h
        rw [List.drop_succ_cons]
        exact ih j0 hft

theorem takeWhile_eq_take (p : Char → Bool) (l : List Char) :
    l.takeWhile p = l.take (l.takeWhile p).length := by
  induction l with
  | nil => rfl
  | cons a l ih =>
    rw [List.takeWhile_cons]
    by_cases hp : p a
    · rw [hp]
      simp only [if_true, List.length_cons, List.take_succ_cons]
      rw [← ih]
    · simp [hp]

theorem containsSub_takeWhile_false (pat l : List Char) (p : Char → Bool)
    (h : ∀ i, lPre pat (l.drop i) = false) :
    containsSub pat (l.takeWhile p) = false := by
  unfold containsSub
  cases hf : findFrom pat (l.takeWhile p) with
  | none => rfl
  | some j =>
    have hpre := findFrom_spec pat _ j hf
    rw [takeWhile_eq_take p l, List.drop_take] at hpre
    have := lPre_of_lPre_take pat (l.drop j) _ hpre
    rw [h j] at this
    exact Bool.noConfusion this

theorem noOcc_suffix (pat s : List Char) (k : Nat)
    (h : ∀ i, lPre pat (s.drop i) = false) :
    ∀ i, lPre pat ((s.drop k).drop i) = false := by
  intro i
  rw [List.drop_drop]
  exact h _

theorem noOcc_last (q : Char) (pq K : List Char)
    (hK : noPreSuf (q :: pq) K = true) :
    ∀ i, lPre (q :: pq) (K.drop i) = false := by
  intro i
  by_cases hi : i < K.length
  · have := noPreSuf_sound (q :: pq) K hK [] i hi
    rwa [List.append_nil] at this
  · rw [List.drop_eq_nil_of_le (Nat.le_of_not_lt hi)]
    rfl

theorem noOcc_seg (pat K R : List Char) (hK : noPreSuf pat K = true)
    (hR : ∀ i, lPre pat (R.drop i) = false) :
    ∀ i, lPre pat ((K ++ R).drop i) = false := by
  intro i
  by_cases hi : i < K.length
  · exact noPreSuf_sound pat K hK R i hi
  · have : i = K.length + (i - K.length) := by omega
    rw [this, drop_append_plus]
    exact hR _

theorem noOcc_field (pat F R : List Char) (j : Nat) (q : Char)
    (hj : pat.get? j = some q) (hq : inertChar q = false)
    (hF : F.all inertChar = true)
    (htake : (R.take j).all (fun c => c != q) = true)
    (hR : ∀ i, lPre pat (R.drop i) = false) :
    ∀ i, lPre pat ((F ++ R).drop i) = false := by
  intro i
  by_cases hi : i < F.length
  · exact noPre_inert_take pat F R j q hj hq hF htake i hi
  · have : i = F.length + (i - F.length) := by omega
    rw [this, drop_append_plus]
    exact hR _

/-- `attemptCv` fails wherever the `title="CV (PDF)"` literal has no
occurrence in the remaining text. -/
theorem attemptCv_noOcc (s : List Char)
    (h : ∀ i, lPre (strL "title=\"CV (PDF)\"") (s.drop i) = false) :
    attemptCv s = none := by
  unfold attemptCv
  dsimp only
  split
  · split
    · rfl
    · split
      · rename_i s2 heq
        have hs2 : ∀ i, lPre (strL "title=\"CV (PDF)\"") (s2.drop i)
            = false := by
          intro i
          have htail := congrArg List.tail heq
          rw [List.tail_drop] at htail
          rw [show s2 = ((s.drop 6).drop
            ((List.takeWhile (fun x => x != '"') (s.drop 6)).length)).tail
            from by rw [heq]; rfl]
          rw [List.tail_drop, List.drop_drop, List.drop_drop]
          exact h _
        rw [containsSub_takeWhile_false _ _ _ hs2]
        rfl
      · rfl
  · rfl

/-- `attemptLinkedin` fails wherever `https://` has no occurrence. -/
theorem attemptLinkedin_noOcc (s : List Char)
    (h : ∀ i, lPre (strL "https://") (s.drop i) = false) :
    attemptLinkedin s = none := by
  refine attemptLinkedin_not s ?_
  by_contra hc
  rw [Bool.not_eq_false] at hc
  rw [show strL "href=\"https://www.linkedin.com/"
    = strL "href=\"" ++ (strL "https://" ++ strL "www.linkedin.com/")
    from by decide] at hc
  have h1 := lPre_split _ _ _ hc
  have h2 := lPre_mono _ _ _ h1
  rw [h (strL "href=\"").length] at h2
  exact Bool.noConfusion h2

/-- `attemptGithub` fails wherever `https://` has no occurrence. -/
theorem attemptGithub_noOcc (s : List Char)
    (h : ∀ i, lPre (strL "https://") (s.drop i) = false) :
    attemptGithub s = none := by
  refine attemptGithub_not s ?_
  by_contra hc
  rw [Bool.not_eq_false] at hc
  rw [show strL "href=\"https://github.com/"
    = strL "href=\"" ++ (strL "https://" ++ strL "github.com/")
    from by decide] at hc
  have h1 := lPre_split _ _ _ hc
  have h2 := lPre_mono _ _ _ h1
  rw [h (strL "href=\"").length] at h2
  exact Bool.noConfusion h2

/-- `attemptTwitter` fails wherever `https://` has no occurrence. -/
theorem attemptTwitter_noOcc (s : List Char)
    (h : ∀ i, lPre (strL "https://") (s.drop i) = false) :
    attemptTwitter s = none := by
  refine attemptTwitter_not s ?_
  by_contra hc
  rw [Bool.not_eq_false] at hc
  rw [show strL "href=\"https://" = strL "href=\"" ++ strL "https://"
    from by decide] at hc
  have h1 := lPre_split _ _ _ hc
  rw [h (strL "href=\"").length] at h1
  exact Bool.noConfusion h1

/-- `attemptEmail` fails wherever `mailto:` has no occurrence. -/
theorem attemptEmail_noOcc (s : List Char)
    (h : ∀ i, lPre (strL "mailto:") (s.drop i) = false) :
    attemptEmail s = none := by
  refine attemptEmail_not s ?_
  by_contra hc
  rw [Bool.not_eq_false] at hc
  rw [show strL "href=\"mailto:" = strL "href=\"" ++ strL "mailto:"
    from by decide] at hc
  have h1 := lPre_split _ _ _ hc
  rw [h (strL "href=\"").length] at h1
  exact Bool.noConfusion h1


theorem sanit_all_ne (s : List Char) (h : sanitStr s = true) (q : Char)
    (hq : inertChar q = false) : s.all (fun c => c != q) = true :=
  List.all_eq_true.mpr (sanit_bool_ne s h q hq)

theorem sanit_isEmpty_false (s : List Char) (h : sanitStr s = true) :
    s.isEmpty = false := by
  obtain ⟨hne, _, _, _⟩ := sanit_parts s h
  cases s with
  | nil => exact absurd rfl hne
  | cons a t => rfl

theorem sanitPub_parts (p : Pub) (h : sanitPub p = true) :
    sanitStr p.url = true ∧ sanitStr p.title = true
      ∧ sanitStr p.source = true := by
  simp only [sanitPub, Bool.and_eq_true] at h
  exact ⟨h.1.1, h.1.2, h.2⟩

/-- A sanitized publications block contains no occurrence of a literal
with a non-inert character at index `j`, provided the literal starts
inside none of the four concrete entry pieces. -/
theorem noOcc_pubsHtml (pat : List Char) (j : Nat) (q : Char)
    (hj : pat.get? j = some q) (hq : inertChar q = false)
    (c1 : noPreSuf pat (strL "      <li><a href=\"") = true)
    (c2 : noPreSuf pat (strL "\">") = true)
    (c3 : noPreSuf pat (strL "</a> <span class=\"text-muted\">") = true)
    (c4 : noPreSuf pat (strL "</span></li>\n") = true)
    (h2t : (strL "\">").all (fun c => c != q) = true)
    (h3t : ((strL "</a> <span class=\"text-muted\">").take j).all
      (fun c => c != q) = true)
    (h4t : ((strL "</span></li>\n").take j).all (fun c => c != q) = true)
    (hj3 : j ≤ (strL "</a> <span class=\"text-muted\">").length)
    (hj4 : j ≤ (strL "</span></li>\n").length)
    (ps : List Pub) (hps : ∀ p ∈ ps, sanitPub p = true) (R : List Char)
    (hR : ∀ i, lPre pat (R.drop i) = false) :
    ∀ i, lPre pat ((pubsHtml ps ++ R).drop i) = false := by
  induction ps with
  | nil =>
    simp only [pubsHtml, List.nil_append]
    exact hR
  | cons p ps ih =>
    obtain ⟨hurl, htitle, hsource⟩ :=
      sanitPub_parts p (hps p (List.mem_cons_self p ps))
    have hcond : (!p.url.isEmpty && !p.title.isEmpty) = true := by
      rw [sanit_isEmpty_false _ hurl, sanit_isEmpty_false _ htitle]
      rfl
    have hrw : pubsHtml (p :: ps) ++ R
        = strL "      <li><a href=\"" ++ (p.url ++ (strL "\">" ++ (p.title
          ++ (strL "</a> <span class=\"text-muted\">" ++ (p.source
          ++ (strL "</span></li>\n" ++ (pubsHtml ps ++ R))))))) := by
      show ((if (!p.url.isEmpty && !p.title.isEmpty) = true then pubEntry p
        else []) ++ pubsHtml ps) ++ R = _
      rw [hcond, if_pos rfl]
      simp only [pubEntry, List.append_assoc]
    rw [hrw]
    refine noOcc_seg _ _ _ c1 (noOcc_field _ _ _ j q hj hq
      (sanit_all _ hurl) ?_ (noOcc_seg _ _ _ c2 (noOcc_field _ _ _ j q hj hq
      (sanit_all _ htitle) ?_ (noOcc_seg _ _ _ c3 (noOcc_field _ _ _ j q hj hq
      (sanit_all _ hsource) ?_ (noOcc_seg _ _ _ c4
      (ih fun p2 hp2 => hps p2 (List.mem_cons_of_mem p hp2))))))))
    · exact all_take_append _ _ _ j h2t (all_take_append _ _ _ j
        (sanit_all_ne _ htitle q hq) (by rw [take_append_le _ _ j hj3]; exact h3t))
    · rw [take_append_le _ _ j hj3]
      exact h3t
    · rw [take_append_le _ _ j hj4]
      exact h4t

theorem noOcc_ls (pat lsv R : List Char) (hls : lsv = lsKo ∨ lsv = lsEn)
    (h1 : noPreSuf pat lsKo = true) (h2 : noPreSuf pat lsEn = true)
    (hR : ∀ i, lPre pat (R.drop i) = false) :
    ∀ i, lPre pat ((lsv ++ R).drop i) = false := by
  rcases hls with rfl | rfl
  · exact noOcc_seg _ _ _ h1 hR
  · exact noOcc_seg _ _ _ h2 hR

/-- A literal with a non-inert character at index `j` that starts inside
no concrete template piece occurs nowhere in the rendered page of a
sanitized record. -/
theorem noOcc_render (pat : List Char) (j : Nat) (q : Char) (p0 : Char)
    (pr ls : List Char) (r : ProfileRecord) (hls : ls = lsKo ∨ ls = lsEn)
    (hpat : pat = p0 :: pr) (hj : pat.get? j = some q)
    (hq : inertChar q = false) (hsan : sanitProfile r = true)
    (hcerts : (noPreSuf pat pSeg0 && (noPreSuf pat lsKo && (noPreSuf pat lsEn
      && (noPreSuf pat pSeg1a && (noPreSuf pat pSeg1b && (noPreSuf pat pSeg1c
      && (noPreSuf pat pSeg2a && (noPreSuf pat pSeg2b && (noPreSuf pat pSeg2c
      && (noPreSuf pat pSeg3a && (noPreSuf pat pSeg3b && (noPreSuf pat pSeg3c
      && (noPreSuf pat pSeg4a && (noPreSuf pat pSeg4b && (noPreSuf pat pSeg4c
      && (noPreSuf pat pSeg5a && (noPreSuf pat pSeg5b && (noPreSuf pat pSeg5c
      && (noPreSuf pat pSeg6a && (noPreSuf pat pSeg6b && (noPreSuf pat pSeg6c
      && (noPreSuf pat pSeg7 && (noPreSuf pat pSeg8
      && (noPreSuf pat (strL "      <li><a href=\"")
      && (noPreSuf pat (strL "\">")
      && (noPreSuf pat (strL "</a> <span class=\"text-muted\">")
      && (noPreSuf pat (strL "</span></li>\n")
      && ((strL "\">").all (fun c => c != q)
      && ((pSeg2a.take j).all (fun c => c != q)
      && ((pSeg3a.take j).all (fun c => c != q)
      && ((pSeg4a.take j).all (fun c => c != q)
      && ((pSeg5a.take j).all (fun c => c != q)
      && ((pSeg6a.take j).all (fun c => c != q)
      && ((pSeg7.take j).all (fun c => c != q)
      && (((strL "</a> <span class=\"text-muted\">").take j).all
          (fun c => c != q)
      && (((strL "</span></li>\n").take j).all (fun c => c != q)
      && (decide (j ≤ pSeg2a.length)
      && (decide (j ≤ pSeg3a.length)
      && (decide (j ≤ pSeg4a.length)
      && (decide (j ≤ pSeg5a.length)
      && (decide (j ≤ pSeg6a.length)
      && (decide (j ≤ pSeg7.length)
      && (decide (j ≤ (strL "</a> <span class=\"text-muted\">").length)
      && decide (j ≤ (strL "</span></li>\n").length
      )))))))))))))))))))))))))))))))))))))))))))) = true) :
    ∀ i, lPre pat ((renderCore ls r).drop i) = false := by
  simp only [Bool.and_eq_true, decide_eq_true_eq] at hcerts
  obtain ⟨k1, k2, k3, k4, k5, k6, k7, k8, k9, k10, k11, k12, k13, k14, k15,
    k16, k17, k18, k19, k20, k21, k22, k23, k24, k25, k26, k27, k28, k29,
    k30, k31, k32, k33, k34, k35, k36, k37, k38, k39, k40, k41, k42, k43,
    k44⟩ := hcerts
  simp only [sanitProfile, Bool.and_eq_true] at hsan
  obtain ⟨⟨⟨⟨⟨⟨hnp, hns⟩, haff⟩, hbio⟩, hkw⟩, hth⟩, hpubs⟩ := hsan
  unfold renderCore
  rw [nlToBr_inert r.bio (sanit_all _ hbio)]
  refine noOcc_seg _ _ _ k1 (noOcc_ls pat ls _ hls k2 k3 (noOcc_seg _ _ _ k4
    (noOcc_seg _ _ _ k5 (noOcc_seg _ _ _ k6 (noOcc_field _ _ _ j q hj hq
    (sanit_all _ hnp) (by rw [take_append_le _ _ j k37]; exact k29)
    (noOcc_seg _ _ _ k7 (noOcc_seg _ _ _ k8 (noOcc_seg _ _ _ k9
    (noOcc_field _ _ _ j q hj hq (sanit_all _ hns)
    (by rw [take_append_le _ _ j k38]; exact k30)
    (noOcc_seg _ _ _ k10 (noOcc_seg _ _ _ k11 (noOcc_seg _ _ _ k12
    (noOcc_field _ _ _ j q hj hq (sanit_all _ haff)
    (by rw [take_append_le _ _ j k39]; exact k31)
    (noOcc_seg _ _ _ k13 (noOcc_seg _ _ _ k14 (noOcc_seg _ _ _ k15
    (noOcc_field _ _ _ j q hj hq (sanit_all _ hbio)
    (by rw [take_append_le _ _ j k40]; exact k32)
    (noOcc_seg _ _ _ k16 (noOcc_seg _ _ _ k17 (noOcc_seg _ _ _ k18
    (noOcc_field _ _ _ j q hj hq (sanit_all _ hkw)
    (by rw [take_append_le _ _ j k41]; exact k33)
    (noOcc_seg _ _ _ k19 (noOcc_seg _ _ _ k20 (noOcc_seg _ _ _ k21
    (noOcc_field _ _ _ j q hj hq (sanit_all _ hth)
    (by rw [take_append_le _ _ j k42]; exact k34)
    (noOcc_seg _ _ _ k22 (noOcc_pubsHtml pat j q hj hq k24 k25 k26 k27 k28
    k35 k36 k43 k44 r.recent_publications
    (fun p hp => List.all_eq_true.mp hpubs p hp) pSeg8
    (hpat ▸ noOcc_last p0 pr pSeg8 (hpat ▸ k23)))))))))))))))))))))))))))))


/-- The `title="CV (PDF)"` literal occurs nowhere in a sanitized page. -/
theorem noOcc_title (ls : List Char) (r : ProfileRecord)
    (hls : ls = lsKo ∨ ls = lsEn) (hsan : sanitProfile r = true) :
    ∀ i, lPre (strL "title=\"CV (PDF)\"") ((renderCore ls r).drop i) = false :=
  noOcc_render (strL "title=\"CV (PDF)\"") 5 '=' 't' (strL "itle=\"CV (PDF)\"")
    ls r hls (by decide) (by decide) (by decide) hsan (by decide)

/-- The `https://` literal occurs nowhere in a sanitized page. -/
theorem noOcc_https (ls : List Char) (r : ProfileRecord)
    (hls : ls = lsKo ∨ ls = lsEn) (hsan : sanitProfile r = true) :
    ∀ i, lPre (strL "https://") ((renderCore ls r).drop i) = false :=
  noOcc_render (strL "https://") 5 ':' 'h' (strL "ttps://")
    ls r hls (by decide) (by decide) (by decide) hsan (by decide)

/-- The `mailto:` literal occurs nowhere in a sanitized page. -/
theorem noOcc_mailto (ls : List Char) (r : ProfileRecord)
    (hls : ls = lsKo ∨ ls = lsEn) (hsan : sanitProfile r = true) :
    ∀ i, lPre (strL "mailto:") ((renderCore ls r).drop i) = false :=
  noOcc_render (strL "mailto:") 6 ':' 'm' (strL "ailto:")
    ls r hls (by decide) (by decide) (by decide) hsan (by decide)

/-- The cv link is not found on a sanitized page. -/
theorem scan_cv_render (ls : List Char) (r : ProfileRecord)
    (hls : ls = lsKo ∨ ls = lsEn) (hsan : sanitProfile r = true) :
    scanO attemptCv (renderCore ls r) = none :=
  scanO_none _ _ fun i _ =>
    attemptCv_noOcc _ (noOcc_suffix _ _ i (noOcc_title ls r hls hsan))

/-- No linkedin link is found on a sanitized page. -/
theorem scan_linkedin_render (ls : List Char) (r : ProfileRecord)
    (hls : ls = lsKo ∨ ls = lsEn) (hsan : sanitProfile r = true) :
    scanO attemptLinkedin (renderCore ls r) = none :=
  scanO_none _ _ fun i _ =>
    attemptLinkedin_noOcc _ (noOcc_suffix _ _ i (noOcc_https ls r hls hsan))

/-- No github link is found on a sanitized page. -/
theorem scan_github_render (ls : List Char) (r : ProfileRecord)
    (hls : ls = lsKo ∨ ls = lsEn) (hsan : sanitProfile r = true) :
    scanO attemptGithub (renderCore ls r) = none :=
  scanO_none _ _ fun i _ =>
    attemptGithub_noOcc _ (noOcc_suffix _ _ i (noOcc_https ls r hls hsan))

/-- No twitter link is found on a sanitized page. -/
theorem scan_twitter_render (ls : List Char) (r : ProfileRecord)
    (hls : ls = lsKo ∨ ls = lsEn) (hsan : sanitProfile r = true) :
    scanO attemptTwitter (renderCore ls r) = none :=
  scanO_none _ _ fun i _ =>
    attemptTwitter_noOcc _ (noOcc_suffix _ _ i (noOcc_https ls r hls hsan))

/-- No mail link is found on a sanitized page. -/
theorem scan_email_render (ls : List Char) (r : ProfileRecord)
    (hls : ls = lsKo ∨ ls = lsEn) (hsan : sanitProfile r = true) :
    scanO attemptEmail (renderCore ls r) = none :=
  scanO_none _ _ fun i _ =>
    attemptEmail_noOcc _ (noOcc_suffix _ _ i (noOcc_mailto ls r hls hsan))


/-! ### The publications `finditer` on the rendered page -/

theorem lPre_cons_neq (a b : Char) (p l : List Char) (h : (a == b) = false) :
    lPre (a :: p) (b :: l) = false := by
  show (a == b && lPre p l) = false
  rw [h]
  rfl

theorem fip_skip (A B : List Char) (f : Nat)
    (h : ∀ i, i < A.length → attemptPub ((A ++ B).drop i) = none) :
    findIterPubsF (A.length + f) (A ++ B) = findIterPubsF f B := by
  induction A with
  | nil => simp only [List.length_nil, Nat.zero_add, List.nil_append]
  | cons a A ih =>
    have h0 := h 0 (Nat.succ_pos _)
    rw [List.drop_zero, List.cons_append] at h0
    rw [show (a :: A).length + f = (A.length + f) + 1 by
      simp [Nat.succ_add], List.cons_append]
    show (match attemptPub (a :: (A ++ B)) with
      | some (p, rest) => p :: findIterPubsF (A.length + f) rest
      | none => findIterPubsF (A.length + f) (A ++ B)) = findIterPubsF f B
    rw [h0]
    exact ih fun i hi => by
      have := h (i + 1) (Nat.succ_lt_succ hi)
      rwa [List.cons_append, List.drop_succ_cons] at this

theorem fip_none (f : Nat) (s : List Char)
    (h : ∀ i, i < s.length → attemptPub (s.drop i) = none) :
    findIterPubsF f s = [] := by
  induction s generalizing f with
  | nil => cases f <;> rfl
  | cons a t ih =>
    cases f with
    | zero => rfl
    | succ f =>
      have h0 := h 0 (Nat.succ_pos _)
      rw [List.drop_zero] at h0
      show (match attemptPub (a :: t) with
        | some (p, rest) => p :: findIterPubsF f rest
        | none => findIterPubsF f t) = []
      rw [h0]
      exact ih f fun i hi => by
        have := h (i + 1) (Nat.succ_lt_succ hi)
        rwa [List.drop_succ_cons] at this

theorem fip_entry (f : Nat) (s : List Char) (p : Pub) (rest : List Char)
    (h : attemptPub s = some (p, rest)) :
    findIterPubsF (f + 1) s = p :: findIterPubsF f rest := by
  cases s with
  | nil =>
    rw [show attemptPub [] = none from rfl] at h
    exact Option.noConfusion h
  | cons c t =>
    show (match attemptPub (c :: t) with
      | some (p, rest) => p :: findIterPubsF f rest
      | none => findIterPubsF f t) = p :: findIterPubsF f rest
    rw [h]

/-- The tail of the publications pattern after the title's `</a>`. -/
theorem pubAfterA_at (s2 Z : List Char) (hs2 : sanitStr s2 = true) :
    pubAfterA (strL " <span class=\"text-muted\">"
        ++ (s2 ++ (strL "</span></li>\n" ++ Z))) = some (s2, '\n' :: Z) := by
  unfold pubAfterA
  dsimp only
  rw [show wsRun (strL " <span class=\"text-muted\">"
    ++ (s2 ++ (strL "</span></li>\n" ++ Z))) = 1 from rfl]
  rw [show (strL " <span class=\"text-muted\">"
    ++ (s2 ++ (strL "</span></li>\n" ++ Z))).drop 1
    = strL "<span class=\"text-muted\">"
      ++ (s2 ++ (strL "</span></li>\n" ++ Z)) from rfl]
  rw [lPre_append_left _ _ _ (show lPre (strL "<span")
    (strL "<span class=\"text-muted\">") = true by decide), if_pos rfl]
  rw [show (strL "<span class=\"text-muted\">"
    ++ (s2 ++ (strL "</span></li>\n" ++ Z))).drop 5
    = strL " class=\"text-muted\">" ++ (s2 ++ (strL "</span></li>\n" ++ Z))
    from rfl]
  rw [runTo_concrete '>' (strL " class=\"text-muted\">")
    (strL " class=\"text-muted\"") [] _ (by decide) (by decide)]
  dsimp only
  rw [List.nil_append]
  rw [lazyTil_field (strL "</span></li>") s2 (strL "</span></li>\n" ++ Z) hs2
    (by decide) (lPre_append_left _ _ _ (by decide))]
  dsimp only
  rw [sanit_all_ne s2 hs2 '\n' (by decide)]
  rw [show (strL "</span></li>\n" ++ Z).drop (strL "</span></li>").length
    = '\n' :: Z from rfl]
  rfl

/-- The title loop consumes a sanitized title and completes at the first
`</a>`. -/
theorem pubTailLoop_run (url : List Char) (T : List Char)
    (hall : T.all inertChar = true) (hne : T ≠ []) (tacc R : List Char)
    (src : List Char) (rest : List Char)
    (hR : lPre (strL "</a>") R = true)
    (hA : pubAfterA (R.drop 4) = some (src, rest)) :
    pubTailLoop url tacc (T ++ R) = some (⟨url, tacc ++ T, src⟩, rest) := by
  induction T generalizing tacc with
  | nil => exact absurd rfl hne
  | cons c t ih =>
    rw [List.all_cons, Bool.and_eq_true] at hall
    have hcnl : (c == '\n') = false := by
      rw [beq_eq_false_iff_ne]
      intro he
      rw [he] at hall
      exact absurd hall.1 (by decide)
    rw [List.cons_append]
    show (if c == '\n' then none
      else if lPre (strL "</a>") (t ++ R) then
        match pubAfterA ((t ++ R).drop 4) with
        | some (src2, rest2) => some (⟨url, tacc ++ [c], src2⟩, rest2)
        | none => pubTailLoop url (tacc ++ [c]) (t ++ R)
      else pubTailLoop url (tacc ++ [c]) (t ++ R)) = _
    rw [hcnl]
    simp only [Bool.false_eq_true, if_false]
    cases t with
    | nil =>
      rw [List.nil_append, hR, if_pos rfl, hA]
    | cons d t2 =>
      have hd : ('<' == d) = false := by
        rw [beq_eq_false_iff_ne]
        intro he
        have h2 := hall.2
        rw [List.all_cons, Bool.and_eq_true] at h2
        rw [← he] at h2
        exact absurd h2.1 (by decide)
      rw [show lPre (strL "</a>") ((d :: t2) ++ R) = false from by
        rw [List.cons_append]
        exact lPre_cons_neq '<' d _ _ hd]
      simp only [Bool.false_eq_true, if_false]
      rw [ih hall.2 (by simp) (tacc ++ [c])]
      simp

/-- The publications attempt at an entry of a sanitized record. -/
theorem attemptPub_entry (u t s2 Y : List Char) (hu : sanitStr u = true)
    (ht : sanitStr t = true) (hs2 : sanitStr s2 = true) :
    attemptPub (strL "<li><a href=\"" ++ (u ++ (strL "\">"
        ++ (t ++ (strL "</a> <span class=\"text-muted\">" ++ (s2
        ++ (strL "</span></li>\n" ++ Y)))))))
      = some (⟨u, t, s2⟩, '\n' :: Y) := by
  unfold attemptPub
  dsimp only
  rw [lPre_self_append, if_pos rfl]
  rw [show (strL "<li><a href=\"" ++ (u ++ (strL "\">"
    ++ (t ++ (strL "</a> <span class=\"text-muted\">" ++ (s2
    ++ (strL "</span></li>\n" ++ Y))))))).drop 13
    = u ++ (strL "\">" ++ (t ++ (strL "</a> <span class=\"text-muted\">"
      ++ (s2 ++ (strL "</span></li>\n" ++ Y))))) from rfl]
  have htw : (u ++ (strL "\">" ++ (t ++ (strL "</a> <span class=\"text-muted\">"
      ++ (s2 ++ (strL "</span></li>\n" ++ Y)))))).takeWhile (· != '"')
      = u := by
    rw [takeWhile_append_all _ u _ (sanit_bool_ne u hu '"' (by decide))]
    rw [show (strL "\">" ++ (t ++ (strL "</a> <span class=\"text-muted\">"
      ++ (s2 ++ (strL "</span></li>\n" ++ Y))))).takeWhile (· != '"') = []
      from rfl]
    simp
  rw [htw, sanit_isEmpty_false _ hu]
  simp only [Bool.false_eq_true, if_false]
  rw [List.drop_left]
  rw [lPre_self_append, if_pos rfl]
  rw [show (strL "\">" ++ (t ++ (strL "</a> <span class=\"text-muted\">"
    ++ (s2 ++ (strL "</span></li>\n" ++ Y))))).drop 2
    = t ++ (strL "</a> <span class=\"text-muted\">"
      ++ (s2 ++ (strL "</span></li>\n" ++ Y))) from rfl]
  rw [pubTailLoop_run u t (sanit_all _ ht) (sanit_parts t ht).1 [] _ s2
    ('\n' :: Y) (lPre_append_left _ _ _ (by decide)) (by
      rw [show (strL "</a> <span class=\"text-muted\">"
        ++ (s2 ++ (strL "</span></li>\n" ++ Y))).drop 4
        = strL " <span class=\"text-muted\">"
          ++ (s2 ++ (strL "</span></li>\n" ++ Y)) from rfl]
      exact pubAfterA_at s2 Y hs2)]
  rw [List.nil_append]


/-- One sanitized entry at the head of the text: the finditer takes it
and resumes after the match. -/
theorem fip_entry_chain (u t s2 Y : List Char) (res : List Pub) (f : Nat)
    (hu : sanitStr u = true) (ht : sanitStr t = true)
    (hs2 : sanitStr s2 = true)
    (hrec : ∀ g, findIterPubsF (Y.length + g) Y = res) :
    findIterPubsF ((strL "      <li><a href=\"" ++ (u ++ (strL "\">"
        ++ (t ++ (strL "</a> <span class=\"text-muted\">" ++ (s2
        ++ (strL "</span></li>\n" ++ Y))))))).length + f)
      (strL "      <li><a href=\"" ++ (u ++ (strL "\">"
        ++ (t ++ (strL "</a> <span class=\"text-muted\">" ++ (s2
        ++ (strL "</span></li>\n" ++ Y)))))))
      = ⟨u, t, s2⟩ :: res := by
  rw [show strL "      <li><a href=\"" = strL "      " ++ strL "<li><a href=\""
    from by decide]
  rw [List.append_assoc]
  have hL : ((strL "      " ++ (strL "<li><a href=\"" ++ (u ++ (strL "\">"
      ++ (t ++ (strL "</a> <span class=\"text-muted\">" ++ (s2
      ++ (strL "</span></li>\n" ++ Y)))))))).length) + f
      = (strL "      ").length + ((strL "<li><a href=\"" ++ (u ++ (strL "\">"
      ++ (t ++ (strL "</a> <span class=\"text-muted\">" ++ (s2
      ++ (strL "</span></li>\n" ++ Y))))))).length + f) := by
    simp only [List.length_append]
    omega
  rw [hL]
  rw [fip_skip (strL "      ") _ _ fun i hi => attemptPub_not _
    (noPreSuf_sound _ _ (by decide) _ i hi)]
  have hC1 : (strL "<li><a href=\"" ++ (u ++ (strL "\">"
      ++ (t ++ (strL "</a> <span class=\"text-muted\">" ++ (s2
      ++ (strL "</span></li>\n" ++ Y))))))).length + f
      = ((['\n'] : List Char).length + (Y.length
        + (u.length + t.length + s2.length + 56 + f))) + 1 := by
    simp only [List.length_append]
    have h1 : (strL "<li><a href=\"").length = 13 := rfl
    have h2 : (strL "\">").length = 2 := rfl
    have h3 : (strL "</a> <span class=\"text-muted\">").length = 30 := rfl
    have h4 : (strL "</span></li>\n").length = 13 := rfl
    have h5 : (['\n'] : List Char).length = 1 := rfl
    simp only [h1, h2, h3, h4, h5]
    omega
  rw [hC1]
  rw [fip_entry _ _ _ _ (attemptPub_entry u t s2 Y hu ht hs2)]
  rw [show ('\n' :: Y) = ['\n'] ++ Y from rfl]
  rw [fip_skip ['\n'] Y _ fun i hi => by
    have h1 : (['\n'] : List Char).length = 1 := rfl
    rw [h1] at hi
    have hi0 : i = 0 := by omega
    subst hi0
    rw [List.drop_zero]
    exact attemptPub_not _ (lPre_cons_neq '<' '\n' _ _ (by decide))]
  rw [hrec _]

/-- The finditer over the rendered publications block followed by the
rest of the page returns exactly the sanitized entries, whatever extra
fuel is available. -/
theorem fip_pubs (ps : List Pub) (hps : ∀ p ∈ ps, sanitPub p = true) :
    ∀ f, findIterPubsF ((pubsHtml ps ++ pSeg8).length + f)
      (pubsHtml ps ++ pSeg8) = ps := by
  induction ps with
  | nil =>
    intro f
    simp only [pubsHtml, List.nil_append]
    refine fip_none _ _ fun i hi => attemptPub_not _ ?_
    have := noPreSuf_sound (strL "<li><a href=\"") pSeg8 (by decide) [] i hi
    rwa [List.append_nil] at this
  | cons p ps ih =>
    intro f
    obtain ⟨hurl, htitle, hsource⟩ :=
      sanitPub_parts p (hps p (List.mem_cons_self p ps))
    have hcond : (!p.url.isEmpty && !p.title.isEmpty) = true := by
      rw [sanit_isEmpty_false _ hurl, sanit_isEmpty_false _ htitle]
      rfl
    have hrw : pubsHtml (p :: ps) ++ pSeg8
        = strL "      <li><a href=\"" ++ (p.url ++ (strL "\">" ++ (p.title
          ++ (strL "</a> <span class=\"text-muted\">" ++ (p.source
          ++ (strL "</span></li>\n" ++ (pubsHtml ps ++ pSeg8))))))) := by
      show ((if (!p.url.isEmpty && !p.title.isEmpty) = true then pubEntry p
        else []) ++ pubsHtml ps) ++ pSeg8 = _
      rw [hcond, if_pos rfl]
      simp only [pubEntry, List.append_assoc]
    rw [hrw]
    rw [fip_entry_chain p.url p.title p.source (pubsHtml ps ++ pSeg8) ps f
      hurl htitle hsource (ih fun q hq => hps q (List.mem_cons_of_mem p hq))]


/-- The `finditer` over the whole rendered page of a sanitized record
returns exactly its publications. -/
theorem fip_render (ls : List Char) (r : ProfileRecord)
    (hls : ls = lsKo ∨ ls = lsEn) (hsan : sanitProfile r = true) :
    findIterPubsF (renderCore ls r).length (renderCore ls r)
      = r.recent_publications := by
  simp only [sanitProfile, Bool.and_eq_true] at hsan
  obtain ⟨⟨⟨⟨⟨⟨hnp, hns⟩, haff⟩, hbio⟩, hkw⟩, hth⟩, hpubs⟩ := hsan
  unfold renderCore
  rw [nlToBr_inert r.bio (sanit_all _ hbio)]
  rw [List.length_append, fip_skip pSeg0 _ _ (fun i hi => attemptPub_not _
      (noPreSuf_sound _ _ (by decide) _ i hi)),
    List.length_append, fip_skip ls _ _ (by
      rcases hls with rfl | rfl <;>
        exact fun i hi => attemptPub_not _
          (noPreSuf_sound _ _ (by decide) _ i hi)),
    List.length_append, fip_skip pSeg1a _ _ (fun i hi => attemptPub_not _
      (noPreSuf_sound _ _ (by decide) _ i hi)),
    List.length_append, fip_skip pSeg1b _ _ (fun i hi => attemptPub_not _
      (noPreSuf_sound _ _ (by decide) _ i hi)),
    List.length_append, fip_skip pSeg1c _ _ (fun i hi => attemptPub_not _
      (noPreSuf_sound _ _ (by decide) _ i hi)),
    List.length_append, fip_skip r.name_primary _ _ (fun i hi =>
      attemptPub_not _ (noPre_inert_take _ _ _ 0 '<' (by decide) (by decide)
        (sanit_all _ hnp) rfl i hi)),
    List.length_append, fip_skip pSeg2a _ _ (fun i hi => attemptPub_not _
      (noPreSuf_sound _ _ (by decide) _ i hi)),
    List.length_append, fip_skip pSeg2b _ _ (fun i hi => attemptPub_not _
      (noPreSuf_sound _ _ (by decide) _ i hi)),
    List.length_append, fip_skip pSeg2c _ _ (fun i hi => attemptPub_not _
      (noPreSuf_sound _ _ (by decide) _ i hi)),
    List.length_append, fip_skip r.name_secondary _ _ (fun i hi =>
      attemptPub_not _ (noPre_inert_take _ _ _ 0 '<' (by decide) (by decide)
        (sanit_all _ hns) rfl i hi)),
    List.length_append, fip_skip pSeg3a _ _ (fun i hi => attemptPub_not _
      (noPreSuf_sound _ _ (by decide) _ i hi)),
    List.length_append, fip_skip pSeg3b _ _ (fun i hi => attemptPub_not _
      (noPreSuf_sound _ _ (by decide) _ i hi)),
    List.length_append, fip_skip pSeg3c _ _ (fun i hi => attemptPub_not _
      (noPreSuf_sound _ _ (by decide) _ i hi)),
    List.length_append, fip_skip r.affiliation _ _ (fun i hi =>
      attemptPub_not _ (noPre_inert_take _ _ _ 0 '<' (by decide) (by decide)
        (sanit_all _ haff) rfl i hi)),
    List.length_append, fip_skip pSeg4a _ _ (fun i hi => attemptPub_not _
      (noPreSuf_sound _ _ (by decide) _ i hi)),
    List.length_append, fip_skip pSeg4b _ _ (fun i hi => attemptPub_not _
      (noPreSuf_sound _ _ (by decide) _ i hi)),
    List.length_append, fip_skip pSeg4c _ _ (fun i hi => attemptPub_not _
      (noPreSuf_sound _ _ (by decide) _ i hi)),
    List.length_append, fip_skip r.bio _ _ (fun i hi =>
      attemptPub_not _ (noPre_inert_take _ _ _ 0 '<' (by decide) (by decide)
        (sanit_all _ hbio) rfl i hi)),
    List.length_append, fip_skip pSeg5a _ _ (fun i hi => attemptPub_not _
      (noPreSuf_sound _ _ (by decide) _ i hi)),
    List.length_append, fip_skip pSeg5b _ _ (fun i hi => attemptPub_not _
      (noPreSuf_sound _ _ (by decide) _ i hi)),
    List.length_append, fip_skip pSeg5c _ _ (fun i hi => attemptPub_not _
      (noPreSuf_sound _ _ (by decide) _ i hi)),
    List.length_append, fip_skip r.keywords _ _ (fun i hi =>
      attemptPub_not _ (noPre_inert_take _ _ _ 0 '<' (by decide) (by decide)
        (sanit_all _ hkw) rfl i hi)),
    List.length_append, fip_skip pSeg6a _ _ (fun i hi => attemptPub_not _
      (noPreSuf_sound _ _ (by decide) _ i hi)),
    List.length_append, fip_skip pSeg6b _ _ (fun i hi => attemptPub_not _
      (noPreSuf_sound _ _ (by decide) _ i hi)),
    List.length_append, fip_skip pSeg6c _ _ (fun i hi => attemptPub_not _
      (noPreSuf_sound _ _ (by decide) _ i hi)),
    List.length_append, fip_skip r.thesis _ _ (fun i hi =>
      attemptPub_not _ (noPre_inert_take _ _ _ 0 '<' (by decide) (by decide)
        (sanit_all _ hth) rfl i hi)),
    List.length_append, fip_skip pSeg7 _ _ (fun i hi => attemptPub_not _
      (noPreSuf_sound _ _ (by decide) _ i hi))]
  exact fip_pubs r.recent_publications
    (fun p hp => List.all_eq_true.mp hpubs p hp) 0

/-! ### One render/parse round on a sanitized record -/

/-- `_parse_profile` after `_save_profile` on a sanitized record recovers
every field it renders and erases `cv_pdf` and `links`. -/
theorem parse_render (ls : List Char) (r : ProfileRecord)
    (hls : ls = lsKo ∨ ls = lsEn) (hsan : sanitProfile r = true) :
    parse_profile (renderCore ls r) = eraseExtra r := by
  have hfields := hsan
  simp only [sanitProfile, Bool.and_eq_true] at hfields
  obtain ⟨⟨⟨⟨⟨⟨hnp, hns⟩, haff⟩, hbio⟩, hkw⟩, hth⟩, hpubs⟩ := hfields
  unfold parse_profile
  rw [scan_h1_render ls r hls hnp,
    scan_nameEn_render ls r hls hnp hns,
    scan_affil_render ls r hls hnp hns haff,
    scan_bio_render ls r hls hnp hns haff hbio,
    scan_kw_render ls r hls hnp hns haff hbio hkw,
    scan_thesis_render ls r hls hnp hns haff hbio hkw hth,
    scan_cv_render ls r hls hsan,
    scan_linkedin_render ls r hls hsan,
    scan_github_render ls r hls hsan,
    scan_twitter_render ls r hls hsan,
    scan_email_render ls r hls hsan,
    fip_render ls r hls hsan]
  simp only [Option.getD_some, Option.getD_none]
  rw [sanit_strip_space r.name_primary hnp,
    sanit_strip r.name_secondary hns,
    sanit_strip r.affiliation haff,
    sanit_strip r.bio hbio, brSub_inert r.bio (sanit_all _ hbio),
    sanit_strip r.keywords hkw,
    sanit_strip r.thesis hth]
  rfl

/-- C7 (amended): for every sanitized record — scalar fields non-empty over
the inert charset (alphanumerics, space, `-`, `_`, `.`, `,`) with no edge
space, publications likewise — and every `lang`, parse-after-render is
idempotent: a second render/parse round changes nothing. -/
theorem claimC7 (r : ProfileRecord) (lang : List Char)
    (hsan : sanitProfile r = true) :
    parse_profile (save_profile (parse_profile (save_profile r lang)) lang)
      = parse_profile (save_profile r lang) := by
  unfold save_profile
  have hls : (if lang == strL "ko" then lsKo else lsEn) = lsKo ∨
      (if lang == strL "ko" then lsKo else lsEn) = lsEn := by
    by_cases h : lang == strL "ko"
    · exact Or.inl (by rw [if_pos h])
    · exact Or.inr (by rw [if_neg h])
  rw [parse_render _ r hls hsan]
  have hsan2 : sanitProfile (eraseExtra r) = true := hsan
  rw [parse_render _ (eraseExtra r) hls hsan2]
  rfl

/-- C7 counterexample: on `rBad`, whose `name_primary` contains html
markup, the affiliation field grows again on the second round, so
parse-after-render is NOT idempotent for arbitrary records. -/
theorem claimC7_counterexample :
    (parse_profile (save_profile (parse_profile (save_profile rBad
        (strL "ko"))) (strL "ko"))).affiliation
      ≠ (parse_profile (save_profile rBad (strL "ko"))).affiliation := by
  have h1 : parse_profile (save_profile rBad (strL "ko")) = f1lit := by
    decide
  rw [h1]
  decide

/-- C7 witness: the amended idempotence law applied to a concrete
sanitized record. -/
theorem claimC7_witness :
    sanitProfile rSamp = true ∧
      parse_profile (save_profile (parse_profile (save_profile rSamp
          (strL "ko"))) (strL "ko"))
        = parse_profile (save_profile rSamp (strL "ko")) :=
  ⟨by decide, claimC7 rSamp (strL "ko") (by decide)⟩

/-! ### The config patch: lines of a text around one rewritten segment -/

theorem mem_of_lineComplete_ne (X : List Char) (hc : lineComplete X)
    (hne : X ≠ []) : '\n' ∈ X := by
  rcases hc with rfl | hlast
  · exact absurd rfl hne
  · obtain ⟨t, rfl⟩ := exists_append_of_getLast _ _ hlast
    simp

end BlogAdmin
